import Mathlib

/-!
# A verification development for the in-memory B-tree of `b_tree.h` / `b_tree.cc`

The C++ classes `Element`, `Node` and `BTree` are embedded as Lean data and
their member functions as Lean functions.

* Keys are `std::string` compared with `<`, `>` and `==`, a linear order, so the
  development is carried out for an arbitrary linearly ordered key type `K`;
  values are never inspected and are an arbitrary type `V`.
* A `std::vector<std::unique_ptr<T>>` is a `List T`.  Ownership moves are value
  passing.  In-place mutation is state passing: a member function returns the
  new state of the object next to its C++ result.
* An out-of-range `operator[]` and a `resize` that would create null slots have
  no defined result; the functions return `none` there (`Option`).
* Null pointers appear only while `Node::InsertOrUpdate` moves entries between
  vectors.  A second, pointer-level model of that function (`InsertOrUpdateP`)
  runs the moves on nullable slots and is proved to return the same results.
* `order_` is an `int`; it is taken as a natural number here.  The only mixed
  signed/unsigned expression, `elements_.size() < order_ - 1`, is written so
  that it also agrees with C++ for `order_ = 0`.
-/

namespace BT

/-! ## Data model (b_tree.h) -/

/-- An owned key/value pair (class `Element`). -/
structure Element (K V : Type) where
  key : K
  value : V
deriving DecidableEq

/-- Models `Element::set_value`: the key stays, the value is replaced. -/
def Element.set_value {K V : Type} (e : Element K V) (value : V) : Element K V :=
  { e with value := value }

/-- A tree node (class `Node`): `order_`, `elements_`, `children_`. -/
inductive Node (K V : Type) where
  | mk (order_ : Nat) (elements_ : List (Element K V)) (children_ : List (Node K V))

/-- The result of a split (struct `Node::Overflow`). -/
structure Overflow (K V : Type) where
  new_median : Element K V
  above_median : Node K V

/-- The tree handle (class `BTree`): `order_` and `root_`. -/
structure BTree (K V : Type) where
  order_ : Nat
  root_ : Node K V

variable {K V : Type}

/-- Field `order_` of a node. -/
def Node.order : Node K V → Nat
  | .mk order_ _ _ => order_

/-- Field `elements_` of a node. -/
def Node.elements : Node K V → List (Element K V)
  | .mk _ elements_ _ => elements_

/-- Field `children_` of a node. -/
def Node.children : Node K V → List (Node K V)
  | .mk _ _ children_ => children_

/-- Models `Node::IsLeafNode`: `children_.empty()`. -/
def Node.IsLeafNode (n : Node K V) : Bool :=
  n.children.isEmpty

/-! ## Ordered search (b_tree.cc, lines 20-52) -/

/-- The `while` loop of `Node::LowerBound`, one iteration per unit of fuel.
`none` stands for an out-of-range `elements_[middle]` or for exhausted fuel. -/
def Node.LowerBoundLoop [LinearOrder K] (elements_ : List (Element K V)) (key : K) :
    Nat → Nat → Nat → Option Nat
  | 0, _, _ => none
  | fuel + 1, first, last =>
    if last - first > 0 then
      let middle := first + (last - first) / 2
      match elements_[middle]? with
      | none => none
      | some e =>
        if e.key < key then
          Node.LowerBoundLoop elements_ key fuel (middle + 1) last
        else if e.key > key then
          Node.LowerBoundLoop elements_ key fuel first middle
        else
          some middle
    else
      some first

/-- Models `Node::LowerBound`: `first = 0`, `last = elements_.size()`, then the
loop.  The fuel `elements_.size() + 1` is never exhausted (`LowerBoundLoop_isSome`). -/
def Node.LowerBound [LinearOrder K] (elements_ : List (Element K V)) (key : K) : Option Nat :=
  Node.LowerBoundLoop elements_ key (elements_.length + 1) 0 elements_.length

mutual
/-- Models `Node::GetKey`.  The result `some none` is `return false`, the
result `some (some v)` is `*value = v; return true`. -/
def Node.GetKey [LinearOrder K] : Node K V → K → Option (Option V)
  | .mk _ elements_ children_, key =>
    match Node.LowerBound elements_ key with
    | none => none
    | some lower_bound =>
      if lower_bound ≠ elements_.length then
        match elements_[lower_bound]? with
        | none => none
        | some e =>
          if e.key = key then some (some e.value)
          else if children_.isEmpty then some none
          else Node.GetKeyChild children_ lower_bound key
      else if children_.isEmpty then some none
      else Node.GetKeyChild children_ lower_bound key
/-- The call `children_[lower_bound]->GetKey(key, value)`. -/
def Node.GetKeyChild [LinearOrder K] : List (Node K V) → Nat → K → Option (Option V)
  | [], _, _ => none
  | c :: _, 0, key => Node.GetKey c key
  | _ :: cs, i + 1, key => Node.GetKeyChild cs i key
end

/-! ## Vector helpers (b_tree.cc, lines 54-70) -/

/-- The `for` loop of `InsertAndShift`: `n` iterations from index `i`, each
swapping `(*vec)[i]` with `*value`. -/
def InsertAndShiftLoop {T : Type} : Nat → Nat → T → List T → Option (T × List T)
  | 0, _, value, vec => some (value, vec)
  | n + 1, i, value, vec =>
    match vec[i]? with
    | none => none
    | some x => InsertAndShiftLoop n (i + 1) x (vec.set i value)

/-- Models `InsertAndShift(at_position, max_shift_position, value, vec)`;
returns the final `*value` and `*vec`. -/
def InsertAndShift {T : Type} (at_position max_shift_position : Nat) (value : T)
    (vec : List T) : Option (T × List T) :=
  InsertAndShiftLoop (max_shift_position - at_position) at_position value vec

/-- The `for` loop of `Transfer`: `n` iterations from index `i`, each appending
`(*from)[i]` to `*to`. -/
def TransferLoop {T : Type} : Nat → Nat → List T → List T → Option (List T)
  | 0, _, _, vto => some vto
  | n + 1, i, vfrom, vto =>
    match vfrom[i]? with
    | none => none
    | some x => TransferLoop n (i + 1) vfrom (vto ++ [x])

/-- Models `Transfer(min, max, from, to)`; returns the final `*to`.  The
moved-from slots of `*from` are all cut off by the `resize` that follows every
use, so `*from` is left as it is. -/
def Transfer {T : Type} (min max : Nat) (vfrom vto : List T) : Option (List T) :=
  TransferLoop (max - min) min vfrom vto

/-- Models `vec.resize(n)` for `n <= vec.size()` (truncation).  Growing would
fill the vector with null pointers, which a node never holds: `none`. -/
def resize {T : Type} (vec : List T) (n : Nat) : Option (List T) :=
  if n ≤ vec.length then some (vec.take n) else none

/-! ## Insertion (b_tree.cc, lines 92-208) -/

/-- The comparison `elements_.size() < order_ - 1` of a `size_t` with an `int`:
the right side is converted to unsigned, so `order_ = 0` gives the largest
value and the comparison holds. -/
def HasRoom (order_ : Nat) (size : Nat) : Bool :=
  order_ = 0 ∨ size < order_ - 1

/-- The leaf case of `Node::InsertOrUpdate` (lines 102-132), entered with
`lower_bound` computed and no exact match. -/
def Node.InsertLeaf (order_ : Nat) (elements_ : List (Element K V)) (lower_bound : Nat)
    (key : K) (value : V) : Option (Node K V × Option (Overflow K V)) :=
  let middle := order_ / 2
  let new_element : Element K V := ⟨key, value⟩
  if HasRoom order_ elements_.length then do
    let (new_element, elements_) ←
      InsertAndShift lower_bound elements_.length new_element elements_
    pure (.mk order_ (elements_ ++ [new_element]) [], none)
  else if lower_bound ≤ middle then do
    let (new_element, elements_) ← InsertAndShift lower_bound middle new_element elements_
    let new_median := new_element
    let new_elements ← Transfer middle elements_.length elements_ []
    let elements_ ← resize elements_ middle
    pure (.mk order_ elements_ [], some ⟨new_median, .mk order_ new_elements []⟩)
  else do
    let new_median ← elements_[middle]?
    let new_elements ← Transfer (middle + 1) lower_bound elements_ []
    let new_elements := new_elements ++ [new_element]
    let new_elements ← Transfer lower_bound elements_.length elements_ new_elements
    let elements_ ← resize elements_ middle
    pure (.mk order_ elements_ [], some ⟨new_median, .mk order_ new_elements []⟩)

/-- The part of `Node::InsertOrUpdate` after the recursive call returned an
overflow (lines 139-182). -/
def Node.AbsorbOverflow (order_ : Nat) (elements_ : List (Element K V))
    (children_ : List (Node K V)) (lower_bound : Nat) (child_overflow : Overflow K V) :
    Option (Node K V × Option (Overflow K V)) :=
  let middle := order_ / 2
  if HasRoom order_ elements_.length then do
    let (new_median, elements_) ←
      InsertAndShift lower_bound elements_.length child_overflow.new_median elements_
    let elements_ := elements_ ++ [new_median]
    let (above_median, children_) ←
      InsertAndShift (lower_bound + 1) children_.length child_overflow.above_median children_
    let children_ := children_ ++ [above_median]
    pure (.mk order_ elements_ children_, none)
  else if lower_bound ≤ middle then do
    let (child_median, elements_) ←
      InsertAndShift lower_bound middle child_overflow.new_median elements_
    let new_median := child_median
    let new_elements ← Transfer middle elements_.length elements_ []
    let (child_above, children_) ←
      InsertAndShift (lower_bound + 1) (middle + 1) child_overflow.above_median children_
    let new_children := [child_above]
    let new_children ← Transfer (middle + 1) children_.length children_ new_children
    let elements_ ← resize elements_ middle
    let children_ ← resize children_ (middle + 1)
    pure (.mk order_ elements_ children_,
      some ⟨new_median, .mk order_ new_elements new_children⟩)
  else do
    let new_median ← elements_[middle]?
    let new_elements ← Transfer (middle + 1) lower_bound elements_ []
    let new_elements := new_elements ++ [child_overflow.new_median]
    let new_elements ← Transfer lower_bound elements_.length elements_ new_elements
    let new_children ← Transfer (middle + 1) (lower_bound + 1) children_ []
    let new_children := new_children ++ [child_overflow.above_median]
    let new_children ← Transfer (lower_bound + 1) children_.length children_ new_children
    let elements_ ← resize elements_ middle
    let children_ ← resize children_ (middle + 1)
    pure (.mk order_ elements_ children_,
      some ⟨new_median, .mk order_ new_elements new_children⟩)

mutual
/-- Models `Node::InsertOrUpdate`: returns the node after the call and the
`absl::optional<Overflow>` result. -/
def Node.InsertOrUpdate [LinearOrder K] :
    Node K V → K → V → Option (Node K V × Option (Overflow K V))
  | .mk order_ elements_ children_, key, value =>
    match Node.LowerBound elements_ key with
    | none => none
    | some lower_bound =>
      if lower_bound < elements_.length ∧
          (elements_[lower_bound]?).map Element.key = some key then
        some (.mk order_ (elements_.modify (fun e => e.set_value value) lower_bound) children_,
          none)
      else if children_.isEmpty then
        Node.InsertLeaf order_ elements_ lower_bound key value
      else
        match Node.InsertOrUpdateChild children_ lower_bound key value with
        | none => none
        | some (children_, none) => some (.mk order_ elements_ children_, none)
        | some (children_, some child_overflow) =>
          Node.AbsorbOverflow order_ elements_ children_ lower_bound child_overflow
/-- The call `children_[lower_bound]->InsertOrUpdate(key, value)`: the child at
that index is replaced by its state after the call. -/
def Node.InsertOrUpdateChild [LinearOrder K] :
    List (Node K V) → Nat → K → V → Option (List (Node K V) × Option (Overflow K V))
  | [], _, _, _ => none
  | c :: cs, 0, key, value =>
    match Node.InsertOrUpdate c key value with
    | none => none
    | some (c, child_overflow) => some (c :: cs, child_overflow)
  | c :: cs, i + 1, key, value =>
    match Node.InsertOrUpdateChild cs i key value with
    | none => none
    | some (cs, child_overflow) => some (c :: cs, child_overflow)
end

/-- Models the constructor `BTree::BTree(order)`: an empty root node. -/
def BTree.new (order : Nat) : BTree K V :=
  ⟨order, .mk order [] []⟩

/-- Models `BTree::Get`. -/
def BTree.Get [LinearOrder K] (t : BTree K V) (key : K) : Option (Option V) :=
  t.root_.GetKey key

/-- Models `BTree::InsertOrUpdate`: returns the tree after the call. -/
def BTree.InsertOrUpdate [LinearOrder K] (t : BTree K V) (key : K) (value : V) :
    Option (BTree K V) :=
  match t.root_.InsertOrUpdate key value with
  | none => none
  | some (root_, none) => some ⟨t.order_, root_⟩
  | some (root_, some overflow) =>
    some ⟨t.order_, .mk t.order_ [overflow.new_median] [root_, overflow.above_median]⟩

/-- Models `BTree::Remove`: returns the tree after the call and the result. -/
def BTree.Remove (t : BTree K V) (_key : K) : BTree K V × Bool :=
  (t, false)

/-- A finite sequence of `InsertOrUpdate` calls, applied from left to right. -/
def BTree.InsertAll [LinearOrder K] (t : BTree K V) : List (K × V) → Option (BTree K V)
  | [] => some t
  | (key, value) :: calls =>
    match t.InsertOrUpdate key value with
    | none => none
    | some t => BTree.InsertAll t calls

/-! ## Specification-level notions -/

mutual
/-- In-order traversal of a node: `children[0]`, `elements[0]`, `children[1]`,
..., `elements[n-1]`, `children[n]`, recursively; a leaf lists its elements. -/
def Node.inorder : Node K V → List (Element K V)
  | .mk _ elements_ children_ => Node.inorderList children_ elements_
/-- In-order traversal of a list of children interleaved with elements. -/
def Node.inorderList : List (Node K V) → List (Element K V) → List (Element K V)
  | [], es => es
  | c :: cs, [] => Node.inorder c ++ Node.inorderList cs []
  | c :: cs, e :: es => Node.inorder c ++ e :: Node.inorderList cs es
end

/-- What follows the first child in the in-order traversal of a node: the
elements `es` interleaved with the remaining children `cs`. -/
def Node.inorderTail (es : List (Element K V)) (cs : List (Node K V)) : List (Element K V) :=
  match es with
  | [] => Node.inorderList cs []
  | e :: es => e :: Node.inorderList cs es

mutual
/-- All nodes of the subtree rooted at a node, the node itself first. -/
def Node.nodes : Node K V → List (Node K V)
  | .mk order_ elements_ children_ =>
    .mk order_ elements_ children_ :: Node.nodesList children_
/-- All nodes of a list of subtrees. -/
def Node.nodesList : List (Node K V) → List (Node K V)
  | [] => []
  | c :: cs => Node.nodes c ++ Node.nodesList cs
end

mutual
/-- The depth, counted from the node, of every leaf below it. -/
def Node.leafDepths : Node K V → List Nat
  | .mk _ _ children_ =>
    if children_.isEmpty then [0] else (Node.leafDepthsList children_).map (· + 1)
/-- The leaf depths of a list of subtrees. -/
def Node.leafDepthsList : List (Node K V) → List Nat
  | [] => []
  | c :: cs => Node.leafDepths c ++ Node.leafDepthsList cs
end

mutual
/-- Height of a node: `0` for a leaf, else one more than its first child. -/
def Node.height : Node K V → Nat
  | .mk _ _ children_ => Node.heightList children_
/-- Height of a node whose children are the given list. -/
def Node.heightList : List (Node K V) → Nat
  | [] => 0
  | c :: _ => Node.height c + 1
end

mutual
/-- The same tree with the value of every element of key `key` set to `value`. -/
def Node.setValue [DecidableEq K] (key : K) (value : V) : Node K V → Node K V
  | .mk order_ elements_ children_ =>
    .mk order_ (elements_.map fun e => if e.key = key then e.set_value value else e)
      (Node.setValueList key value children_)
/-- The function `Node.setValue` on a list of subtrees. -/
def Node.setValueList [DecidableEq K] (key : K) (value : V) :
    List (Node K V) → List (Node K V)
  | [] => []
  | c :: cs => Node.setValue key value c :: Node.setValueList key value cs
end

/-- Keys strictly increasing along a list of elements. -/
def SortedKeys [LinearOrder K] (l : List (Element K V)) : Prop :=
  l.Pairwise (fun a b => a.key < b.key)

/-- Association-list lookup: the value of the first element with the key. -/
def lookup [DecidableEq K] (key : K) : List (Element K V) → Option V
  | [] => none
  | e :: l => if e.key = key then some e.value else lookup key l

/-- Insert-or-update in a key-sorted association list. -/
def upsert [LinearOrder K] (key : K) (value : V) : List (Element K V) → List (Element K V)
  | [] => [⟨key, value⟩]
  | e :: l =>
    if e.key < key then e :: upsert key value l
    else if e.key = key then ⟨key, value⟩ :: l
    else ⟨key, value⟩ :: e :: l

/-- The reference map: assignment `map[key] = value`. -/
def RefMap.assign [DecidableEq K] (m : K → Option V) (key : K) (value : V) : K → Option V :=
  fun k => if k = key then some value else m k

/-- The reference map after a sequence of assignments to the empty map. -/
def RefMap.ofCalls [DecidableEq K] (calls : List (K × V)) : K → Option V :=
  calls.foldl (fun m kv => RefMap.assign m kv.1 kv.2) (fun _ => none)

/-- Structural well-formedness of a subtree of height `h` in a tree of order
`o`: every node carries order `o` and at most `o - 1` elements, an internal node
has one more child than elements, and all leaves are `h` levels down. -/
inductive Node.WF (o : Nat) : Nat → Node K V → Prop
  | leaf (es : List (Element K V)) : es.length ≤ o - 1 → Node.WF o 0 (.mk o es [])
  | node (h : Nat) (es : List (Element K V)) (cs : List (Node K V)) :
      es.length ≤ o - 1 → cs.length = es.length + 1 → (∀ c ∈ cs, Node.WF o h c) →
      Node.WF o (h + 1) (.mk o es cs)

/-- The postcondition of `Node::InsertOrUpdate` on a subtree of height `h`
whose updated in-order traversal is to be `l`: the node stays well formed at
the same height and, together with the promoted median and the new sibling
(well formed, same height) if there is an overflow, lists exactly `l`. -/
def Node.InsertPost (o h : Nat) (l : List (Element K V))
    (r : Node K V × Option (Overflow K V)) : Prop :=
  Node.WF o h r.1 ∧
    match r.2 with
    | none => r.1.inorder = l
    | some ov =>
      Node.WF o h ov.above_median ∧
        r.1.inorder ++ ov.new_median :: ov.above_median.inorder = l

/-- The invariant of a tree handle: the root is well formed for the order of
the handle and its in-order traversal is strictly increasing by key. -/
def BTree.Inv [LinearOrder K] (t : BTree K V) : Prop :=
  (∃ h, Node.WF t.order_ h t.root_) ∧ SortedKeys t.root_.inorder

/-- Minimum occupancy below a node: every node strictly below it holds at
least `o / 2` elements. -/
inductive Node.MinOcc (o : Nat) : Node K V → Prop
  | mk (order_ : Nat) (es : List (Element K V)) (cs : List (Node K V)) :
      (∀ c ∈ cs, o / 2 ≤ c.elements.length) → (∀ c ∈ cs, Node.MinOcc o c) →
      Node.MinOcc o (.mk order_ es cs)

variable {W : Type}

mutual
/-- The same tree with the function `f` applied to every element. -/
def Node.mapElements (f : Element K V → Element K W) : Node K V → Node K W
  | .mk order_ elements_ children_ =>
    .mk order_ (elements_.map f) (Node.mapElementsList f children_)
/-- The function `Node.mapElements` on a list of subtrees. -/
def Node.mapElementsList (f : Element K V → Element K W) : List (Node K V) → List (Node K W)
  | [] => []
  | c :: cs => Node.mapElements f c :: Node.mapElementsList f cs
end

/-- The function `Node.mapElements` on an overflow. -/
def Overflow.mapElements (f : Element K V → Element K W) (ov : Overflow K V) : Overflow K W :=
  ⟨f ov.new_median, ov.above_median.mapElements f⟩

/-- The function `Node.mapElements` on the result of `Node::InsertOrUpdate`. -/
def Node.mapResult (f : Element K V → Element K W)
    (r : Node K V × Option (Overflow K V)) : Node K W × Option (Overflow K W) :=
  (r.1.mapElements f, r.2.map (Overflow.mapElements f))

/-- The shape of a tree: its nodes and keys, the values erased. -/
def Node.shape (n : Node K V) : Node K Unit :=
  n.mapElements (fun e => ⟨e.key, ()⟩)

/-- The function `Node.mapElements` on a tree handle. -/
def BTree.mapElements (f : Element K V → Element K W) (t : BTree K V) : BTree K W :=
  ⟨t.order_, t.root_.mapElements f⟩

/-- The distinct keys of a list in the order of their first occurrence. -/
def firstKeys [DecidableEq K] : List K → List K
  | [] => []
  | k :: ks => k :: (firstKeys ks).filter (fun x => x ≠ k)

/-- Calls with the given keys and no information in the values. -/
def unitCalls (ks : List K) : List (K × Unit) :=
  ks.map (fun k => (k, ()))

/-! ## Pointer-level model of the moves in `Node::InsertOrUpdate`

The functions above pass elements and children by value.  Here a vector slot
is a `unique_ptr` that may be null (`none`): a swap or a `std::move` reads the
slot, a `std::move` leaves it null, a growing `resize` appends null slots.
Reading a slot that is out of range or null has no result, and neither has
finishing the call with a null slot left in a vector of a node. -/

/-- Reading slot `i` of a vector of nullable pointers: no result if `i` is
out of range or the slot is null. -/
def readSlot {T : Type} (vec : List (Option T)) (i : Nat) : Option T :=
  match vec[i]? with
  | some (some x) => some x
  | _ => none

/-- The `for` loop of `InsertAndShift` on nullable slots: each iteration swaps
`(*vec)[i]` with `*value`. -/
def InsertAndShiftLoopP {T : Type} : Nat → Nat → T → List (Option T) →
    Option (T × List (Option T))
  | 0, _, value, vec => some (value, vec)
  | n + 1, i, value, vec =>
    match readSlot vec i with
    | none => none
    | some x => InsertAndShiftLoopP n (i + 1) x (vec.set i (some value))

/-- Models `InsertAndShift` on nullable slots. -/
def InsertAndShiftP {T : Type} (at_position max_shift_position : Nat) (value : T)
    (vec : List (Option T)) : Option (T × List (Option T)) :=
  InsertAndShiftLoopP (max_shift_position - at_position) at_position value vec

/-- The `for` loop of `Transfer` on nullable slots: each iteration appends
`std::move((*from)[i])` to `*to` and leaves `(*from)[i]` null. -/
def TransferLoopP {T : Type} : Nat → Nat → List (Option T) → List T →
    Option (List (Option T) × List T)
  | 0, _, vfrom, vto => some (vfrom, vto)
  | n + 1, i, vfrom, vto =>
    match readSlot vfrom i with
    | none => none
    | some x => TransferLoopP n (i + 1) (vfrom.set i none) (vto ++ [x])

/-- Models `Transfer` on nullable slots; returns the final `*from` and `*to`. -/
def TransferP {T : Type} (min max : Nat) (vfrom : List (Option T)) (vto : List T) :
    Option (List (Option T) × List T) :=
  TransferLoopP (max - min) min vfrom vto

/-- Models `std::move(vec[i])`: the pointer read and the vector with slot `i`
left null. -/
def moveSlot {T : Type} (vec : List (Option T)) (i : Nat) : Option (T × List (Option T)) :=
  match readSlot vec i with
  | none => none
  | some x => some (x, vec.set i none)

/-- Models `vec.resize(n)` on nullable slots: truncation, or null slots
appended. -/
def resizeP {T : Type} (vec : List (Option T)) (n : Nat) : List (Option T) :=
  vec.take n ++ List.replicate (n - vec.length) none

/-- The contents of a vector of a node: no result if a slot is null. -/
def noNull {T : Type} : List (Option T) → Option (List T)
  | [] => some []
  | none :: _ => none
  | some x :: vec =>
    match noNull vec with
    | none => none
    | some l => some (x :: l)

/-- The leaf case of `Node::InsertOrUpdate` (lines 102-132) on nullable
slots, entered with the elements of the node, none of them null. -/
def Node.InsertLeafP (order_ : Nat) (elements : List (Element K V)) (lower_bound : Nat)
    (key : K) (value : V) : Option (Node K V × Option (Overflow K V)) :=
  let middle := order_ / 2
  let new_element : Element K V := ⟨key, value⟩
  let elements_ : List (Option (Element K V)) := elements.map some
  if HasRoom order_ elements_.length then do
    let (new_element, elements_) ←
      InsertAndShiftP lower_bound elements_.length new_element elements_
    let elements_ ← noNull (elements_ ++ [some new_element])
    pure (.mk order_ elements_ [], none)
  else if lower_bound ≤ middle then do
    let (new_element, elements_) ← InsertAndShiftP lower_bound middle new_element elements_
    let new_median := new_element
    let (elements_, new_elements) ← TransferP middle elements_.length elements_ []
    let elements_ ← noNull (resizeP elements_ middle)
    pure (.mk order_ elements_ [], some ⟨new_median, .mk order_ new_elements []⟩)
  else do
    let (new_median, elements_) ← moveSlot elements_ middle
    let (elements_, new_elements) ← TransferP (middle + 1) lower_bound elements_ []
    let new_elements := new_elements ++ [new_element]
    let (elements_, new_elements) ←
      TransferP lower_bound elements_.length elements_ new_elements
    let elements_ ← noNull (resizeP elements_ middle)
    pure (.mk order_ elements_ [], some ⟨new_median, .mk order_ new_elements []⟩)

/-- The part of `Node::InsertOrUpdate` after the recursive call returned an
overflow (lines 139-182) on nullable slots, entered with the elements and
children of the node, none of them null. -/
def Node.AbsorbOverflowP (order_ : Nat) (elements : List (Element K V))
    (children : List (Node K V)) (lower_bound : Nat) (child_overflow : Overflow K V) :
    Option (Node K V × Option (Overflow K V)) :=
  let middle := order_ / 2
  let elements_ : List (Option (Element K V)) := elements.map some
  let children_ : List (Option (Node K V)) := children.map some
  if HasRoom order_ elements_.length then do
    let (new_median, elements_) ←
      InsertAndShiftP lower_bound elements_.length child_overflow.new_median elements_
    let elements_ ← noNull (elements_ ++ [some new_median])
    let (above_median, children_) ←
      InsertAndShiftP (lower_bound + 1) children_.length child_overflow.above_median children_
    let children_ ← noNull (children_ ++ [some above_median])
    pure (.mk order_ elements_ children_, none)
  else if lower_bound ≤ middle then do
    let (child_median, elements_) ←
      InsertAndShiftP lower_bound middle child_overflow.new_median elements_
    let new_median := child_median
    let (elements_, new_elements) ← TransferP middle elements_.length elements_ []
    let (child_above, children_) ←
      InsertAndShiftP (lower_bound + 1) (middle + 1) child_overflow.above_median children_
    let new_children := [child_above]
    let (children_, new_children) ←
      TransferP (middle + 1) children_.length children_ new_children
    let elements_ ← noNull (resizeP elements_ middle)
    let children_ ← noNull (resizeP children_ (middle + 1))
    pure (.mk order_ elements_ children_,
      some ⟨new_median, .mk order_ new_elements new_children⟩)
  else do
    let (new_median, elements_) ← moveSlot elements_ middle
    let (elements_, new_elements) ← TransferP (middle + 1) lower_bound elements_ []
    let new_elements := new_elements ++ [child_overflow.new_median]
    let (elements_, new_elements) ←
      TransferP lower_bound elements_.length elements_ new_elements
    let (children_, new_children) ← TransferP (middle + 1) (lower_bound + 1) children_ []
    let new_children := new_children ++ [child_overflow.above_median]
    let (children_, new_children) ←
      TransferP (lower_bound + 1) children_.length children_ new_children
    let elements_ ← noNull (resizeP elements_ middle)
    let children_ ← noNull (resizeP children_ (middle + 1))
    pure (.mk order_ elements_ children_,
      some ⟨new_median, .mk order_ new_elements new_children⟩)

mutual
/-- Models `Node::InsertOrUpdate` with the moves on nullable slots. -/
def Node.InsertOrUpdateP [LinearOrder K] :
    Node K V → K → V → Option (Node K V × Option (Overflow K V))
  | .mk order_ elements_ children_, key, value =>
    match Node.LowerBound elements_ key with
    | none => none
    | some lower_bound =>
      if lower_bound < elements_.length ∧
          (elements_[lower_bound]?).map Element.key = some key then
        some (.mk order_ (elements_.modify (fun e => e.set_value value) lower_bound) children_,
          none)
      else if children_.isEmpty then
        Node.InsertLeafP order_ elements_ lower_bound key value
      else
        match Node.InsertOrUpdateChildP children_ lower_bound key value with
        | none => none
        | some (children_, none) => some (.mk order_ elements_ children_, none)
        | some (children_, some child_overflow) =>
          Node.AbsorbOverflowP order_ elements_ children_ lower_bound child_overflow
/-- The call `children_[lower_bound]->InsertOrUpdate(key, value)` of the
pointer-level model. -/
def Node.InsertOrUpdateChildP [LinearOrder K] :
    List (Node K V) → Nat → K → V → Option (List (Node K V) × Option (Overflow K V))
  | [], _, _, _ => none
  | c :: cs, 0, key, value =>
    match Node.InsertOrUpdateP c key value with
    | none => none
    | some (c, child_overflow) => some (c :: cs, child_overflow)
  | c :: cs, i + 1, key, value =>
    match Node.InsertOrUpdateChildP cs i key value with
    | none => none
    | some (cs, child_overflow) => some (c :: cs, child_overflow)
end

/-- The structural invariants of the nodes of a subtree of order `o`:
elements strictly increasing by key, at most `o - 1` of them, and no children
or one more child than elements. -/
inductive Node.Structural [LinearOrder K] (o : Nat) : Node K V → Prop
  | mk (es : List (Element K V)) (cs : List (Node K V)) :
      SortedKeys es → es.length ≤ o - 1 → (cs = [] ∨ cs.length = es.length + 1) →
      (∀ c ∈ cs, Node.Structural o c) → Node.Structural o (.mk o es cs)

/-! ## The vector helpers as list operations -/

theorem InsertAndShiftLoop_append {T : Type} (Q : List T) :
    ∀ (P S : List T) (v : T) (Q1 : List T) (x : T), v :: Q = Q1 ++ [x] →
      InsertAndShiftLoop Q.length P.length v (P ++ Q ++ S) = some (x, P ++ Q1 ++ S) := by
  induction Q with
  | nil =>
    intro P S v Q1 x h
    have h1 : [v] = Q1 ++ [x] := h
    have h2 : Q1 = [] ∧ v = x := by
      cases Q1 with
      | nil => simpa using h1
      | cons a Q2 =>
        exfalso
        have := congrArg List.length h1
        simp at this
    obtain ⟨rfl, rfl⟩ := h2
    simp [InsertAndShiftLoop]
  | cons q Q ih =>
    intro P S v Q1 x h
    cases Q1 with
    | nil =>
      exfalso
      have := congrArg List.length h
      simp at this
    | cons a Q2 =>
      simp only [List.cons_append, List.cons.injEq] at h
      obtain ⟨rfl, h⟩ := h
      have hget : (P ++ (q :: Q) ++ S)[P.length]? = some q := by
        rw [List.append_assoc, List.getElem?_append_right (le_refl _)]
        simp
      have hset : (P ++ (q :: Q) ++ S).set P.length v = (P ++ [v]) ++ Q ++ S := by
        simp [List.append_assoc, List.set_append]
      simp only [List.length_cons, InsertAndShiftLoop, hget, hset]
      have := ih (P ++ [v]) S q Q2 x h
      simpa [List.append_assoc] using this

/-- With `at_position <= max_shift_position <= vec.size()`, `InsertAndShift`
leaves in `vec[0, max)` the first `max` entries of `vec` with `value` inserted
at `at_position`, and in `value` the entry that follows them. -/
theorem InsertAndShift_eq {T : Type} (a m : Nat) (v : T) (vec L R : List T) (x : T)
    (ham : a ≤ m) (hm : m ≤ vec.length) (hL : L.length = m)
    (h : vec.take a ++ v :: vec.drop a = L ++ x :: R) :
    InsertAndShift a m v vec = some (x, L ++ vec.drop m) ∧ R = vec.drop m := by
  -- split `vec` as `P ++ Q ++ S`
  have hvec : vec = vec.take a ++ (vec.drop a).take (m - a) ++ vec.drop m := by
    have h1 : vec.drop a = (vec.drop a).take (m - a) ++ (vec.drop a).drop (m - a) :=
      (List.take_append_drop _ _).symm
    have h2 : (vec.drop a).drop (m - a) = vec.drop m := by
      rw [List.drop_drop]; congr 1; omega
    rw [List.append_assoc, ← h2, ← h1, List.take_append_drop]
  set P := vec.take a with hP
  set Q := (vec.drop a).take (m - a) with hQ
  set S := vec.drop m with hS
  have hPlen : P.length = a := by simp [hP]; omega
  have hQlen : Q.length = m - a := by simp [hQ]; omega
  have hda : vec.drop a = Q ++ S := by
    have := congrArg (List.drop a) hvec
    rw [List.append_assoc, List.drop_left' hPlen] at this
    exact this
  rw [hda] at h
  -- `P ++ v :: Q ++ S = L ++ x :: R` with `|L| = |P| + |Q|`
  obtain ⟨Q1, x1, hQ1⟩ : ∃ Q1 x1, v :: Q = Q1 ++ [x1] := by
    have : v :: Q ≠ [] := by simp
    exact ⟨(v :: Q).dropLast, (v :: Q).getLast this, (List.dropLast_append_getLast this).symm⟩
  have hQ1len : Q1.length = m - a := by
    have := congrArg List.length hQ1
    simp at this; omega
  have h3 : (P ++ Q1) ++ x1 :: S = L ++ x :: R := by
    rw [← h]
    have : v :: (Q ++ S) = Q1 ++ x1 :: S := by
      have := congrArg (· ++ S) hQ1
      simpa using this
    rw [this, List.append_assoc]
  have h4 : (P ++ Q1).length = L.length := by simp [hPlen, hQ1len, hL]; omega
  have h5 := List.append_inj h3 h4
  obtain ⟨h5a, h5b⟩ := h5
  simp only [List.cons.injEq] at h5b
  obtain ⟨rfl, rfl⟩ := h5b
  refine ⟨?_, rfl⟩
  have := InsertAndShiftLoop_append Q P S v Q1 x1 hQ1
  rw [hQlen, hPlen, ← hvec] at this
  rw [InsertAndShift, this, h5a]

theorem TransferLoop_eq {T : Type} (n : Nat) :
    ∀ (i : Nat) (vfrom vto : List T), i + n ≤ vfrom.length →
      TransferLoop n i vfrom vto = some (vto ++ (vfrom.drop i).take n) := by
  induction n with
  | zero => intro i vfrom vto _; simp [TransferLoop]
  | succ n ih =>
    intro i vfrom vto h
    have hi : i < vfrom.length := by omega
    have hget : vfrom[i]? = some vfrom[i] := List.getElem?_eq_getElem hi
    simp only [TransferLoop, hget]
    rw [ih (i + 1) vfrom _ (by omega)]
    congr 1
    rw [List.drop_eq_getElem_cons hi, List.take_succ_cons, List.append_assoc]
    rfl

/-- With `max <= from.size()`, `Transfer` appends `from[min, max)` to `to`. -/
theorem Transfer_eq {T : Type} (min max : Nat) (vfrom vto : List T)
    (h : max ≤ vfrom.length) :
    Transfer min max vfrom vto = some (vto ++ (vfrom.take max).drop min) := by
  by_cases hmm : min ≤ max
  · rw [Transfer, TransferLoop_eq (max - min) min vfrom vto (by omega)]
    congr 2
    rw [List.drop_take]
  · have h0 : max - min = 0 := by omega
    have h1 : (vfrom.take max).drop min = [] := by
      apply List.drop_eq_nil_of_le
      simp; omega
    rw [Transfer, h0, h1]
    simp [TransferLoop]

theorem resize_eq {T : Type} (vec : List T) (n : Nat) (h : n ≤ vec.length) :
    resize vec n = some (vec.take n) := by
  simp [resize, h]

/-! ## `LowerBound` -/

theorem SortedKeys.getElem?_lt [LinearOrder K] {es : List (Element K V)} (hs : SortedKeys es)
    {i j : Nat} {a b : Element K V} (hij : i < j) (ha : es[i]? = some a)
    (hb : es[j]? = some b) : a.key < b.key := by
  obtain ⟨hi, rfl⟩ := List.getElem?_eq_some.1 ha
  obtain ⟨hj, rfl⟩ := List.getElem?_eq_some.1 hb
  exact List.pairwise_iff_getElem.1 hs i j hi hj hij

/-- The loop of `LowerBound` never reads out of range and never runs out of
fuel when `last - first < fuel`; its result lies in `[first, last]`. -/
theorem LowerBoundLoop_isSome [LinearOrder K] (es : List (Element K V)) (key : K) (fuel : Nat) :
    ∀ first last : Nat, first ≤ last → last ≤ es.length → last - first < fuel →
      ∃ i, Node.LowerBoundLoop es key fuel first last = some i ∧ first ≤ i ∧ i ≤ last := by
  induction fuel with
  | zero => intro first last _ _ h; omega
  | succ fuel ih =>
    intro first last hfl hl hfuel
    rw [Node.LowerBoundLoop]
    by_cases hd : last - first > 0
    · have hmid : first + (last - first) / 2 < es.length := by omega
      simp only [hd, if_true, List.getElem?_eq_getElem hmid]
      split_ifs with h1 h2
      · obtain ⟨i, hi, h3, h4⟩ := ih (first + (last - first) / 2 + 1) last (by omega) hl (by omega)
        exact ⟨i, hi, by omega, h4⟩
      · obtain ⟨i, hi, h3, h4⟩ := ih first (first + (last - first) / 2) (by omega) (by omega)
          (by omega)
        exact ⟨i, hi, h3, by omega⟩
      · exact ⟨_, rfl, by omega, by omega⟩
    · simp only [hd, if_false]
      exact ⟨first, rfl, le_refl _, hfl⟩

theorem LowerBoundLoop_spec [LinearOrder K] (es : List (Element K V)) (key : K)
    (hs : SortedKeys es) (fuel : Nat) :
    ∀ first last : Nat, first ≤ last → last ≤ es.length → last - first < fuel →
      (∀ j e, j < first → es[j]? = some e → e.key < key) →
      (∀ j e, last ≤ j → es[j]? = some e → key < e.key) →
      ∃ i, Node.LowerBoundLoop es key fuel first last = some i ∧ i ≤ es.length ∧
        (∀ j e, j < i → es[j]? = some e → e.key < key) ∧
        (∀ j e, i ≤ j → es[j]? = some e → key ≤ e.key) := by
  induction fuel with
  | zero => intro first last _ _ h; omega
  | succ fuel ih =>
    intro first last hfl hl hfuel hlo hhi
    rw [Node.LowerBoundLoop]
    by_cases hd : last - first > 0
    · have hmid : first + (last - first) / 2 < es.length := by omega
      have hget : es[first + (last - first) / 2]? = some es[first + (last - first) / 2] :=
        List.getElem?_eq_getElem hmid
      simp only [hd, if_true, hget]
      split_ifs with h1 h2
      · apply ih (first + (last - first) / 2 + 1) last (by omega) hl (by omega) _ hhi
        intro j e hj he
        rcases Nat.lt_succ_iff_lt_or_eq.1 hj with hj | hj
        · exact lt_trans (hs.getElem?_lt hj he hget) h1
        · subst hj
          rw [hget] at he
          cases he
          exact h1
      · apply ih first (first + (last - first) / 2) (by omega) (by omega) (by omega) hlo
        intro j e hj he
        rcases Nat.lt_or_eq_of_le hj with hj | hj
        · exact lt_trans h2 (hs.getElem?_lt hj hget he)
        · subst hj
          rw [hget] at he
          cases he
          exact h2
      · have heq : es[first + (last - first) / 2].key = key :=
          le_antisymm (not_lt.1 h2) (not_lt.1 h1)
        refine ⟨_, rfl, le_of_lt hmid, ?_, ?_⟩
        · intro j e hj he
          rw [← heq]
          exact hs.getElem?_lt hj he hget
        · intro j e hj he
          rcases Nat.lt_or_eq_of_le hj with hj | hj
          · rw [← heq]
            exact le_of_lt (hs.getElem?_lt hj hget he)
          · subst hj
            rw [hget] at he
            cases he
            exact le_of_eq heq.symm
    · simp only [hd, if_false]
      have hfl2 : first = last := by omega
      subst hfl2
      exact ⟨first, rfl, hl, hlo, fun j e hj he => le_of_lt (hhi j e hj he)⟩

/-- On strictly increasing elements `LowerBound` returns an index that splits
them into the keys below `key` and the keys not below `key`. -/
theorem LowerBound_spec [LinearOrder K] (es : List (Element K V)) (key : K)
    (hs : SortedKeys es) :
    ∃ i, Node.LowerBound es key = some i ∧ i ≤ es.length ∧
      (∀ e ∈ es.take i, e.key < key) ∧ (∀ e ∈ es.drop i, key ≤ e.key) := by
  obtain ⟨i, hi, hle, h1, h2⟩ := LowerBoundLoop_spec es key hs (es.length + 1) 0 es.length
    (Nat.zero_le _) (le_refl _) (by omega) (fun j e hj _ => absurd hj (Nat.not_lt_zero _))
    (fun j e hj he => by
      have := (List.getElem?_eq_some.1 he).1
      omega)
  refine ⟨i, hi, hle, ?_, ?_⟩
  · intro e he
    obtain ⟨j, hj⟩ := List.mem_iff_getElem?.1 he
    rw [List.getElem?_take] at hj
    split_ifs at hj with hji
    exact h1 j e hji hj
  · intro e he
    obtain ⟨j, hj⟩ := List.mem_iff_getElem?.1 he
    rw [List.getElem?_drop] at hj
    exact h2 (i + j) e (by omega) hj

/-! ## The two non-recursive parts of `Node::InsertOrUpdate` -/

/-- The list `vec` with `v` inserted at index `a`. -/
theorem insertAt_length {T : Type} (a : Nat) (v : T) (vec : List T) (h : a ≤ vec.length) :
    (vec.take a ++ v :: vec.drop a).length = vec.length + 1 := by
  simp; omega

theorem list_split_at {T : Type} (l : List T) (m : Nat) (h : m < l.length) :
    ∃ L x R, l = L ++ x :: R ∧ L.length = m :=
  ⟨l.take m, l[m], l.drop (m + 1),
    by rw [← List.drop_eq_getElem_cons h, List.take_append_drop],
    by rw [List.length_take]; omega⟩

theorem list_split_unique {T : Type} {l L R : List T} {x : T} (h : l = L ++ x :: R) :
    L = l.take L.length ∧ l[L.length]? = some x ∧ R = l.drop (L.length + 1) := by
  subst h
  refine ⟨by simp, ?_, ?_⟩
  · rw [List.getElem?_append_right (le_refl _)]
    simp
  · rw [← List.drop_drop, List.drop_left]
    rfl

/-- The low branch of a split: `InsertAndShift` up to `m`, then `Transfer` of
the tail and `resize(m)`. -/
theorem split_low {T : Type} (a m : Nat) (v : T) (vec L R : List T) (x : T)
    (ham : a ≤ m) (hm : m ≤ vec.length) (hL : L.length = m)
    (h : vec.take a ++ v :: vec.drop a = L ++ x :: R) :
    ∃ vec1, InsertAndShift a m v vec = some (x, vec1) ∧
      (∀ pre, Transfer m vec1.length vec1 pre = some (pre ++ R)) ∧
      resize vec1 m = some L := by
  obtain ⟨h1, h2⟩ := InsertAndShift_eq a m v vec L R x ham hm hL h
  refine ⟨L ++ vec.drop m, h1, ?_, ?_⟩
  · intro pre
    rw [Transfer_eq _ _ _ _ (le_refl _), List.take_length, ← hL, List.drop_left, h2, hL]
  · rw [resize_eq _ _ (by simp [hL]), ← hL, List.take_left]

/-- The high branch of a split: `Transfer` of `[m, a)`, the new entry, then
`Transfer` of `[a, size)` and `resize`. -/
theorem split_high {T : Type} (a m : Nat) (v : T) (vec : List T)
    (hma : m ≤ a) (ha : a ≤ vec.length) :
    ∃ t1, Transfer m a vec [] = some t1 ∧
      Transfer a vec.length vec (t1 ++ [v]) =
        some ((vec.take a ++ v :: vec.drop a).drop m) := by
  refine ⟨(vec.take a).drop m, by rw [Transfer_eq _ _ _ _ ha]; rfl, ?_⟩
  rw [Transfer_eq _ _ _ _ (le_refl _), List.take_length,
    List.drop_append_of_le_length (by simp; omega)]
  simp

theorem HasRoom_eq_true {o n : Nat} (h : n < o - 1) : HasRoom o n = true := by
  simp [HasRoom, h]

theorem HasRoom_eq_false {o n : Nat} (ho : 1 ≤ o) (h : o - 1 ≤ n) : HasRoom o n = false := by
  simp [HasRoom]; omega

/-- A leaf with room: the new element is inserted at `lower_bound`. -/
theorem InsertLeaf_room (o : Nat) (es : List (Element K V)) (lb : Nat) (key : K) (value : V)
    (hroom : HasRoom o es.length = true) (hlb : lb ≤ es.length) :
    Node.InsertLeaf o es lb key value =
      some (.mk o (es.take lb ++ ⟨key, value⟩ :: es.drop lb) [], none) := by
  have hlen := insertAt_length lb (⟨key, value⟩ : Element K V) es hlb
  obtain ⟨L, x, R, hsp, hL⟩ :=
    list_split_at (es.take lb ++ ⟨key, value⟩ :: es.drop lb) es.length (by omega)
  obtain ⟨h1, h2⟩ := InsertAndShift_eq lb es.length ⟨key, value⟩ es L R x hlb (le_refl _) hL hsp
  rw [List.drop_length] at h1 h2
  subst h2
  simp only [Node.InsertLeaf, hroom, if_true, h1, Option.bind_eq_bind, Option.some_bind,
    Option.pure_def, List.append_nil, hsp]

/-- A full leaf: the elements with the new one inserted at `lower_bound` are
cut at `middle`; the entry at `middle` is promoted. -/
theorem InsertLeaf_split (o : Nat) (es : List (Element K V)) (lb : Nat) (key : K) (value : V)
    (L R : List (Element K V)) (x : Element K V)
    (hroom : HasRoom o es.length = false) (hlb : lb ≤ es.length) (hmid : o / 2 ≤ es.length)
    (hL : L.length = o / 2) (h : es.take lb ++ ⟨key, value⟩ :: es.drop lb = L ++ x :: R) :
    Node.InsertLeaf o es lb key value = some (.mk o L [], some ⟨x, .mk o R []⟩) := by
  by_cases hlm : lb ≤ o / 2
  · obtain ⟨vec1, h1, h2, h3⟩ := split_low lb (o / 2) ⟨key, value⟩ es L R x hlm hmid hL h
    simp [Node.InsertLeaf, hroom, hlm, h1, h2, h3]
  · have hlm2 : o / 2 < lb := Nat.lt_of_not_le hlm
    obtain ⟨t1, h1, h2⟩ := split_high lb (o / 2 + 1) (⟨key, value⟩ : Element K V) es hlm2 hlb
    obtain ⟨u1, u2, u3⟩ := list_split_unique h
    rw [hL] at u1 u2 u3
    have hx : es[o / 2]? = some x := by
      rw [← u2, List.getElem?_append_left (by simp; omega), List.getElem?_take_of_lt hlm2]
    have hLe : L = es.take (o / 2) := by
      rw [u1, List.take_append_of_le_length (by simp; omega), List.take_take]
      congr 1; omega
    simp [Node.InsertLeaf, hroom, hlm, hx, h1, h2, resize_eq _ _ hmid, ← u3, ← hLe]

theorem insert_room_eq {T : Type} (a : Nat) (v : T) (vec : List T) (ha : a ≤ vec.length) :
    ∃ x vec1, InsertAndShift a vec.length v vec = some (x, vec1) ∧
      vec1 ++ [x] = vec.take a ++ v :: vec.drop a := by
  obtain ⟨L, x, R, hsp, hL⟩ :=
    list_split_at (vec.take a ++ v :: vec.drop a) vec.length
      (by rw [insertAt_length a v vec ha]; omega)
  obtain ⟨h1, h2⟩ := InsertAndShift_eq a vec.length v vec L R x ha (le_refl _) hL hsp
  rw [List.drop_length] at h1 h2
  subst h2
  exact ⟨x, L ++ [], h1, by rw [hsp, List.append_nil]⟩

/-- An internal node with room absorbs the overflow of its child: the median
goes to index `lower_bound` and the new sibling to index `lower_bound + 1`. -/
theorem AbsorbOverflow_room (o : Nat) (es : List (Element K V)) (cs : List (Node K V))
    (lb : Nat) (m : Element K V) (s : Node K V)
    (hroom : HasRoom o es.length = true) (hlb : lb ≤ es.length) (hlc : lb + 1 ≤ cs.length) :
    Node.AbsorbOverflow o es cs lb ⟨m, s⟩ =
      some (.mk o (es.take lb ++ m :: es.drop lb) (cs.take (lb + 1) ++ s :: cs.drop (lb + 1)),
        none) := by
  obtain ⟨x, es1, h1, h2⟩ := insert_room_eq lb m es hlb
  obtain ⟨y, cs1, h3, h4⟩ := insert_room_eq (lb + 1) s cs hlc
  simp only [Node.AbsorbOverflow, hroom, if_true, h1, h3, Option.bind_eq_bind,
    Option.some_bind, Option.pure_def, h2, h4]

/-- A full internal node absorbing the overflow of its child: elements and
children, with the median and the new sibling inserted, are cut at `middle`
and `middle + 1`; the element at `middle` is promoted. -/
theorem AbsorbOverflow_split (o : Nat) (es : List (Element K V)) (cs : List (Node K V))
    (lb : Nat) (m : Element K V) (s : Node K V)
    (EL ER : List (Element K V)) (x : Element K V) (CL CR : List (Node K V))
    (hroom : HasRoom o es.length = false) (hlb : lb ≤ es.length) (hlc : lb + 1 ≤ cs.length)
    (hmid : o / 2 ≤ es.length) (hmidc : o / 2 + 1 ≤ cs.length)
    (hEL : EL.length = o / 2) (hE : es.take lb ++ m :: es.drop lb = EL ++ x :: ER)
    (hCL : CL.length = o / 2 + 1) (hC : cs.take (lb + 1) ++ s :: cs.drop (lb + 1) = CL ++ CR) :
    Node.AbsorbOverflow o es cs lb ⟨m, s⟩ = some (.mk o EL CL, some ⟨x, .mk o ER CR⟩) := by
  by_cases hlm : lb ≤ o / 2
  · obtain ⟨es1, h1, h2, h3⟩ := split_low lb (o / 2) m es EL ER x hlm hmid hEL hE
    have hCR : CR ≠ [] := by
      intro h0
      have := congrArg List.length hC
      rw [insertAt_length _ _ _ hlc, h0] at this
      simp [hCL] at this
      omega
    obtain ⟨y, CR1, rfl⟩ := List.exists_cons_of_ne_nil hCR
    obtain ⟨cs1, h4, h5, h6⟩ := split_low (lb + 1) (o / 2 + 1) s cs CL CR1 y (by omega) hmidc
      hCL hC
    simp [Node.AbsorbOverflow, hroom, hlm, h1, h2, h3, h4, h5, h6]
  · have hlm2 : o / 2 < lb := Nat.lt_of_not_le hlm
    obtain ⟨t1, h1, h2⟩ := split_high lb (o / 2 + 1) m es hlm2 hlb
    obtain ⟨t2, h3, h4⟩ := split_high (lb + 1) (o / 2 + 1) s cs (by omega) hlc
    obtain ⟨u1, u2, u3⟩ := list_split_unique hE
    rw [hEL] at u1 u2 u3
    have hx : es[o / 2]? = some x := by
      rw [← u2, List.getElem?_append_left (by simp; omega), List.getElem?_take_of_lt hlm2]
    have hLe : EL = es.take (o / 2) := by
      rw [u1, List.take_append_of_le_length (by simp; omega), List.take_take]
      congr 1; omega
    have hCLe : CL = cs.take (o / 2 + 1) := by
      have := congrArg (List.take (o / 2 + 1)) hC
      rw [← hCL, List.take_left, hCL, List.take_append_of_le_length (by simp; omega),
        List.take_take] at this
      rw [← this]
      congr 1; omega
    have hCRe : CR = (cs.take (lb + 1) ++ s :: cs.drop (lb + 1)).drop (o / 2 + 1) := by
      rw [hC, ← hCL, List.drop_left]
    simp [Node.AbsorbOverflow, hroom, hlm, hx, h1, h2, h3, h4, resize_eq _ _ hmid,
      resize_eq _ _ hmidc, ← u3, ← hLe, ← hCLe, ← hCRe]

/-! ## In-order traversal -/

theorem inorderList_append (CA : List (Node K V)) :
    ∀ (A : List (Element K V)) (X : List (Node K V)) (Y : List (Element K V)),
      CA.length = A.length →
      Node.inorderList (CA ++ X) (A ++ Y) = Node.inorderList CA A ++ Node.inorderList X Y := by
  induction CA with
  | nil =>
    intro A X Y h
    have : A = [] := List.length_eq_zero.1 h.symm
    subst this
    simp [Node.inorderList]
  | cons c CA ih =>
    intro A X Y h
    cases A with
    | nil => simp at h
    | cons a A =>
      simp only [List.length_cons, Nat.add_right_cancel_iff] at h
      simp [Node.inorderList, ih A X Y h]

theorem inorderList_cons (c : Node K V) (CB : List (Node K V)) (B : List (Element K V)) :
    Node.inorderList (c :: CB) B = c.inorder ++ Node.inorderTail B CB := by
  cases B <;> simp [Node.inorderList, Node.inorderTail]

theorem inorder_mk (o : Nat) (es : List (Element K V)) (cs : List (Node K V)) :
    (Node.mk o es cs).inorder = Node.inorderList cs es := by
  simp [Node.inorder]

/-- The in-order traversal of a node, cut at child `|CA|`. -/
theorem inorderList_split (CA CB : List (Node K V)) (c : Node K V) (A B : List (Element K V))
    (h : CA.length = A.length) :
    Node.inorderList (CA ++ c :: CB) (A ++ B) =
      Node.inorderList CA A ++ (c.inorder ++ Node.inorderTail B CB) := by
  rw [inorderList_append CA A _ _ h, inorderList_cons]

/-- The in-order traversal after the child at `|CA|` split into `c`, `m`, `s`. -/
theorem inorderList_split_insert (CA CB : List (Node K V)) (c s : Node K V)
    (m : Element K V) (A B : List (Element K V)) (h : CA.length = A.length) :
    Node.inorderList (CA ++ c :: s :: CB) (A ++ m :: B) =
      Node.inorderList CA A ++ ((c.inorder ++ m :: s.inorder) ++ Node.inorderTail B CB) := by
  rw [inorderList_append CA A _ _ h]
  simp [Node.inorderList, inorderList_cons]

theorem elements_sublist_inorderList (cs : List (Node K V)) :
    ∀ es : List (Element K V), es.Sublist (Node.inorderList cs es) := by
  induction cs with
  | nil => intro es; simp [Node.inorderList]
  | cons c cs ih =>
    intro es
    cases es with
    | nil => simp
    | cons e es =>
      simp only [Node.inorderList]
      exact List.Sublist.trans ((ih es).cons₂ e) (List.sublist_append_right _ _)

theorem child_sublist_inorderList (cs : List (Node K V)) :
    ∀ (es : List (Element K V)) (c : Node K V), c ∈ cs →
      c.inorder.Sublist (Node.inorderList cs es) := by
  induction cs with
  | nil => intro es c h; simp at h
  | cons c0 cs ih =>
    intro es c h
    rcases List.mem_cons.1 h with rfl | h
    · cases es <;> simp [Node.inorderList]
    · cases es with
      | nil =>
        simp only [Node.inorderList]
        exact List.Sublist.trans (ih [] c h) (List.sublist_append_right _ _)
      | cons e es =>
        simp only [Node.inorderList]
        exact List.Sublist.trans ((ih es c h).cons e) (List.sublist_append_right _ _)

theorem SortedKeys.sublist [LinearOrder K] {l1 l2 : List (Element K V)} (h : l1.Sublist l2)
    (hs : SortedKeys l2) : SortedKeys l1 :=
  List.Pairwise.sublist h hs

/-- In a sorted traversal, everything before child `|CA|` is below `key` as
soon as the elements before it are. -/
theorem inorderList_lt [LinearOrder K] (key : K) (CA : List (Node K V)) :
    ∀ A : List (Element K V), CA.length = A.length → SortedKeys (Node.inorderList CA A) →
      (∀ a ∈ A, a.key < key) → ∀ x ∈ Node.inorderList CA A, x.key < key := by
  induction CA with
  | nil =>
    intro A h _ hA x hx
    have : A = [] := List.length_eq_zero.1 h.symm
    subst this
    simp [Node.inorderList] at hx
  | cons c CA ih =>
    intro A h hs hA x hx
    cases A with
    | nil => simp at h
    | cons a A =>
      simp only [List.length_cons, Nat.add_right_cancel_iff] at h
      simp only [Node.inorderList] at hs hx
      have hs2 := List.pairwise_append.1 hs
      rcases List.mem_append.1 hx with hx | hx
      · exact lt_trans (hs2.2.2 x hx a (List.mem_cons_self _ _)) (hA a (List.mem_cons_self _ _))
      · rcases List.mem_cons.1 hx with rfl | hx
        · exact hA _ (List.mem_cons_self _ _)
        · exact ih A h (List.Pairwise.of_cons hs2.2.1)
            (fun a1 ha1 => hA a1 (List.mem_cons_of_mem _ ha1)) x hx

/-- In a sorted traversal, everything after child `|CA|` is above `key` as
soon as the elements after it are. -/
theorem inorderTail_gt [LinearOrder K] (key : K) (CB : List (Node K V))
    (B : List (Element K V)) (h : CB.length = B.length)
    (hs : SortedKeys (Node.inorderTail B CB)) (hB : ∀ b ∈ B, key < b.key) :
    ∀ x ∈ Node.inorderTail B CB, key < x.key := by
  intro x hx
  cases B with
  | nil =>
    have : CB = [] := List.length_eq_zero.1 h
    subst this
    simp [Node.inorderTail, Node.inorderList] at hx
  | cons b B =>
    simp only [Node.inorderTail] at hs hx
    rcases List.mem_cons.1 hx with rfl | hx
    · exact hB _ (List.mem_cons_self _ _)
    · exact lt_trans (hB b (List.mem_cons_self _ _)) (List.rel_of_pairwise_cons hs hx)

/-! ## Sorted association lists -/

theorem lookup_append_lt [LinearOrder K] (key : K) (L M : List (Element K V))
    (h : ∀ x ∈ L, x.key < key) : lookup key (L ++ M) = lookup key M := by
  induction L with
  | nil => rfl
  | cons a L ih =>
    have h1 : a.key ≠ key := ne_of_lt (h a (List.mem_cons_self _ _))
    simp [lookup, h1, ih (fun x hx => h x (List.mem_cons_of_mem _ hx))]

theorem lookup_eq_none_of_gt [LinearOrder K] (key : K) (R : List (Element K V))
    (h : ∀ x ∈ R, key < x.key) : lookup key R = none := by
  induction R with
  | nil => rfl
  | cons a R ih =>
    have h1 : a.key ≠ key := ne_of_gt (h a (List.mem_cons_self _ _))
    simp [lookup, h1, ih (fun x hx => h x (List.mem_cons_of_mem _ hx))]

theorem lookup_append_gt [LinearOrder K] (key : K) (M R : List (Element K V))
    (h : ∀ x ∈ R, key < x.key) : lookup key (M ++ R) = lookup key M := by
  induction M with
  | nil => simp [lookup, lookup_eq_none_of_gt key R h]
  | cons a M ih => simp [lookup, ih]

theorem upsert_append_lt [LinearOrder K] (key : K) (value : V) (L M : List (Element K V))
    (h : ∀ x ∈ L, x.key < key) : upsert key value (L ++ M) = L ++ upsert key value M := by
  induction L with
  | nil => rfl
  | cons a L ih =>
    simp [upsert, h a (List.mem_cons_self _ _), ih (fun x hx => h x (List.mem_cons_of_mem _ hx))]

theorem upsert_of_gt [LinearOrder K] (key : K) (value : V) (R : List (Element K V))
    (h : ∀ x ∈ R, key < x.key) : upsert key value R = ⟨key, value⟩ :: R := by
  cases R with
  | nil => rfl
  | cons a R =>
    have h1 := h a (List.mem_cons_self _ _)
    simp [upsert, not_lt_of_gt h1, ne_of_gt h1]

theorem upsert_append_gt [LinearOrder K] (key : K) (value : V) (M R : List (Element K V))
    (h : ∀ x ∈ R, key < x.key) : upsert key value (M ++ R) = upsert key value M ++ R := by
  induction M with
  | nil => simp [upsert, upsert_of_gt key value R h]
  | cons a M ih =>
    simp only [List.cons_append, upsert]
    split_ifs <;> simp [ih]

theorem upsert_cons_eq [LinearOrder K] (key : K) (value : V) (b : Element K V)
    (R : List (Element K V)) (h : b.key = key) :
    upsert key value (b :: R) = ⟨key, value⟩ :: R := by
  simp [upsert, h]

theorem lookup_upsert [LinearOrder K] (key : K) (value : V) (k : K) (l : List (Element K V)) :
    lookup k (upsert key value l) = if k = key then some value else lookup k l := by
  induction l with
  | nil =>
    by_cases h : k = key
    · simp [upsert, lookup, h]
    · simp [upsert, lookup, h, Ne.symm h]
  | cons a l ih =>
    simp only [upsert]
    split_ifs with h1 h2 h3 h4 h5
    · subst h2
      simp [lookup, ne_of_lt h1, ih]
    · simp [lookup, ih, h2]
    · subst h4; simp [lookup]
    · subst h3; simp [lookup, Ne.symm h4]
    · subst h5; simp [lookup]
    · simp [lookup, Ne.symm h5]

theorem mem_upsert [LinearOrder K] (key : K) (value : V) (l : List (Element K V))
    (x : Element K V) (hx : x ∈ upsert key value l) : x = ⟨key, value⟩ ∨ x ∈ l := by
  induction l with
  | nil => simpa [upsert] using hx
  | cons a l ih =>
    simp only [upsert] at hx
    split_ifs at hx with h1 h2
    · rcases List.mem_cons.1 hx with rfl | hx
      · exact Or.inr (List.mem_cons_self _ _)
      · rcases ih hx with h | h
        · exact Or.inl h
        · exact Or.inr (List.mem_cons_of_mem _ h)
    · rcases List.mem_cons.1 hx with rfl | hx
      · exact Or.inl rfl
      · exact Or.inr (List.mem_cons_of_mem _ hx)
    · rcases List.mem_cons.1 hx with rfl | hx
      · exact Or.inl rfl
      · exact Or.inr hx

theorem SortedKeys.upsert [LinearOrder K] (key : K) (value : V) (l : List (Element K V))
    (hs : SortedKeys l) : SortedKeys (upsert key value l) := by
  induction l with
  | nil => simp [BT.upsert, SortedKeys]
  | cons a l ih =>
    have hs1 := List.pairwise_cons.1 hs
    simp only [BT.upsert]
    split_ifs with h1 h2
    · apply List.pairwise_cons.2
      refine ⟨?_, ih hs1.2⟩
      intro x hx
      rcases mem_upsert key value l x hx with rfl | hx
      · exact h1
      · exact hs1.1 x hx
    · apply List.pairwise_cons.2
      refine ⟨?_, hs1.2⟩
      intro x hx
      rw [← h2]
      exact hs1.1 x hx
    · have h3 : key < a.key := lt_of_le_of_ne (not_lt.1 h1) (Ne.symm h2)
      apply List.pairwise_cons.2
      refine ⟨?_, hs⟩
      intro x hx
      rcases List.mem_cons.1 hx with rfl | hx
      · exact h3
      · exact lt_trans h3 (hs1.1 x hx)

theorem keys_upsert [LinearOrder K] (key : K) (value : V) (l : List (Element K V)) (k : K) :
    k ∈ (upsert key value l).map Element.key ↔ k = key ∨ k ∈ l.map Element.key := by
  induction l with
  | nil => simp [upsert]
  | cons a l ih =>
    simp only [upsert]
    split_ifs with h1 h2
    · simp only [List.map_cons, List.mem_cons, ih]
      tauto
    · simp only [List.map_cons, List.mem_cons, h2]
      tauto
    · simp only [List.map_cons, List.mem_cons]

/-! ## Descending into the child at `lower_bound` -/

theorem GetKeyChild_eq [LinearOrder K] (CA : List (Node K V)) (c : Node K V)
    (CB : List (Node K V)) (key : K) :
    Node.GetKeyChild (CA ++ c :: CB) CA.length key = c.GetKey key := by
  induction CA with
  | nil => simp [Node.GetKeyChild]
  | cons a CA ih => simpa [Node.GetKeyChild] using ih

theorem InsertOrUpdateChild_eq [LinearOrder K] (CA : List (Node K V)) (c : Node K V)
    (CB : List (Node K V)) (key : K) (value : V) (c1 : Node K V) (ov : Option (Overflow K V))
    (h : c.InsertOrUpdate key value = some (c1, ov)) :
    Node.InsertOrUpdateChild (CA ++ c :: CB) CA.length key value =
      some (CA ++ c1 :: CB, ov) := by
  induction CA with
  | nil => simp [Node.InsertOrUpdateChild, h]
  | cons a CA ih => simp [Node.InsertOrUpdateChild, ih]

/-- The three outcomes of `LowerBound` on strictly increasing elements: the
key is at the returned index, the index is the size, or the element at the
index and all later ones are above the key. -/
theorem LowerBound_cases [LinearOrder K] (es : List (Element K V)) (key : K)
    (hs : SortedKeys es) :
    ∃ A B, es = A ++ B ∧ Node.LowerBound es key = some A.length ∧ (∀ a ∈ A, a.key < key) ∧
      ((∃ b B1, B = b :: B1 ∧ b.key = key) ∨ B = [] ∨
        (∃ b B1, B = b :: B1 ∧ key < b.key ∧ ∀ x ∈ B, key < x.key)) := by
  obtain ⟨i, hi, hle, h1, h2⟩ := LowerBound_spec es key hs
  refine ⟨es.take i, es.drop i, (List.take_append_drop i es).symm, ?_, h1, ?_⟩
  · rw [hi, List.length_take, Nat.min_eq_left hle]
  · cases hB : es.drop i with
    | nil => exact Or.inr (Or.inl rfl)
    | cons b B1 =>
      rw [hB] at h2
      have hb := h2 b (List.mem_cons_self _ _)
      rcases eq_or_lt_of_le hb with hb | hb
      · exact Or.inl ⟨b, B1, rfl, hb.symm⟩
      · refine Or.inr (Or.inr ⟨b, B1, rfl, hb, ?_⟩)
        have hsB : SortedKeys (b :: B1) := by
          rw [← hB]
          exact hs.sublist (List.drop_sublist i es)
        intro x hx
        rcases List.mem_cons.1 hx with rfl | hx
        · exact hb
        · exact lt_trans hb (List.rel_of_pairwise_cons hsB hx)

theorem children_split (cs : List (Node K V)) (n : Nat) (h : n < cs.length) :
    ∃ CA c CB, cs = CA ++ c :: CB ∧ CA.length = n :=
  list_split_at cs n h

theorem getElem?_append_length_cons {T : Type} (A B : List T) (b : T) :
    (A ++ b :: B)[A.length]? = some b := by
  rw [List.getElem?_append_right (le_refl _)]
  simp

theorem GetKey_hit [LinearOrder K] (o : Nat) (es : List (Element K V)) (cs : List (Node K V))
    (key : K) (lb : Nat) (b : Element K V) (hlb : Node.LowerBound es key = some lb)
    (hget : es[lb]? = some b) (hb : b.key = key) :
    (Node.mk o es cs).GetKey key = some (some b.value) := by
  have hne : lb ≠ es.length := by
    have := (List.getElem?_eq_some.1 hget).1
    omega
  rw [Node.GetKey]
  simp only [hlb, hget, hb, hne, ne_eq, not_false_eq_true, if_true]

theorem GetKey_miss [LinearOrder K] (o : Nat) (es : List (Element K V)) (cs : List (Node K V))
    (key : K) (lb : Nat) (hlb : Node.LowerBound es key = some lb)
    (hget : lb = es.length ∨ ∃ b, es[lb]? = some b ∧ b.key ≠ key) :
    (Node.mk o es cs).GetKey key =
      if cs.isEmpty then some none else Node.GetKeyChild cs lb key := by
  rw [Node.GetKey]
  rcases hget with h | ⟨b, hget, hb⟩
  · simp only [hlb, h, ne_eq, not_true_eq_false, if_false]
  · have hne : lb ≠ es.length := by
      have := (List.getElem?_eq_some.1 hget).1
      omega
    simp only [hlb, hget, hb, hne, ne_eq, not_false_eq_true, if_true, if_false]

/-- The function `GetKey` on a well-formed subtree with strictly increasing traversal is
the lookup of the key in the traversal. -/
theorem GetKey_eq_lookup [LinearOrder K] (o h : Nat) (n : Node K V) (key : K)
    (hwf : Node.WF o h n) : SortedKeys n.inorder → n.GetKey key = some (lookup key n.inorder) := by
  induction hwf with
  | leaf es hsz =>
    intro hs
    rw [inorder_mk] at hs ⊢
    simp only [Node.inorderList] at hs ⊢
    obtain ⟨A, B, rfl, hlb, hA, hB⟩ := LowerBound_cases es key hs
    rw [lookup_append_lt key A B hA]
    rcases hB with ⟨b, B1, rfl, hb⟩ | rfl | ⟨b, B1, rfl, hb, hB⟩
    · rw [GetKey_hit o _ [] key _ b hlb (getElem?_append_length_cons A B1 b) hb]
      simp [lookup, hb]
    · rw [GetKey_miss o _ [] key _ hlb (Or.inl (by simp))]
      simp [lookup]
    · rw [GetKey_miss o _ [] key _ hlb
        (Or.inr ⟨b, getElem?_append_length_cons A B1 b, ne_of_gt hb⟩),
        lookup_eq_none_of_gt key _ hB]
      simp
  | node h es cs hsz hlen hch ih =>
    intro hs
    rw [inorder_mk] at hs ⊢
    have hes : SortedKeys es := hs.sublist (elements_sublist_inorderList cs es)
    obtain ⟨A, B, rfl, hlb, hA, hB⟩ := LowerBound_cases es key hes
    obtain ⟨CA, c, CB, rfl, hCA⟩ := children_split cs A.length
      (by rw [hlen, List.length_append]; omega)
    have hCB : CB.length = B.length := by
      simp only [List.length_append, List.length_cons] at hlen
      omega
    rw [inorderList_split CA CB c A B hCA] at hs ⊢
    have hs2 := List.pairwise_append.1 hs
    have hL := inorderList_lt key CA A hCA hs2.1 hA
    rw [lookup_append_lt key _ _ hL]
    have hne : (CA ++ c :: CB).isEmpty = false := by cases CA <;> rfl
    have hs3 := List.pairwise_append.1 hs2.2.1
    have hc := ih c (by simp) hs3.1
    have hchild : Node.GetKeyChild (CA ++ c :: CB) A.length key = c.GetKey key := by
      rw [← hCA]
      exact GetKeyChild_eq CA c CB key
    rcases hB with ⟨b, B1, rfl, hb⟩ | rfl | ⟨b, B1, rfl, hb, hB⟩
    · have hM : ∀ x ∈ c.inorder, x.key < key := by
        intro x hx
        rw [← hb]
        exact hs3.2.2 x hx b (by simp [Node.inorderTail])
      rw [lookup_append_lt key _ _ hM,
        GetKey_hit o _ _ key _ b hlb (getElem?_append_length_cons A B1 b) hb]
      simp [lookup, hb, Node.inorderTail]
    · rw [lookup_append_gt key _ _ (inorderTail_gt key CB [] hCB hs3.2.1 (by simp)),
        GetKey_miss o _ _ key _ hlb (Or.inl (by simp)), hne, hchild, hc]
      simp
    · rw [lookup_append_gt key _ _ (inorderTail_gt key CB _ hCB hs3.2.1 hB),
        GetKey_miss o _ _ key _ hlb
          (Or.inr ⟨b, getElem?_append_length_cons A B1 b, ne_of_gt hb⟩), hne, hchild, hc]
      simp

/-! ## `Node::InsertOrUpdate` -/

theorem InsertOrUpdate_hit [LinearOrder K] (o : Nat) (es : List (Element K V))
    (cs : List (Node K V)) (key : K) (value : V) (lb : Nat) (b : Element K V)
    (hlb : Node.LowerBound es key = some lb) (hget : es[lb]? = some b) (hb : b.key = key) :
    (Node.mk o es cs).InsertOrUpdate key value =
      some (.mk o (es.modify (fun e => e.set_value value) lb) cs, none) := by
  have hlt : lb < es.length := (List.getElem?_eq_some.1 hget).1
  rw [Node.InsertOrUpdate]
  simp only [hlb, hget, hb, hlt, Option.map_some', and_self, if_true]

theorem InsertOrUpdate_miss [LinearOrder K] (o : Nat) (es : List (Element K V))
    (cs : List (Node K V)) (key : K) (value : V) (lb : Nat)
    (hlb : Node.LowerBound es key = some lb)
    (hget : lb = es.length ∨ ∃ b, es[lb]? = some b ∧ b.key ≠ key) :
    (Node.mk o es cs).InsertOrUpdate key value =
      if cs.isEmpty then Node.InsertLeaf o es lb key value
      else
        match Node.InsertOrUpdateChild cs lb key value with
        | none => none
        | some (cs1, none) => some (.mk o es cs1, none)
        | some (cs1, some child_overflow) => Node.AbsorbOverflow o es cs1 lb child_overflow := by
  rw [Node.InsertOrUpdate]
  have hcond : ¬ (lb < es.length ∧ (es[lb]?).map Element.key = some key) := by
    rcases hget with h | ⟨b, hget, hb⟩
    · intro h1; omega
    · intro h1
      rw [hget] at h1
      simp only [Option.map_some', Option.some.injEq] at h1
      exact hb h1.2
  simp only [hlb, hcond, if_false]

theorem modify_append_length_cons {T : Type} (f : T → T) (A B : List T) (b : T) :
    (A ++ b :: B).modify f A.length = A ++ f b :: B := by
  induction A with
  | nil => rfl
  | cons a A ih => simp [List.modify_succ_cons, ih]

theorem take_append_length {T : Type} (A B : List T) : (A ++ B).take A.length = A := by
  simp

theorem drop_append_length {T : Type} (A B : List T) : (A ++ B).drop A.length = B := by
  simp

theorem inorderList_cut (CL : List (Node K V)) :
    ∀ (EL : List (Element K V)) (CR : List (Node K V)) (x : Element K V)
      (ER : List (Element K V)), CL.length = EL.length + 1 →
      Node.inorderList (CL ++ CR) (EL ++ x :: ER) =
        Node.inorderList CL EL ++ x :: Node.inorderList CR ER := by
  induction CL with
  | nil => intro EL CR x ER h; simp at h
  | cons cl CL ih =>
    intro EL CR x ER h
    cases EL with
    | nil =>
      have : CL = [] := List.length_eq_zero.1 (by simpa using h)
      subst this
      simp [Node.inorderList]
    | cons e EL =>
      simp only [List.length_cons, Nat.add_right_cancel_iff] at h
      simp [Node.inorderList, ih EL CR x ER h]

/-- The leaf case of `Node::InsertOrUpdate` when the key is absent: inserting
the new element at `lower_bound` and splitting if the leaf was full. -/
theorem InsertLeaf_post (o : Nat) (ho : 1 ≤ o) (A B : List (Element K V)) (key : K)
    (value : V) (hsz : (A ++ B).length ≤ o - 1) :
    ∃ r, Node.InsertLeaf o (A ++ B) A.length key value = some r ∧
      Node.InsertPost o 0 (A ++ ⟨key, value⟩ :: B) r := by
  have hE : (A ++ B).take A.length ++ ⟨key, value⟩ :: (A ++ B).drop A.length =
      A ++ ⟨key, value⟩ :: B := by
    rw [take_append_length, drop_append_length]
  have hlb : A.length ≤ (A ++ B).length := by rw [List.length_append]; omega
  by_cases hroom : (A ++ B).length < o - 1
  · refine ⟨_, InsertLeaf_room o (A ++ B) A.length key value (HasRoom_eq_true hroom) hlb, ?_⟩
    rw [hE]
    refine ⟨Node.WF.leaf _ ?_, ?_⟩
    · simp only [List.length_append, List.length_cons] at hroom ⊢
      omega
    · simp [inorder_mk, Node.inorderList]
  · have hfull : (A ++ B).length = o - 1 := by omega
    have hElen : (A ++ ⟨key, value⟩ :: B).length = o := by
      simp only [List.length_append, List.length_cons] at hfull ⊢
      omega
    obtain ⟨L, x, R, hsp, hL⟩ := list_split_at (A ++ ⟨key, value⟩ :: B) (o / 2)
      (by rw [hElen]; omega)
    have hR : R.length = o - 1 - o / 2 := by
      have := congrArg List.length hsp
      rw [hElen] at this
      simp only [List.length_append, List.length_cons] at this
      omega
    refine ⟨_, InsertLeaf_split o (A ++ B) A.length key value L R x
      (HasRoom_eq_false ho (by omega)) hlb (by omega) hL (by rw [hE, hsp]), ?_⟩
    refine ⟨Node.WF.leaf _ (by omega), Node.WF.leaf _ (by omega), ?_⟩
    simp [inorder_mk, Node.inorderList, hsp]

/-- An internal node absorbing the overflow `(m, s)` of its child at index
`|A|`: the median and the sibling are inserted, and the node splits if it was
full. -/
theorem AbsorbOverflow_post (o h : Nat) (ho : 1 ≤ o) (A B : List (Element K V))
    (CA CB : List (Node K V)) (c1 s : Node K V) (m : Element K V)
    (hsz : (A ++ B).length ≤ o - 1) (hCA : CA.length = A.length) (hCB : CB.length = B.length)
    (hch : ∀ x ∈ CA ++ c1 :: s :: CB, Node.WF o h x) :
    ∃ r, Node.AbsorbOverflow o (A ++ B) (CA ++ c1 :: CB) A.length ⟨m, s⟩ = some r ∧
      Node.InsertPost o (h + 1) (Node.inorderList (CA ++ c1 :: s :: CB) (A ++ m :: B)) r := by
  have hE : (A ++ B).take A.length ++ m :: (A ++ B).drop A.length = A ++ m :: B := by
    rw [take_append_length, drop_append_length]
  have hC : (CA ++ c1 :: CB).take (A.length + 1) ++ s :: (CA ++ c1 :: CB).drop (A.length + 1) =
      CA ++ c1 :: s :: CB := by
    have h1 : CA ++ c1 :: CB = (CA ++ [c1]) ++ CB := by simp
    have h2 : (CA ++ [c1]).length = A.length + 1 := by simp [hCA]
    rw [h1, ← h2, take_append_length, drop_append_length]
    simp
  have hlb : A.length ≤ (A ++ B).length := by rw [List.length_append]; omega
  have hlc : A.length + 1 ≤ (CA ++ c1 :: CB).length := by
    simp only [List.length_append, List.length_cons]; omega
  have hElen : (A ++ m :: B).length = (A ++ B).length + 1 := by
    simp only [List.length_append, List.length_cons]; omega
  have hClen : (CA ++ c1 :: s :: CB).length = (A ++ m :: B).length + 1 := by
    simp only [List.length_append, List.length_cons]; omega
  by_cases hroom : (A ++ B).length < o - 1
  · refine ⟨_, AbsorbOverflow_room o (A ++ B) (CA ++ c1 :: CB) A.length m s
      (HasRoom_eq_true hroom) hlb hlc, ?_⟩
    rw [hE, hC]
    refine ⟨Node.WF.node h _ _ (by omega) hClen hch, ?_⟩
    simp [inorder_mk]
  · have hfull : (A ++ B).length = o - 1 := by omega
    obtain ⟨EL, x, ER, hsp, hEL⟩ := list_split_at (A ++ m :: B) (o / 2) (by omega)
    have hER : ER.length = o - 1 - o / 2 := by
      have := congrArg List.length hsp
      rw [hElen, hfull] at this
      simp only [List.length_append, List.length_cons] at this
      omega
    have hCsp : CA ++ c1 :: s :: CB =
        (CA ++ c1 :: s :: CB).take (o / 2 + 1) ++ (CA ++ c1 :: s :: CB).drop (o / 2 + 1) :=
      (List.take_append_drop _ _).symm
    have hCL : ((CA ++ c1 :: s :: CB).take (o / 2 + 1)).length = o / 2 + 1 := by
      rw [List.length_take]; omega
    have hCR : ((CA ++ c1 :: s :: CB).drop (o / 2 + 1)).length = ER.length + 1 := by
      rw [List.length_drop]; omega
    have hclen : (CA ++ c1 :: CB).length = (A ++ B).length + 1 := by
      simp only [List.length_append, List.length_cons]; omega
    refine ⟨_, AbsorbOverflow_split o (A ++ B) (CA ++ c1 :: CB) A.length m s EL ER x _ _
      (HasRoom_eq_false ho (by omega)) hlb hlc (by omega) (by omega) hEL (by rw [hE, hsp])
      hCL (by rw [hC]; exact hCsp), ?_⟩
    refine ⟨Node.WF.node h _ _ (by omega) (by omega)
        (fun y hy => hch y (List.mem_of_mem_take hy)),
      Node.WF.node h _ _ (by omega) hCR (fun y hy => hch y (List.mem_of_mem_drop hy)), ?_⟩
    simp only [inorder_mk]
    rw [← inorderList_cut _ EL _ x ER (by omega), ← hCsp, hsp]

/-- The function `Node::InsertOrUpdate` on a well-formed subtree with strictly increasing
traversal returns, stays well formed at the same height, and its traversal
(with the promoted median and the sibling when it overflows) is the traversal
before the call with the key inserted or updated. -/
theorem InsertOrUpdate_post [LinearOrder K] (o h : Nat) (ho : 1 ≤ o) (n : Node K V) (key : K)
    (value : V) (hwf : Node.WF o h n) :
    SortedKeys n.inorder →
      ∃ r, n.InsertOrUpdate key value = some r ∧
        Node.InsertPost o h (upsert key value n.inorder) r := by
  induction hwf with
  | leaf es hsz =>
    intro hs
    rw [inorder_mk] at hs ⊢
    simp only [Node.inorderList] at hs ⊢
    obtain ⟨A, B, rfl, hlb, hA, hB⟩ := LowerBound_cases es key hs
    rw [upsert_append_lt key value A B hA]
    rcases hB with ⟨b, B1, rfl, hb⟩ | rfl | ⟨b, B1, rfl, hb, hB⟩
    · refine ⟨_, InsertOrUpdate_hit o _ [] key value _ b hlb
        (getElem?_append_length_cons A B1 b) hb, ?_⟩
      rw [modify_append_length_cons, upsert_cons_eq key value b B1 hb]
      refine ⟨Node.WF.leaf _ (by simpa using hsz), ?_⟩
      simp [inorder_mk, Node.inorderList, Element.set_value, hb]
    · rw [InsertOrUpdate_miss o _ [] key value _ hlb (Or.inl (by simp))]
      simpa [upsert] using InsertLeaf_post o ho A [] key value hsz
    · rw [InsertOrUpdate_miss o _ [] key value _ hlb
        (Or.inr ⟨b, getElem?_append_length_cons A B1 b, ne_of_gt hb⟩),
        upsert_of_gt key value _ hB]
      simpa using InsertLeaf_post o ho A (b :: B1) key value hsz
  | node h es cs hsz hlen hch ih =>
    intro hs
    rw [inorder_mk] at hs ⊢
    have hes : SortedKeys es := hs.sublist (elements_sublist_inorderList cs es)
    obtain ⟨A, B, rfl, hlb, hA, hB⟩ := LowerBound_cases es key hes
    obtain ⟨CA, c, CB, rfl, hCA⟩ := children_split cs A.length
      (by rw [hlen, List.length_append]; omega)
    have hCB : CB.length = B.length := by
      simp only [List.length_append, List.length_cons] at hlen
      omega
    rw [inorderList_split CA CB c A B hCA] at hs ⊢
    have hs2 := List.pairwise_append.1 hs
    have hL := inorderList_lt key CA A hCA hs2.1 hA
    rw [upsert_append_lt key value _ _ hL]
    have hne : (CA ++ c :: CB).isEmpty = false := by cases CA <;> rfl
    have hs3 := List.pairwise_append.1 hs2.2.1
    rcases hB with ⟨b, B1, rfl, hb⟩ | hB
    · have hM : ∀ x ∈ c.inorder, x.key < key := by
        intro x hx
        rw [← hb]
        exact hs3.2.2 x hx b (by simp [Node.inorderTail])
      refine ⟨_, InsertOrUpdate_hit o _ _ key value _ b hlb
        (getElem?_append_length_cons A B1 b) hb, ?_⟩
      rw [modify_append_length_cons, upsert_append_lt key value _ _ hM]
      refine ⟨Node.WF.node h _ _ (by simpa using hsz) (by simpa using hlen) hch, ?_⟩
      simp only [inorder_mk]
      rw [inorderList_split CA CB c A _ hCA]
      simp [Node.inorderTail, upsert, Element.set_value, hb]
    · have hget : A.length = (A ++ B).length ∨
          ∃ b, (A ++ B)[A.length]? = some b ∧ b.key ≠ key := by
        rcases hB with rfl | ⟨b, B1, rfl, hb, -⟩
        · exact Or.inl (by simp)
        · exact Or.inr ⟨b, getElem?_append_length_cons A B1 b, ne_of_gt hb⟩
      have hBgt : ∀ x ∈ B, key < x.key := by
        rcases hB with rfl | ⟨b, B1, rfl, -, hB⟩
        · simp
        · exact hB
      have hT := inorderTail_gt key CB B hCB hs3.2.1 hBgt
      rw [upsert_append_gt key value _ _ hT]
      obtain ⟨⟨c1, ov⟩, hc1, hwf1, hpost⟩ := ih c (by simp) hs3.1
      have hchild := InsertOrUpdateChild_eq CA c CB key value c1 ov hc1
      rw [hCA] at hchild
      rw [InsertOrUpdate_miss o _ _ key value _ hlb hget, hne]
      simp only [Bool.false_eq_true, if_false, hchild]
      cases ov with
      | none =>
        simp only at hpost
        refine ⟨_, rfl, Node.WF.node h _ _ hsz (by simpa using hlen) ?_, ?_⟩
        · intro x hx
          rcases List.mem_append.1 hx with hx | hx
          · exact hch x (List.mem_append_left _ hx)
          · rcases List.mem_cons.1 hx with rfl | hx
            · exact hwf1
            · exact hch x (List.mem_append_right _ (List.mem_cons_of_mem _ hx))
        · simp only [inorder_mk]
          rw [inorderList_split CA CB c1 A B hCA, hpost]
      | some ov =>
        obtain ⟨m, s⟩ := ov
        simp only at hpost
        obtain ⟨hwfs, hpost⟩ := hpost
        have hch2 : ∀ x ∈ CA ++ c1 :: s :: CB, Node.WF o h x := by
          intro x hx
          rcases List.mem_append.1 hx with hx | hx
          · exact hch x (List.mem_append_left _ hx)
          · rcases List.mem_cons.1 hx with rfl | hx
            · exact hwf1
            · rcases List.mem_cons.1 hx with rfl | hx
              · exact hwfs
              · exact hch x (List.mem_append_right _ (List.mem_cons_of_mem _ hx))
        have := AbsorbOverflow_post o h ho A B CA CB c1 s m hsz hCA hCB hch2
        rw [inorderList_split_insert CA CB c1 s m A B hCA, hpost] at this
        exact this

/-! ## The tree handle -/

theorem WF_height (o h : Nat) (n : Node K V) (hwf : Node.WF o h n) : n.height = h := by
  induction hwf with
  | leaf es hsz => simp [Node.height, Node.heightList]
  | node h es cs hsz hlen hch ih =>
    cases cs with
    | nil => simp at hlen
    | cons c cs =>
      simp only [Node.height, Node.heightList]
      rw [ih c (List.mem_cons_self _ _)]

theorem WF_order (o h : Nat) (n : Node K V) (hwf : Node.WF o h n) : n.order = o := by
  cases hwf <;> rfl

theorem Inv_new [LinearOrder K] (o : Nat) : (BTree.new o : BTree K V).Inv :=
  ⟨⟨0, Node.WF.leaf [] (Nat.zero_le _)⟩, by simp [BTree.new, inorder_mk, Node.inorderList, SortedKeys]⟩

/-- The function `BTree::InsertOrUpdate` on a tree satisfying the invariant returns a tree
of the same order satisfying the invariant whose traversal is the former one
with the key inserted or updated. -/
theorem BTree_InsertOrUpdate_post [LinearOrder K] (t : BTree K V) (key : K) (value : V)
    (ho : 2 ≤ t.order_) (hinv : t.Inv) :
    ∃ t1, t.InsertOrUpdate key value = some t1 ∧ t1.Inv ∧ t1.order_ = t.order_ ∧
      t1.root_.inorder = upsert key value t.root_.inorder := by
  obtain ⟨⟨h, hwf⟩, hs⟩ := hinv
  obtain ⟨⟨r, ov⟩, hr, hwf1, hpost⟩ :=
    InsertOrUpdate_post t.order_ h (by omega) t.root_ key value hwf hs
  have hsu := hs.upsert key value
  cases ov with
  | none =>
    simp only at hpost
    refine ⟨⟨t.order_, r⟩, by simp [BTree.InsertOrUpdate, hr], ⟨⟨h, hwf1⟩, ?_⟩, rfl, hpost⟩
    simp only [hpost]
    exact hsu
  | some ov =>
    obtain ⟨m, s⟩ := ov
    simp only at hpost
    obtain ⟨hwfs, hpost⟩ := hpost
    have hin : (Node.mk t.order_ [m] [r, s]).inorder = upsert key value t.root_.inorder := by
      rw [← hpost]
      simp [inorder_mk, Node.inorderList]
    refine ⟨⟨t.order_, .mk t.order_ [m] [r, s]⟩, by simp [BTree.InsertOrUpdate, hr],
      ⟨⟨h + 1, Node.WF.node h _ _ (by simp; omega) (by simp) ?_⟩, ?_⟩, rfl, hin⟩
    · intro x hx
      simp only [List.mem_cons, List.mem_singleton, List.not_mem_nil, or_false] at hx
      rcases hx with rfl | rfl
      · exact hwf1
      · exact hwfs
    · simp only [hin]
      exact hsu

/-- The association list obtained from `l` by the calls in order. -/
theorem InsertAll_post [LinearOrder K] (calls : List (K × V)) :
    ∀ t : BTree K V, 2 ≤ t.order_ → t.Inv →
      ∃ t1, t.InsertAll calls = some t1 ∧ t1.Inv ∧ t1.order_ = t.order_ ∧
        t1.root_.inorder = calls.foldl (fun l kv => upsert kv.1 kv.2 l) t.root_.inorder := by
  induction calls with
  | nil => intro t _ hinv; exact ⟨t, rfl, hinv, rfl, rfl⟩
  | cons kv calls ih =>
    intro t ho hinv
    obtain ⟨key, value⟩ := kv
    obtain ⟨t1, h1, hinv1, ho1, hin1⟩ := BTree_InsertOrUpdate_post t key value ho hinv
    obtain ⟨t2, h2, hinv2, ho2, hin2⟩ := ih t1 (by omega) hinv1
    refine ⟨t2, by simp [BTree.InsertAll, h1, h2], hinv2, by omega, ?_⟩
    rw [hin2, hin1]
    rfl

/-- Every tree built from the empty tree by a sequence of calls. -/
theorem reachable_post [LinearOrder K] (o : Nat) (ho : 2 ≤ o) (calls : List (K × V)) :
    ∃ t, (BTree.new o : BTree K V).InsertAll calls = some t ∧ t.Inv ∧ t.order_ = o ∧
      t.root_.inorder = calls.foldl (fun l kv => upsert kv.1 kv.2 l) [] := by
  obtain ⟨t, h1, h2, h3, h4⟩ := InsertAll_post calls (BTree.new o : BTree K V) ho (Inv_new o)
  exact ⟨t, h1, h2, h3, by rw [h4]; simp [BTree.new, inorder_mk, Node.inorderList]⟩

theorem Get_eq_lookup [LinearOrder K] (t : BTree K V) (hinv : t.Inv) (k : K) :
    t.Get k = some (lookup k t.root_.inorder) := by
  obtain ⟨⟨h, hwf⟩, hs⟩ := hinv
  exact GetKey_eq_lookup t.order_ h t.root_ k hwf hs

theorem lookup_foldl_upsert [LinearOrder K] (calls : List (K × V)) :
    ∀ (l : List (Element K V)) (m : K → Option V), (∀ k, lookup k l = m k) →
      ∀ k, lookup k (calls.foldl (fun l kv => upsert kv.1 kv.2 l) l) =
        calls.foldl (fun m kv => RefMap.assign m kv.1 kv.2) m k := by
  induction calls with
  | nil => intro l m h k; exact h k
  | cons kv calls ih =>
    intro l m h k
    simp only [List.foldl_cons]
    apply ih
    intro k1
    rw [lookup_upsert, RefMap.assign, h k1]

theorem keys_foldl_upsert [LinearOrder K] (calls : List (K × V)) :
    ∀ (l : List (Element K V)) (k : K),
      k ∈ (calls.foldl (fun l kv => upsert kv.1 kv.2 l) l).map Element.key ↔
        k ∈ calls.map Prod.fst ∨ k ∈ l.map Element.key := by
  induction calls with
  | nil => intro l k; simp
  | cons kv calls ih =>
    intro l k
    simp only [List.foldl_cons, ih, keys_upsert, List.map_cons, List.mem_cons]
    tauto

theorem RefMap_ofCalls_none [DecidableEq K] (calls : List (K × V)) (k : K)
    (h : k ∉ calls.map Prod.fst) : RefMap.ofCalls calls k = none := by
  have key : ∀ (calls : List (K × V)) (m : K → Option V), k ∉ calls.map Prod.fst →
      calls.foldl (fun m kv => RefMap.assign m kv.1 kv.2) m k = m k := by
    intro calls
    induction calls with
    | nil => intro m _; rfl
    | cons kv calls ih =>
      intro m hk
      simp only [List.map_cons, List.mem_cons, not_or] at hk
      simp only [List.foldl_cons]
      rw [ih _ hk.2]
      simp [RefMap.assign, hk.1]
  exact key calls _ h

/-! ## Updating a stored key -/

theorem setValueList_eq_self [DecidableEq K] (key : K) (value : V) (cs : List (Node K V))
    (h : ∀ c ∈ cs, Node.setValue key value c = c) : Node.setValueList key value cs = cs := by
  induction cs with
  | nil => rfl
  | cons c cs ih =>
    simp only [Node.setValueList]
    rw [h c (List.mem_cons_self _ _), ih (fun x hx => h x (List.mem_cons_of_mem _ hx))]

theorem setValueList_append [DecidableEq K] (key : K) (value : V) (CA : List (Node K V))
    (c : Node K V) (CB : List (Node K V)) :
    Node.setValueList key value (CA ++ c :: CB) =
      Node.setValueList key value CA ++
        Node.setValue key value c :: Node.setValueList key value CB := by
  induction CA with
  | nil => rfl
  | cons a CA ih => simp [Node.setValueList, ih]

theorem map_setValue_eq_self [DecidableEq K] (key : K) (value : V) (es : List (Element K V))
    (h : ∀ e ∈ es, e.key ≠ key) :
    es.map (fun e => if e.key = key then e.set_value value else e) = es := by
  induction es with
  | nil => rfl
  | cons e es ih =>
    simp only [List.map_cons]
    rw [if_neg (h e (List.mem_cons_self _ _)), ih (fun x hx => h x (List.mem_cons_of_mem _ hx))]

/-- A subtree that does not hold the key is left as it is by `setValue`. -/
theorem setValue_eq_self [DecidableEq K] (o h : Nat) (n : Node K V) (key : K) (value : V)
    (hwf : Node.WF o h n) : (∀ e ∈ n.inorder, e.key ≠ key) → n.setValue key value = n := by
  induction hwf with
  | leaf es hsz =>
    intro hk
    rw [inorder_mk] at hk
    simp only [Node.inorderList] at hk
    simp only [Node.setValue, Node.setValueList]
    rw [map_setValue_eq_self key value es hk]
  | node h es cs hsz hlen hch ih =>
    intro hk
    rw [inorder_mk] at hk
    simp only [Node.setValue]
    rw [map_setValue_eq_self key value es
        (fun e he => hk e ((elements_sublist_inorderList cs es).subset he)),
      setValueList_eq_self key value cs
        (fun c hc => ih c hc (fun e he => hk e ((child_sublist_inorderList cs es c hc).subset he)))]

theorem inorderList_mem_children (cs : List (Node K V)) (es : List (Element K V))
    (c : Node K V) (hc : c ∈ cs) (x : Element K V) (hx : x ∈ c.inorder) :
    x ∈ Node.inorderList cs es :=
  (child_sublist_inorderList cs es c hc).subset hx

theorem inorderTail_mem_children (cs : List (Node K V)) (es : List (Element K V))
    (c : Node K V) (hc : c ∈ cs) (x : Element K V) (hx : x ∈ c.inorder) :
    x ∈ Node.inorderTail es cs := by
  cases es with
  | nil => exact inorderList_mem_children cs [] c hc x hx
  | cons e es =>
    exact List.mem_cons_of_mem _ (inorderList_mem_children cs es c hc x hx)

/-- Re-inserting a stored key overwrites its value in place: no overflow, and
the subtree after the call is the subtree before it with that one value set. -/
theorem InsertOrUpdate_stored [LinearOrder K] (o h : Nat) (n : Node K V) (key : K) (value : V)
    (hwf : Node.WF o h n) :
    SortedKeys n.inorder → key ∈ n.inorder.map Element.key →
      n.InsertOrUpdate key value = some (n.setValue key value, none) := by
  induction hwf with
  | leaf es hsz =>
    intro hs hk
    rw [inorder_mk] at hs hk
    simp only [Node.inorderList] at hs hk
    obtain ⟨A, B, rfl, hlb, hA, hB⟩ := LowerBound_cases es key hs
    have hs2 := List.pairwise_append.1 hs
    have hAne : ∀ e ∈ A, e.key ≠ key := fun e he => ne_of_lt (hA e he)
    rcases hB with ⟨b, B1, rfl, hb⟩ | hB
    · rw [InsertOrUpdate_hit o _ [] key value _ b hlb (getElem?_append_length_cons A B1 b) hb,
        modify_append_length_cons]
      have hB1 : ∀ e ∈ B1, e.key ≠ key := by
        intro e he
        rw [← hb]
        exact ne_of_gt (List.rel_of_pairwise_cons hs2.2.1 he)
      simp only [Node.setValue, Node.setValueList, List.map_append, List.map_cons, hb, if_true]
      rw [map_setValue_eq_self key value A hAne, map_setValue_eq_self key value B1 hB1]
    · exfalso
      have hBgt : ∀ x ∈ B, key < x.key := by
        rcases hB with rfl | ⟨b, B1, rfl, -, hB⟩
        · simp
        · exact hB
      obtain ⟨e, he, hek⟩ := List.mem_map.1 hk
      rcases List.mem_append.1 he with he | he
      · exact hAne e he hek
      · exact ne_of_gt (hBgt e he) hek
  | node h es cs hsz hlen hch ih =>
    intro hs hk
    rw [inorder_mk] at hs hk
    have hes : SortedKeys es := hs.sublist (elements_sublist_inorderList cs es)
    obtain ⟨A, B, rfl, hlb, hA, hB⟩ := LowerBound_cases es key hes
    obtain ⟨CA, c, CB, rfl, hCA⟩ := children_split cs A.length
      (by rw [hlen, List.length_append]; omega)
    have hCB : CB.length = B.length := by
      simp only [List.length_append, List.length_cons] at hlen
      omega
    rw [inorderList_split CA CB c A B hCA] at hs hk
    have hs2 := List.pairwise_append.1 hs
    have hL := inorderList_lt key CA A hCA hs2.1 hA
    have hne : (CA ++ c :: CB).isEmpty = false := by cases CA <;> rfl
    have hs3 := List.pairwise_append.1 hs2.2.1
    have hAne : ∀ e ∈ A, e.key ≠ key := fun e he => ne_of_lt (hA e he)
    have hCAself : Node.setValueList key value CA = CA :=
      setValueList_eq_self key value CA (fun x hx =>
        setValue_eq_self o h x key value (hch x (List.mem_append_left _ hx))
          (fun e he => ne_of_lt (hL e (inorderList_mem_children CA A x hx e he))))
    simp only [Node.setValue]
    rw [setValueList_append, hCAself]
    rcases hB with ⟨b, B1, rfl, hb⟩ | hB
    · have hM : ∀ x ∈ c.inorder, x.key ≠ key := by
        intro x hx
        rw [← hb]
        exact ne_of_lt (hs3.2.2 x hx b (by simp [Node.inorderTail]))
      have hT : ∀ x ∈ Node.inorderList CB B1, x.key ≠ key := by
        intro x hx
        rw [← hb]
        simp only [Node.inorderTail] at hs3
        exact ne_of_gt (List.rel_of_pairwise_cons hs3.2.1 hx)
      have hB1 : ∀ e ∈ B1, e.key ≠ key :=
        fun e he => hT e ((elements_sublist_inorderList CB B1).subset he)
      have hCBself : Node.setValueList key value CB = CB :=
        setValueList_eq_self key value CB (fun x hx =>
          setValue_eq_self o h x key value
            (hch x (List.mem_append_right _ (List.mem_cons_of_mem _ hx)))
            (fun e he => hT e (inorderList_mem_children CB B1 x hx e he)))
      rw [InsertOrUpdate_hit o _ _ key value _ b hlb (getElem?_append_length_cons A B1 b) hb,
        modify_append_length_cons, hCBself,
        setValue_eq_self o h c key value (hch c (by simp)) hM]
      simp only [List.map_append, List.map_cons, hb, if_true]
      rw [map_setValue_eq_self key value A hAne, map_setValue_eq_self key value B1 hB1]
    · have hget : A.length = (A ++ B).length ∨
          ∃ b, (A ++ B)[A.length]? = some b ∧ b.key ≠ key := by
        rcases hB with rfl | ⟨b, B1, rfl, hb, -⟩
        · exact Or.inl (by simp)
        · exact Or.inr ⟨b, getElem?_append_length_cons A B1 b, ne_of_gt hb⟩
      have hBgt : ∀ x ∈ B, key < x.key := by
        rcases hB with rfl | ⟨b, B1, rfl, -, hB⟩
        · simp
        · exact hB
      have hT := inorderTail_gt key CB B hCB hs3.2.1 hBgt
      have hkc : key ∈ c.inorder.map Element.key := by
        obtain ⟨e, he, hek⟩ := List.mem_map.1 hk
        rcases List.mem_append.1 he with he | he
        · exact absurd hek (ne_of_lt (hL e he))
        · rcases List.mem_append.1 he with he | he
          · exact List.mem_map.2 ⟨e, he, hek⟩
          · exact absurd hek (ne_of_gt (hT e he))
      have hc1 := ih c (by simp) hs3.1 hkc
      have hchild := InsertOrUpdateChild_eq CA c CB key value _ _ hc1
      rw [hCA] at hchild
      have hCBself : Node.setValueList key value CB = CB :=
        setValueList_eq_self key value CB (fun x hx =>
          setValue_eq_self o h x key value
            (hch x (List.mem_append_right _ (List.mem_cons_of_mem _ hx)))
            (fun e he => ne_of_gt (hT e (inorderTail_mem_children CB B x hx e he))))
      have hBne : ∀ e ∈ B, e.key ≠ key := fun e he => ne_of_gt (hBgt e he)
      rw [InsertOrUpdate_miss o _ _ key value _ hlb hget, hne]
      simp only [Bool.false_eq_true, if_false, hchild]
      rw [hCBself, List.map_append, map_setValue_eq_self key value A hAne,
        map_setValue_eq_self key value B hBne]

/-! ## All nodes of a well-formed tree -/

theorem mem_nodesList (cs : List (Node K V)) (m : Node K V) (h : m ∈ Node.nodesList cs) :
    ∃ c ∈ cs, m ∈ c.nodes := by
  induction cs with
  | nil => simp [Node.nodesList] at h
  | cons c cs ih =>
    simp only [Node.nodesList] at h
    rcases List.mem_append.1 h with h | h
    · exact ⟨c, List.mem_cons_self _ _, h⟩
    · obtain ⟨c1, hc1, hm⟩ := ih h
      exact ⟨c1, List.mem_cons_of_mem _ hc1, hm⟩

theorem mem_leafDepthsList (cs : List (Node K V)) (d : Nat)
    (h : d ∈ Node.leafDepthsList cs) : ∃ c ∈ cs, d ∈ c.leafDepths := by
  induction cs with
  | nil => simp [Node.leafDepthsList] at h
  | cons c cs ih =>
    simp only [Node.leafDepthsList] at h
    rcases List.mem_append.1 h with h | h
    · exact ⟨c, List.mem_cons_self _ _, h⟩
    · obtain ⟨c1, hc1, hm⟩ := ih h
      exact ⟨c1, List.mem_cons_of_mem _ hc1, hm⟩

/-- In a well-formed subtree of height `h` every leaf is `h` levels down. -/
theorem WF_leafDepths (o h : Nat) (n : Node K V) (hwf : Node.WF o h n) :
    ∀ d ∈ n.leafDepths, d = h := by
  induction hwf with
  | leaf es hsz => intro d hd; simpa [Node.leafDepths] using hd
  | node h es cs hsz hlen hch ih =>
    intro d hd
    have hne : cs.isEmpty = false := by
      cases cs with
      | nil => simp at hlen
      | cons c cs => rfl
    simp only [Node.leafDepths, hne, Bool.false_eq_true, if_false, List.mem_map] at hd
    obtain ⟨d1, hd1, rfl⟩ := hd
    obtain ⟨c, hc, hdc⟩ := mem_leafDepthsList cs d1 hd1
    rw [ih c hc d1 hdc]

/-- Every node of a well-formed subtree is well formed, and its traversal is
part of the traversal of the subtree. -/
theorem WF_nodes (o h : Nat) (n : Node K V) (hwf : Node.WF o h n) :
    ∀ m ∈ n.nodes, (∃ h1, Node.WF o h1 m) ∧ m.inorder.Sublist n.inorder := by
  induction hwf with
  | leaf es hsz =>
    intro m hm
    simp only [Node.nodes, Node.nodesList, List.mem_singleton] at hm
    subst hm
    exact ⟨⟨0, Node.WF.leaf es hsz⟩, List.Sublist.refl _⟩
  | node h es cs hsz hlen hch ih =>
    intro m hm
    simp only [Node.nodes, List.mem_cons] at hm
    rcases hm with rfl | hm
    · exact ⟨⟨h + 1, Node.WF.node h es cs hsz hlen hch⟩, List.Sublist.refl _⟩
    · obtain ⟨c, hc, hmc⟩ := mem_nodesList cs m hm
      obtain ⟨h1, h2⟩ := ih c hc m hmc
      refine ⟨h1, List.Sublist.trans h2 ?_⟩
      rw [inorder_mk]
      exact child_sublist_inorderList cs es c hc

/-- The search-tree property of one well-formed node with strictly increasing
traversal: the keys of `children[i]` are below `elements[i].key`, which is
below the keys of `children[i+1]`. -/
theorem WF_node_order [LinearOrder K] (o h : Nat) (n : Node K V) (hwf : Node.WF o h n)
    (hs : SortedKeys n.inorder) (i : Nat) (e : Element K V) (he : n.elements[i]? = some e) :
    (∀ c, n.children[i]? = some c → ∀ x ∈ c.inorder, x.key < e.key) ∧
      (∀ c, n.children[i + 1]? = some c → ∀ x ∈ c.inorder, e.key < x.key) := by
  cases hwf with
  | leaf es hsz => simp [Node.children]
  | node h es cs hsz hlen hch =>
    simp only [Node.elements, Node.children] at he ⊢
    have hi : i < es.length := (List.getElem?_eq_some.1 he).1
    obtain ⟨A, e1, B, rfl, hA⟩ := list_split_at es i hi
    have he1 : e1 = e := by
      rw [← hA, getElem?_append_length_cons] at he
      exact Option.some.inj he
    subst he1
    obtain ⟨CA, c0, CB0, rfl, hCA⟩ := children_split cs i (by omega)
    have hCB0 : CB0 ≠ [] := by
      intro h0
      subst h0
      simp only [List.length_append, List.length_cons, List.length_nil] at hlen
      omega
    obtain ⟨c1, CB, rfl⟩ := List.exists_cons_of_ne_nil hCB0
    rw [inorder_mk, inorderList_split CA (c1 :: CB) c0 A (e1 :: B) (by omega)] at hs
    simp only [Node.inorderTail, inorderList_cons] at hs
    have hs2 := (List.pairwise_append.1 hs).2.1
    have hs3 := List.pairwise_append.1 hs2
    have hg0 : (CA ++ c0 :: c1 :: CB)[i]? = some c0 := by
      rw [← hCA]; exact getElem?_append_length_cons CA _ c0
    have hg1 : (CA ++ c0 :: c1 :: CB)[i + 1]? = some c1 := by
      have : CA ++ c0 :: c1 :: CB = (CA ++ [c0]) ++ c1 :: CB := by simp
      rw [this]
      have hl : (CA ++ [c0]).length = i + 1 := by simp [hCA]
      rw [← hl]
      exact getElem?_append_length_cons _ _ c1
    refine ⟨?_, ?_⟩
    · intro c hc x hx
      rw [hg0] at hc
      cases hc
      exact hs3.2.2 x hx e1 (List.mem_cons_self _ _)
    · intro c hc x hx
      rw [hg1] at hc
      cases hc
      exact List.rel_of_pairwise_cons hs3.2.1 (List.mem_append_left _ hx)

/-- A strictly increasing list of keys with the members of `ks` is the sorted
list of the distinct members of `ks`. -/
theorem sorted_keys_unique [LinearOrder K] (l ks : List K) (hs : l.Sorted (· < ·))
    (hmem : ∀ k, k ∈ l ↔ k ∈ ks) : l = ks.toFinset.sort (· ≤ ·) := by
  have h1 : (ks.toFinset.sort (· ≤ ·)).Sorted (· < ·) := Finset.sort_sorted_lt _
  apply List.eq_of_perm_of_sorted _ hs h1
  apply (List.perm_ext_iff_of_nodup hs.nodup h1.nodup).2
  intro k
  rw [hmem k, Finset.mem_sort, List.mem_toFinset]

theorem SortedKeys.map_key [LinearOrder K] (l : List (Element K V)) (hs : SortedKeys l) :
    (l.map Element.key).Sorted (· < ·) :=
  List.pairwise_map.2 hs

/-! ## Auxiliary facts for the tree-level statements -/

theorem lookup_some_mem [DecidableEq K] (key : K) (l : List (Element K V)) (v : V)
    (h : lookup key l = some v) : key ∈ l.map Element.key := by
  induction l with
  | nil => simp [lookup] at h
  | cons e l ih =>
    simp only [lookup] at h
    split_ifs at h with h1
    · simp [h1]
    · exact List.mem_cons_of_mem _ (ih h)

theorem upsert_keys_of_mem [LinearOrder K] (key : K) (value : V) (l : List (Element K V))
    (hs : SortedKeys l) (hk : key ∈ l.map Element.key) :
    (upsert key value l).map Element.key = l.map Element.key := by
  induction l with
  | nil => simp at hk
  | cons e l ih =>
    have hs1 := List.pairwise_cons.1 hs
    simp only [upsert]
    simp only [List.map_cons, List.mem_cons] at hk
    split_ifs with h1 h2
    · rcases hk with hk | hk
      · exact absurd hk.symm (ne_of_lt h1)
      · simp only [List.map_cons, ih hs1.2 hk]
    · simp [h2]
    · exfalso
      rcases hk with hk | hk
      · exact h2 hk.symm
      · obtain ⟨x, hx, hxk⟩ := List.mem_map.1 hk
        have := hs1.1 x hx
        rw [hxk] at this
        exact h1 this

theorem lookup_foldl_upsert_nil [LinearOrder K] (calls : List (K × V)) (k : K) :
    lookup k (calls.foldl (fun l kv => upsert kv.1 kv.2 l) []) = RefMap.ofCalls calls k :=
  lookup_foldl_upsert calls [] (fun _ => none) (fun _ => rfl) k

/-- The state reached from the empty tree of order at least two, with what
the proofs need about it. -/
theorem reachable_facts [LinearOrder K] (o : Nat) (ho : 2 ≤ o) (calls : List (K × V)) :
    ∃ t, (BTree.new o : BTree K V).InsertAll calls = some t ∧ t.order_ = o ∧
      (∃ h, Node.WF o h t.root_) ∧ SortedKeys t.root_.inorder ∧
      (∀ k, t.Get k = some (RefMap.ofCalls calls k)) ∧
      (∀ k, k ∈ t.root_.inorder.map Element.key ↔ k ∈ calls.map Prod.fst) := by
  obtain ⟨t, h1, h2, h3, h4⟩ := reachable_post o ho calls
  refine ⟨t, h1, h3, ?_, h2.2, ?_, ?_⟩
  · rw [← h3]; exact h2.1
  · intro k
    rw [Get_eq_lookup t h2 k, h4, lookup_foldl_upsert_nil]
  · intro k
    rw [h4, keys_foldl_upsert]
    simp

/-- What a leaf does on `InsertOrUpdate`, by the three outcomes of the search. -/
theorem InsertOrUpdate_leaf_cases [LinearOrder K] (o : Nat) (ho : 1 ≤ o)
    (es : List (Element K V)) (hs : SortedKeys es) (hsz : es.length ≤ o - 1) (key : K)
    (value : V) :
    (key ∈ es.map Element.key ∧
        (Node.mk o es []).InsertOrUpdate key value =
          some (.mk o (es.map fun e => if e.key = key then e.set_value value else e) [], none)) ∨
      (key ∉ es.map Element.key ∧ ∃ lb, Node.LowerBound es key = some lb ∧
        ((es.length < o - 1 ∧
            (Node.mk o es []).InsertOrUpdate key value =
              some (.mk o (es.take lb ++ ⟨key, value⟩ :: es.drop lb) [], none) ∧
            es.take lb ++ ⟨key, value⟩ :: es.drop lb = upsert key value es) ∨
          (es.length = o - 1 ∧ ∃ n1 ov,
            (Node.mk o es []).InsertOrUpdate key value = some (n1, some ov)))) := by
  by_cases hk : key ∈ es.map Element.key
  · left
    refine ⟨hk, ?_⟩
    have := InsertOrUpdate_stored o 0 _ key value (Node.WF.leaf es hsz)
      (by simpa [inorder_mk, Node.inorderList] using hs)
      (by simpa [inorder_mk, Node.inorderList] using hk)
    simpa [Node.setValue, Node.setValueList] using this
  · right
    refine ⟨hk, ?_⟩
    obtain ⟨A, B, rfl, hlb, hA, hB⟩ := LowerBound_cases es key hs
    refine ⟨A.length, hlb, ?_⟩
    have hBgt : ∀ x ∈ B, key < x.key := by
      rcases hB with ⟨b, B1, rfl, hb⟩ | rfl | ⟨b, B1, rfl, -, hB⟩
      · exact absurd (List.mem_map.2 ⟨b, by simp, hb⟩) hk
      · simp
      · exact hB
    have hget : A.length = (A ++ B).length ∨
        ∃ b, (A ++ B)[A.length]? = some b ∧ b.key ≠ key := by
      cases B with
      | nil => exact Or.inl (by simp)
      | cons b B1 =>
        exact Or.inr ⟨b, getElem?_append_length_cons A B1 b,
          ne_of_gt (hBgt b (List.mem_cons_self _ _))⟩
    have hmiss := InsertOrUpdate_miss o (A ++ B) [] key value _ hlb hget
    simp only [List.isEmpty_nil, if_true] at hmiss
    have hlbl : A.length ≤ (A ++ B).length := by rw [List.length_append]; omega
    by_cases hroom : (A ++ B).length < o - 1
    · left
      refine ⟨hroom, ?_, ?_⟩
      · rw [hmiss, InsertLeaf_room o (A ++ B) A.length key value (HasRoom_eq_true hroom) hlbl]
      · rw [take_append_length, drop_append_length, upsert_append_lt key value A B hA,
          upsert_of_gt key value B hBgt]
    · right
      have hfull : (A ++ B).length = o - 1 := by omega
      refine ⟨hfull, ?_⟩
      obtain ⟨L, x, R, hsp, hL⟩ :=
        list_split_at ((A ++ B).take A.length ++ ⟨key, value⟩ :: (A ++ B).drop A.length)
          (o / 2) (by rw [insertAt_length _ _ _ hlbl]; omega)
      exact ⟨_, _, by
        rw [hmiss, InsertLeaf_split o (A ++ B) A.length key value L R x
          (HasRoom_eq_false ho (by omega)) hlbl (by omega) hL hsp]⟩

/-! ## The claims -/

/-- C1 (read-your-write).  For every odd order at least 3, every sequence of
`InsertOrUpdate` calls on the empty tree runs to a tree `t`; on it
`InsertOrUpdate(k, v)` returns a tree on which `Get(k)` returns `true` with
value `v`. -/
theorem C1_read_your_write [LinearOrder K] (order : Nat) (h3 : 3 ≤ order)
    (_hodd : order % 2 = 1) (calls : List (K × V)) (k : K) (v : V) :
    ∃ t t1, (BTree.new order : BTree K V).InsertAll calls = some t ∧
      t.InsertOrUpdate k v = some t1 ∧ t1.Get k = some (some v) := by
  obtain ⟨t, h1, hinv, ho, -⟩ := reachable_post (V := V) order (by omega) calls
  obtain ⟨t1, h2, hinv1, -, hin⟩ := BTree_InsertOrUpdate_post t k v (by omega) hinv
  refine ⟨t, t1, h1, h2, ?_⟩
  rw [Get_eq_lookup t1 hinv1 k, hin, lookup_upsert]
  simp

theorem C1_read_your_write_witness :
    3 ≤ 3 ∧ 3 % 2 = 1 ∧
      ∃ t t1, (BTree.new 3 : BTree Nat Nat).InsertAll [(5, 50), (3, 30), (8, 80), (1, 10)] =
          some t ∧
        t.InsertOrUpdate 4 40 = some t1 ∧ t1.Get 4 = some (some 40) :=
  ⟨by decide, by decide,
    C1_read_your_write 3 (by decide) (by decide) [(5, 50), (3, 30), (8, 80), (1, 10)] 4 40⟩

/-- C2 (absent keys are not found).  For every odd order at least 3 and every
sequence of calls on the empty tree, `Get(k)` returns `false` for every key
`k` that is the key of no call; in particular on the empty tree. -/
theorem C2_absent_not_found [LinearOrder K] (order : Nat) (h3 : 3 ≤ order)
    (_hodd : order % 2 = 1) (calls : List (K × V)) (k : K) (hk : k ∉ calls.map Prod.fst) :
    ∃ t, (BTree.new order : BTree K V).InsertAll calls = some t ∧ t.Get k = some none := by
  obtain ⟨t, h1, -, -, -, hget, -⟩ := reachable_facts (V := V) order (by omega) calls
  exact ⟨t, h1, by rw [hget k, RefMap_ofCalls_none calls k hk]⟩

theorem C2_absent_not_found_witness :
    3 ≤ 3 ∧ 3 % 2 = 1 ∧ 7 ∉ [(5, 50), (3, 30), (8, 80), (1, 10)].map Prod.fst ∧
      ∃ t, (BTree.new 3 : BTree Nat Nat).InsertAll [(5, 50), (3, 30), (8, 80), (1, 10)] =
          some t ∧
        t.Get 7 = some none :=
  ⟨by decide, by decide, by decide,
    C2_absent_not_found 3 (by decide) (by decide) [(5, 50), (3, 30), (8, 80), (1, 10)] 7
      (by decide)⟩

/-- C3 (agreement with a reference map).  For every odd order at least 3 and
every sequence of (key, value) pairs, applied in order to the empty tree by
`InsertOrUpdate` and to the empty map by assignment, `Get(k)` returns for every
key `k` what the map holds: `(true, map[k])` if `k` is in the map, `false`
otherwise. -/
theorem C3_reference_map [LinearOrder K] (order : Nat) (h3 : 3 ≤ order)
    (_hodd : order % 2 = 1) (calls : List (K × V)) :
    ∃ t, (BTree.new order : BTree K V).InsertAll calls = some t ∧
      ∀ k, t.Get k = some (RefMap.ofCalls calls k) := by
  obtain ⟨t, h1, -, -, -, hget, -⟩ := reachable_facts (V := V) order (by omega) calls
  exact ⟨t, h1, hget⟩

theorem C3_reference_map_witness :
    3 ≤ 3 ∧ 3 % 2 = 1 ∧
      ∃ t, (BTree.new 3 : BTree Nat Nat).InsertAll
          [(5, 50), (3, 30), (8, 80), (1, 10), (3, 31)] = some t ∧
        ∀ k, t.Get k = some (RefMap.ofCalls [(5, 50), (3, 30), (8, 80), (1, 10), (3, 31)] k) :=
  ⟨by decide, by decide,
    C3_reference_map 3 (by decide) (by decide) [(5, 50), (3, 30), (8, 80), (1, 10), (3, 31)]⟩

/-- C4 (update in place).  For every tree `t` reached with an odd order at
least 3 and every key `k` stored in it, `InsertOrUpdate(k, v1)` returns the
tree with the same order and the root `t.root_.setValue k v1`: the same nodes
with the same elements and children, only the value of the element of key `k`
replaced.  The root reports no overflow, the height and the list of keys are
unchanged. -/
theorem C4_update_in_place [LinearOrder K] (order : Nat) (h3 : 3 ≤ order)
    (_hodd : order % 2 = 1) (calls : List (K × V)) :
    ∃ t, (BTree.new order : BTree K V).InsertAll calls = some t ∧
      ∀ k v0 v1, t.Get k = some (some v0) →
        t.InsertOrUpdate k v1 = some ⟨t.order_, t.root_.setValue k v1⟩ ∧
        t.root_.InsertOrUpdate k v1 = some (t.root_.setValue k v1, none) ∧
        (t.root_.setValue k v1).height = t.root_.height ∧
        (t.root_.setValue k v1).inorder.map Element.key = t.root_.inorder.map Element.key := by
  obtain ⟨t, h1, hinv, ho, -⟩ := reachable_post (V := V) order (by omega) calls
  refine ⟨t, h1, ?_⟩
  intro k v0 v1 hget
  obtain ⟨⟨h, hwf⟩, hs⟩ := hinv
  rw [Get_eq_lookup t ⟨⟨h, hwf⟩, hs⟩ k] at hget
  have hk : k ∈ t.root_.inorder.map Element.key :=
    lookup_some_mem k _ v0 (Option.some.inj hget)
  have hst := InsertOrUpdate_stored t.order_ h t.root_ k v1 hwf hs hk
  obtain ⟨r, hr, hwf1, hpost⟩ :=
    InsertOrUpdate_post t.order_ h (by omega) t.root_ k v1 hwf hs
  rw [hst] at hr
  cases hr
  simp only at hpost hwf1
  refine ⟨by simp [BTree.InsertOrUpdate, hst], hst, ?_, ?_⟩
  · rw [WF_height _ _ _ hwf1, WF_height _ _ _ hwf]
  · rw [hpost, upsert_keys_of_mem k v1 _ hs hk]

theorem C4_update_in_place_witness :
    3 ≤ 3 ∧ 3 % 2 = 1 ∧
      ∃ t, (BTree.new 3 : BTree Nat Nat).InsertAll [(5, 50), (3, 30), (8, 80), (1, 10)] =
          some t ∧
        ∀ k v0 v1, t.Get k = some (some v0) →
          t.InsertOrUpdate k v1 = some ⟨t.order_, t.root_.setValue k v1⟩ ∧
          t.root_.InsertOrUpdate k v1 = some (t.root_.setValue k v1, none) ∧
          (t.root_.setValue k v1).height = t.root_.height ∧
          (t.root_.setValue k v1).inorder.map Element.key =
            t.root_.inorder.map Element.key :=
  ⟨by decide, by decide,
    C4_update_in_place 3 (by decide) (by decide) [(5, 50), (3, 30), (8, 80), (1, 10)]⟩

/-- C5 (structural invariants).  For every odd order at least 3 and every
sequence of calls on the empty tree, in the resulting tree all leaves are at
the same depth, every internal node has one more child than elements, and
every node has at most `order - 1` elements. -/
theorem C5_structural_invariants [LinearOrder K] (order : Nat) (h3 : 3 ≤ order)
    (_hodd : order % 2 = 1) (calls : List (K × V)) :
    ∃ t, (BTree.new order : BTree K V).InsertAll calls = some t ∧
      (∃ d, ∀ x ∈ t.root_.leafDepths, x = d) ∧
      (∀ n ∈ t.root_.nodes, n.IsLeafNode = false →
        n.children.length = n.elements.length + 1) ∧
      (∀ n ∈ t.root_.nodes, n.elements.length ≤ order - 1) := by
  obtain ⟨t, h1, -, ⟨h, hwf⟩, -, -, -⟩ := reachable_facts (V := V) order (by omega) calls
  refine ⟨t, h1, ⟨h, WF_leafDepths order h _ hwf⟩, ?_, ?_⟩
  · intro n hn hleaf
    obtain ⟨⟨h1, hwfn⟩, -⟩ := WF_nodes order h _ hwf n hn
    cases hwfn with
    | leaf es hsz => simp [Node.IsLeafNode, Node.children] at hleaf
    | node h2 es cs hsz hlen hch => exact hlen
  · intro n hn
    obtain ⟨⟨h1, hwfn⟩, -⟩ := WF_nodes order h _ hwf n hn
    cases hwfn with
    | leaf es hsz => exact hsz
    | node h2 es cs hsz hlen hch => exact hsz

theorem C5_structural_invariants_witness :
    3 ≤ 3 ∧ 3 % 2 = 1 ∧
      ∃ t, (BTree.new 3 : BTree Nat Nat).InsertAll
          [(5, 50), (3, 30), (8, 80), (1, 10), (4, 40), (9, 90), (2, 20)] = some t ∧
        (∃ d, ∀ x ∈ t.root_.leafDepths, x = d) ∧
        (∀ n ∈ t.root_.nodes, n.IsLeafNode = false →
          n.children.length = n.elements.length + 1) ∧
        (∀ n ∈ t.root_.nodes, n.elements.length ≤ 3 - 1) :=
  ⟨by decide, by decide,
    C5_structural_invariants 3 (by decide) (by decide)
      [(5, 50), (3, 30), (8, 80), (1, 10), (4, 40), (9, 90), (2, 20)]⟩

/-- C6 (search-tree order, unique keys).  For every odd order at least 3 and
every sequence of calls on the empty tree, the in-order traversal of the
resulting tree lists keys in strictly increasing order, that list is the sorted
list of the distinct keys of the calls, and in every node the keys of
`children[i]` are below `elements[i].key`, which is below the keys of
`children[i+1]`. -/
theorem C6_search_tree_order [LinearOrder K] (order : Nat) (h3 : 3 ≤ order)
    (_hodd : order % 2 = 1) (calls : List (K × V)) :
    ∃ t, (BTree.new order : BTree K V).InsertAll calls = some t ∧
      (t.root_.inorder.map Element.key).Sorted (· < ·) ∧
      t.root_.inorder.map Element.key = (calls.map Prod.fst).toFinset.sort (· ≤ ·) ∧
      ∀ n ∈ t.root_.nodes, ∀ i e, n.elements[i]? = some e →
        (∀ c, n.children[i]? = some c → ∀ x ∈ c.inorder, x.key < e.key) ∧
        (∀ c, n.children[i + 1]? = some c → ∀ x ∈ c.inorder, e.key < x.key) := by
  obtain ⟨t, h1, -, ⟨h, hwf⟩, hs, -, hkeys⟩ := reachable_facts (V := V) order (by omega) calls
  refine ⟨t, h1, hs.map_key, sorted_keys_unique _ _ hs.map_key hkeys, ?_⟩
  intro n hn i e he
  obtain ⟨⟨h1, hwfn⟩, hsub⟩ := WF_nodes order h _ hwf n hn
  exact WF_node_order order h1 n hwfn (hs.sublist hsub) i e he

theorem C6_search_tree_order_witness :
    3 ≤ 3 ∧ 3 % 2 = 1 ∧
      ∃ t, (BTree.new 3 : BTree Nat Nat).InsertAll
          [(5, 50), (3, 30), (8, 80), (1, 10), (3, 31), (9, 90), (2, 20)] = some t ∧
        (t.root_.inorder.map Element.key).Sorted (· < ·) ∧
        t.root_.inorder.map Element.key =
          ([(5, 50), (3, 30), (8, 80), (1, 10), (3, 31), (9, 90), (2, 20)].map
            Prod.fst).toFinset.sort (· ≤ ·) ∧
        ∀ n ∈ t.root_.nodes, ∀ i e, n.elements[i]? = some e →
          (∀ c, n.children[i]? = some c → ∀ x ∈ c.inorder, x.key < e.key) ∧
          (∀ c, n.children[i + 1]? = some c → ∀ x ∈ c.inorder, e.key < x.key) :=
  ⟨by decide, by decide,
    C6_search_tree_order 3 (by decide) (by decide)
      [(5, 50), (3, 30), (8, 80), (1, 10), (3, 31), (9, 90), (2, 20)]⟩

/-- C7 (`LowerBound` is the lower bound).  For every node with strictly
increasing elements and every key, `LowerBound(key)` returns an index `i` that
is at most the size, at which the key is not below `key`, and that is at most
every index whose key is not below `key`; it is the size if all keys are below
`key`.  The key is in the node if and only if `elements[i]` exists and has that
key. -/
theorem C7_lower_bound [LinearOrder K] (n : Node K V) (key : K)
    (hs : SortedKeys n.elements) :
    ∃ i, Node.LowerBound n.elements key = some i ∧ i ≤ n.elements.length ∧
      (∀ e, n.elements[i]? = some e → key ≤ e.key) ∧
      (∀ j e, n.elements[j]? = some e → key ≤ e.key → i ≤ j) ∧
      ((∀ e ∈ n.elements, e.key < key) → i = n.elements.length) ∧
      ((∃ e ∈ n.elements, e.key = key) ↔ ∃ e, n.elements[i]? = some e ∧ e.key = key) := by
  obtain ⟨i, hi, hle, h1, h2⟩ := LowerBound_spec n.elements key hs
  have hat : ∀ e, n.elements[i]? = some e → key ≤ e.key := by
    intro e he
    apply h2 e
    apply List.mem_iff_getElem?.2
    exact ⟨0, by rw [List.getElem?_drop]; exact he⟩
  have hmin : ∀ j e, n.elements[j]? = some e → key ≤ e.key → i ≤ j := by
    intro j e he hk
    by_contra hji
    have : e ∈ n.elements.take i := by
      apply List.mem_iff_getElem?.2
      exact ⟨j, by rw [List.getElem?_take_of_lt (by omega)]; exact he⟩
    exact absurd (h1 e this) (not_lt.2 hk)
  refine ⟨i, hi, hle, hat, hmin, ?_, ?_⟩
  · intro hall
    by_contra hne
    have hlt : i < n.elements.length := by omega
    have hget := List.getElem?_eq_getElem hlt
    exact absurd (hall _ (List.getElem_mem hlt)) (not_lt.2 (hat _ hget))
  · constructor
    · rintro ⟨e, he, hek⟩
      obtain ⟨j, hj⟩ := List.mem_iff_getElem?.1 he
      have hij : i ≤ j := hmin j e hj (le_of_eq hek.symm)
      have hjl : j < n.elements.length := (List.getElem?_eq_some.1 hj).1
      have hilt : i < n.elements.length := by omega
      have hgi := List.getElem?_eq_getElem hilt
      refine ⟨_, hgi, le_antisymm ?_ (hat _ hgi)⟩
      rcases Nat.lt_or_eq_of_le hij with hlt | heq
      · rw [← hek]
        exact le_of_lt (hs.getElem?_lt hlt hgi hj)
      · subst heq
        rw [hgi] at hj
        cases hj
        exact le_of_eq hek
    · rintro ⟨e, he, hek⟩
      exact ⟨e, List.mem_iff_getElem?.2 ⟨i, he⟩, hek⟩

theorem C7_lower_bound_witness :
    SortedKeys (Node.mk 5 [⟨1, 10⟩, ⟨3, 30⟩, ⟨5, 50⟩, ⟨7, 70⟩] [] : Node Nat Nat).elements ∧
      ∃ i, Node.LowerBound
          (Node.mk 5 [⟨1, 10⟩, ⟨3, 30⟩, ⟨5, 50⟩, ⟨7, 70⟩] [] : Node Nat Nat).elements 4 = some i ∧
        i ≤ (Node.mk 5 [⟨1, 10⟩, ⟨3, 30⟩, ⟨5, 50⟩, ⟨7, 70⟩] [] : Node Nat Nat).elements.length ∧
        (∀ e, (Node.mk 5 [⟨1, 10⟩, ⟨3, 30⟩, ⟨5, 50⟩, ⟨7, 70⟩] [] : Node Nat Nat).elements[i]? =
          some e → 4 ≤ e.key) ∧
        (∀ j e, (Node.mk 5 [⟨1, 10⟩, ⟨3, 30⟩, ⟨5, 50⟩, ⟨7, 70⟩] [] : Node Nat Nat).elements[j]? =
          some e → 4 ≤ e.key → i ≤ j) ∧
        ((∀ e ∈ (Node.mk 5 [⟨1, 10⟩, ⟨3, 30⟩, ⟨5, 50⟩, ⟨7, 70⟩] [] : Node Nat Nat).elements,
          e.key < 4) →
          i = (Node.mk 5 [⟨1, 10⟩, ⟨3, 30⟩, ⟨5, 50⟩, ⟨7, 70⟩] [] :
            Node Nat Nat).elements.length) ∧
        ((∃ e ∈ (Node.mk 5 [⟨1, 10⟩, ⟨3, 30⟩, ⟨5, 50⟩, ⟨7, 70⟩] [] : Node Nat Nat).elements,
          e.key = 4) ↔
          ∃ e, (Node.mk 5 [⟨1, 10⟩, ⟨3, 30⟩, ⟨5, 50⟩, ⟨7, 70⟩] [] : Node Nat Nat).elements[i]? =
            some e ∧ e.key = 4) :=
  ⟨by simp [SortedKeys, Node.elements],
    C7_lower_bound (Node.mk 5 [⟨1, 10⟩, ⟨3, 30⟩, ⟨5, 50⟩, ⟨7, 70⟩] []) 4
      (by simp [SortedKeys, Node.elements])⟩

/-- C8 (root growth).  For every tree `t` reached with an odd order at least
3 and every call `InsertOrUpdate(k, v)`: the root returns a result; if it is
an overflow, the new root has exactly the promoted median as elements and
exactly the previous root and the new sibling as children, and the height is
one more than before; if it is no overflow, the root is the previous root
after its own update and the height is unchanged. -/
theorem C8_root_growth [LinearOrder K] (order : Nat) (h3 : 3 ≤ order)
    (_hodd : order % 2 = 1) (calls : List (K × V)) (k : K) (v : V) :
    ∃ t root1 ov t1, (BTree.new order : BTree K V).InsertAll calls = some t ∧
      t.root_.InsertOrUpdate k v = some (root1, ov) ∧ t.InsertOrUpdate k v = some t1 ∧
      (∀ o1, ov = some o1 →
        t1.root_.elements = [o1.new_median] ∧
        t1.root_.children = [root1, o1.above_median] ∧
        t1.root_.height = t.root_.height + 1) ∧
      (ov = none → t1.root_ = root1 ∧ t1.root_.height = t.root_.height) := by
  obtain ⟨t, h1, hinv, ho, -⟩ := reachable_post (V := V) order (by omega) calls
  obtain ⟨⟨h, hwf⟩, hs⟩ := hinv
  obtain ⟨⟨r, ov⟩, hr, hwf1, -⟩ :=
    InsertOrUpdate_post t.order_ h (by omega) t.root_ k v hwf hs
  simp only at hwf1
  have hh := WF_height _ _ _ hwf
  have hh1 := WF_height _ _ _ hwf1
  cases ov with
  | none =>
    refine ⟨t, r, none, ⟨t.order_, r⟩, h1, hr, by simp [BTree.InsertOrUpdate, hr], ?_, ?_⟩
    · intro o1 ho1; cases ho1
    · intro _; exact ⟨rfl, by rw [hh, hh1]⟩
  | some o1 =>
    refine ⟨t, r, some o1,
      ⟨t.order_, .mk t.order_ [o1.new_median] [r, o1.above_median]⟩, h1, hr,
      by simp [BTree.InsertOrUpdate, hr], ?_, ?_⟩
    · intro o2 ho2
      cases ho2
      refine ⟨rfl, rfl, ?_⟩
      simp only [Node.height, Node.heightList]
      rw [hh, hh1]
    · intro hn; cases hn

theorem C8_root_growth_witness :
    3 ≤ 3 ∧ 3 % 2 = 1 ∧
      ∃ t root1 ov t1, (BTree.new 3 : BTree Nat Nat).InsertAll [(5, 50), (3, 30)] = some t ∧
        t.root_.InsertOrUpdate 8 80 = some (root1, ov) ∧ t.InsertOrUpdate 8 80 = some t1 ∧
        (∀ o1, ov = some o1 →
          t1.root_.elements = [o1.new_median] ∧
          t1.root_.children = [root1, o1.above_median] ∧
          t1.root_.height = t.root_.height + 1) ∧
        (ov = none → t1.root_ = root1 ∧ t1.root_.height = t.root_.height) :=
  ⟨by decide, by decide, C8_root_growth 3 (by decide) (by decide) [(5, 50), (3, 30)] 8 80⟩

/-- C9 (overflow exactly when a split is needed).  For every leaf with strictly
increasing keys and at most `order - 1` elements, `order` odd and at least 3,
`InsertOrUpdate(key, value)` returns; it returns an overflow if and only if the
key is not in the leaf and the leaf holds exactly `order - 1` elements.  If the
key is in the leaf its value is overwritten and there is no overflow.  If the
key is absent and the leaf holds fewer than `order - 1` elements, the new
element is inserted at index `LowerBound(key)`, the elements stay strictly
increasing, the size grows by one, and there is no overflow. -/
theorem C9_leaf_overflow [LinearOrder K] (order : Nat) (h3 : 3 ≤ order)
    (_hodd : order % 2 = 1) (es : List (Element K V)) (hs : SortedKeys es)
    (hsz : es.length ≤ order - 1) (key : K) (value : V) :
    ∃ n1 ov, (Node.mk order es []).InsertOrUpdate key value = some (n1, ov) ∧
      (ov.isSome = true ↔ key ∉ es.map Element.key ∧ es.length = order - 1) ∧
      (key ∈ es.map Element.key → ov = none ∧
        n1 = .mk order (es.map fun e => if e.key = key then e.set_value value else e) []) ∧
      (key ∉ es.map Element.key → es.length < order - 1 →
        ∃ lb, Node.LowerBound es key = some lb ∧ ov = none ∧
          n1 = .mk order (es.take lb ++ ⟨key, value⟩ :: es.drop lb) [] ∧
          SortedKeys n1.elements ∧ n1.elements.length = es.length + 1) := by
  rcases InsertOrUpdate_leaf_cases order (by omega) es hs hsz key value with
    ⟨hk, hr⟩ | ⟨hk, lb, hlb, ⟨hroom, hr, hup⟩ | ⟨hfull, n1, ov, hr⟩⟩
  · refine ⟨_, none, hr, ?_, fun _ => ⟨rfl, rfl⟩, fun hnk => absurd hk hnk⟩
    simp [hk]
  · refine ⟨_, none, hr, ?_, fun hk1 => absurd hk1 hk, ?_⟩
    · simp only [Option.isSome_none, Bool.false_eq_true, false_iff, not_and]
      intro _; omega
    · intro _ _
      refine ⟨lb, hlb, rfl, rfl, ?_, ?_⟩
      · simp only [Node.elements]
        rw [hup]
        exact hs.upsert key value
      · have hle : lb ≤ es.length := by
          obtain ⟨i, hi, hle, -, -⟩ := LowerBound_spec es key hs
          rw [hlb] at hi
          cases hi
          exact hle
        simp only [Node.elements]
        exact insertAt_length lb _ es hle
  · refine ⟨n1, some ov, hr, ?_, fun hk1 => absurd hk1 hk, ?_⟩
    · simp [hk, hfull]
    · intro _ hlt; omega

theorem C9_leaf_overflow_witness :
    3 ≤ 3 ∧ 3 % 2 = 1 ∧ SortedKeys ([⟨3, 30⟩, ⟨5, 50⟩] : List (Element Nat Nat)) ∧
      ([⟨3, 30⟩, ⟨5, 50⟩] : List (Element Nat Nat)).length ≤ 3 - 1 ∧
      ∃ n1 ov, (Node.mk 3 [⟨3, 30⟩, ⟨5, 50⟩] [] : Node Nat Nat).InsertOrUpdate 4 40 =
          some (n1, ov) ∧
        (ov.isSome = true ↔
          4 ∉ ([⟨3, 30⟩, ⟨5, 50⟩] : List (Element Nat Nat)).map Element.key ∧
            ([⟨3, 30⟩, ⟨5, 50⟩] : List (Element Nat Nat)).length = 3 - 1) ∧
        (4 ∈ ([⟨3, 30⟩, ⟨5, 50⟩] : List (Element Nat Nat)).map Element.key → ov = none ∧
          n1 = .mk 3 (([⟨3, 30⟩, ⟨5, 50⟩] : List (Element Nat Nat)).map
            fun e => if e.key = 4 then e.set_value 40 else e) []) ∧
        (4 ∉ ([⟨3, 30⟩, ⟨5, 50⟩] : List (Element Nat Nat)).map Element.key →
          ([⟨3, 30⟩, ⟨5, 50⟩] : List (Element Nat Nat)).length < 3 - 1 →
          ∃ lb, Node.LowerBound ([⟨3, 30⟩, ⟨5, 50⟩] : List (Element Nat Nat)) 4 = some lb ∧
            ov = none ∧
            n1 = .mk 3 (([⟨3, 30⟩, ⟨5, 50⟩] : List (Element Nat Nat)).take lb ++
              ⟨4, 40⟩ :: ([⟨3, 30⟩, ⟨5, 50⟩] : List (Element Nat Nat)).drop lb) [] ∧
            SortedKeys n1.elements ∧
            n1.elements.length = ([⟨3, 30⟩, ⟨5, 50⟩] : List (Element Nat Nat)).length + 1) :=
  ⟨by decide, by decide, by simp [SortedKeys], by decide,
    C9_leaf_overflow 3 (by decide) (by decide) [⟨3, 30⟩, ⟨5, 50⟩] (by simp [SortedKeys])
      (by decide) 4 40⟩

/-- C10 (`Remove` is a failing no-op).  For every tree and every key,
`Remove(k)` returns `false` and leaves the tree as it is, so `Get` returns the
same result for every key before and after the call. -/
theorem C10_remove_noop [LinearOrder K] (t : BTree K V) (k : K) :
    (t.Remove k).2 = false ∧ (t.Remove k).1 = t ∧
      ∀ k1, (t.Remove k).1.Get k1 = t.Get k1 :=
  ⟨rfl, rfl, fun _ => rfl⟩

/-! ## Splitting a full leaf -/

/-- A full leaf receiving an absent key: the search index, the inserted list
and, for every cut of it at `order / 2`, the result of the call. -/
theorem InsertOrUpdate_leaf_full [LinearOrder K] (o : Nat) (ho : 1 ≤ o)
    (es : List (Element K V)) (hs : SortedKeys es) (hfull : es.length = o - 1) (key : K)
    (value : V) (hk : key ∉ es.map Element.key) :
    ∃ lb, Node.LowerBound es key = some lb ∧ lb ≤ es.length ∧
      es.take lb ++ ⟨key, value⟩ :: es.drop lb = upsert key value es ∧
      ∀ L x R, es.take lb ++ ⟨key, value⟩ :: es.drop lb = L ++ x :: R → L.length = o / 2 →
        (Node.mk o es []).InsertOrUpdate key value =
          some (.mk o L [], some ⟨x, .mk o R []⟩) := by
  obtain ⟨A, B, rfl, hlb, hA, hB⟩ := LowerBound_cases es key hs
  have hBgt : ∀ x ∈ B, key < x.key := by
    rcases hB with ⟨b, B1, rfl, hb⟩ | rfl | ⟨b, B1, rfl, -, hB⟩
    · exact absurd (List.mem_map.2 ⟨b, by simp, hb⟩) hk
    · simp
    · exact hB
  have hget : A.length = (A ++ B).length ∨
      ∃ b, (A ++ B)[A.length]? = some b ∧ b.key ≠ key := by
    cases B with
    | nil => exact Or.inl (by simp)
    | cons b B1 =>
      exact Or.inr ⟨b, getElem?_append_length_cons A B1 b,
        ne_of_gt (hBgt b (List.mem_cons_self _ _))⟩
  have hmiss := InsertOrUpdate_miss o (A ++ B) [] key value _ hlb hget
  simp only [List.isEmpty_nil, if_true] at hmiss
  have hlbl : A.length ≤ (A ++ B).length := by rw [List.length_append]; omega
  refine ⟨A.length, hlb, hlbl, ?_, ?_⟩
  · rw [take_append_length, drop_append_length, upsert_append_lt key value A B hA,
      upsert_of_gt key value B hBgt]
  · intro L x R hsp hL
    rw [hmiss, InsertLeaf_split o (A ++ B) A.length key value L R x
      (HasRoom_eq_false ho (by omega)) hlbl (by omega) hL hsp]

/-- The entry at index `m` of a list with `v` inserted at index `a`. -/
theorem getElem?_insertAt {T : Type} (a m : Nat) (v : T) (vec : List T) (ha : a ≤ vec.length) :
    (vec.take a ++ v :: vec.drop a)[m]? =
      if m < a then vec[m]? else if m = a then some v else vec[m - 1]? := by
  have hlen : (vec.take a).length = a := by rw [List.length_take]; omega
  split_ifs with h1 h2
  · rw [List.getElem?_append_left (by omega), List.getElem?_take_of_lt h1]
  · subst h2
    rw [List.getElem?_append_right (by omega), hlen]
    simp
  · rw [List.getElem?_append_right (by omega), hlen]
    obtain ⟨d, hd⟩ : ∃ d, m - a = d + 1 := ⟨m - a - 1, by omega⟩
    rw [hd, List.getElem?_cons_succ, List.getElem?_drop]
    congr 1
    omega

/-! ## The claims on leaf splits -/

/-- C11 (leaf split sizes).  For every odd order at least 3, inserting an
absent key into a full leaf (exactly `order - 1` strictly increasing elements)
returns an overflow with one promoted element; the original leaf keeps exactly
`order / 2` elements and the sibling is a leaf with exactly
`order - 1 - order / 2` elements, which is `order / 2`. -/
theorem C11_leaf_split_sizes [LinearOrder K] (order : Nat) (h3 : 3 ≤ order)
    (hodd : order % 2 = 1) (es : List (Element K V)) (hs : SortedKeys es)
    (hfull : es.length = order - 1) (key : K) (value : V) (hk : key ∉ es.map Element.key) :
    ∃ L m R, (Node.mk order es []).InsertOrUpdate key value =
        some (.mk order L [], some ⟨m, .mk order R []⟩) ∧
      L.length = order / 2 ∧ R.length = order - 1 - order / 2 ∧ R.length = order / 2 ∧
      (Node.mk order R [] : Node K V).IsLeafNode = true := by
  obtain ⟨lb, -, hle, -, hres⟩ :=
    InsertOrUpdate_leaf_full order (by omega) es hs hfull key value hk
  obtain ⟨L, x, R, hsp, hL⟩ :=
    list_split_at (es.take lb ++ ⟨key, value⟩ :: es.drop lb) (order / 2)
      (by rw [insertAt_length _ _ _ hle]; omega)
  have hR : R.length = order - 1 - order / 2 := by
    have := congrArg List.length hsp
    rw [insertAt_length _ _ _ hle, hfull] at this
    simp only [List.length_append, List.length_cons] at this
    omega
  exact ⟨L, x, R, hres L x R hsp hL, hL, hR, by omega, rfl⟩

theorem C11_leaf_split_sizes_witness :
    3 ≤ 5 ∧ 5 % 2 = 1 ∧
      SortedKeys ([⟨1, 10⟩, ⟨3, 30⟩, ⟨5, 50⟩, ⟨7, 70⟩] : List (Element Nat Nat)) ∧
      ([⟨1, 10⟩, ⟨3, 30⟩, ⟨5, 50⟩, ⟨7, 70⟩] : List (Element Nat Nat)).length = 5 - 1 ∧
      6 ∉ ([⟨1, 10⟩, ⟨3, 30⟩, ⟨5, 50⟩, ⟨7, 70⟩] : List (Element Nat Nat)).map Element.key ∧
      ∃ L m R, (Node.mk 5 [⟨1, 10⟩, ⟨3, 30⟩, ⟨5, 50⟩, ⟨7, 70⟩] [] : Node Nat Nat).InsertOrUpdate
          6 60 = some (.mk 5 L [], some ⟨m, .mk 5 R []⟩) ∧
        L.length = 5 / 2 ∧ R.length = 5 - 1 - 5 / 2 ∧ R.length = 5 / 2 ∧
        (Node.mk 5 R [] : Node Nat Nat).IsLeafNode = true :=
  ⟨by decide, by decide, by simp [SortedKeys], by decide, by decide,
    C11_leaf_split_sizes 5 (by decide) (by decide) [⟨1, 10⟩, ⟨3, 30⟩, ⟨5, 50⟩, ⟨7, 70⟩]
      (by simp [SortedKeys]) (by decide) 6 60 (by decide)⟩

/-- C12, the claim as stated fails: in the full leaf `[3, 5]` of order 3 the
key 1 has position `0 <= middle = 1`, and the call promotes the old element of
key 3, not the new element of key 1. -/
theorem C12_counterexample :
    3 ≤ 3 ∧ 3 % 2 = 1 ∧ SortedKeys ([⟨3, 30⟩, ⟨5, 50⟩] : List (Element Nat Nat)) ∧
      ([⟨3, 30⟩, ⟨5, 50⟩] : List (Element Nat Nat)).length = 3 - 1 ∧
      1 ∉ ([⟨3, 30⟩, ⟨5, 50⟩] : List (Element Nat Nat)).map Element.key ∧
      Node.LowerBound ([⟨3, 30⟩, ⟨5, 50⟩] : List (Element Nat Nat)) 1 = some 0 ∧ 0 ≤ 3 / 2 ∧
      (Node.mk 3 [⟨3, 30⟩, ⟨5, 50⟩] [] : Node Nat Nat).InsertOrUpdate 1 10 =
        some (.mk 3 [⟨1, 10⟩] [], some ⟨⟨3, 30⟩, .mk 3 [⟨5, 50⟩] []⟩) ∧
      (⟨3, 30⟩ : Element Nat Nat) ≠ ⟨1, 10⟩ :=
  ⟨by decide, by decide, by simp [SortedKeys], by decide, by decide, by decide, by decide,
    by rfl, by decide⟩

/-- C12 as amended (leaf split, position at most middle).  For every odd
order at least 3 and every full leaf with strictly increasing keys, when an
absent key with `position = LowerBound(key) <= middle = order / 2` is
inserted, the promoted median is the new element if `position = middle` and
the former `elements[middle - 1]` if `position < middle`. -/
theorem C12_leaf_split_low [LinearOrder K] (order : Nat) (h3 : 3 ≤ order)
    (hodd : order % 2 = 1) (es : List (Element K V)) (hs : SortedKeys es)
    (hfull : es.length = order - 1) (key : K) (value : V) (hk : key ∉ es.map Element.key)
    (lb : Nat) (hlb : Node.LowerBound es key = some lb) (_hpos : lb ≤ order / 2) :
    ∃ n1 m s, (Node.mk order es []).InsertOrUpdate key value = some (n1, some ⟨m, s⟩) ∧
      (lb = order / 2 → m = ⟨key, value⟩) ∧
      (lb < order / 2 → es[order / 2 - 1]? = some m) := by
  obtain ⟨lb1, hlb1, hle, -, hres⟩ :=
    InsertOrUpdate_leaf_full order (by omega) es hs hfull key value hk
  rw [hlb] at hlb1
  cases hlb1
  obtain ⟨L, x, R, hsp, hL⟩ :=
    list_split_at (es.take lb ++ ⟨key, value⟩ :: es.drop lb) (order / 2)
      (by rw [insertAt_length _ _ _ hle]; omega)
  have hx := (list_split_unique hsp).2.1
  rw [hL, getElem?_insertAt lb (order / 2) _ es hle] at hx
  refine ⟨_, x, _, hres L x R hsp hL, ?_, ?_⟩
  · intro heq
    rw [if_neg (by omega), if_pos heq.symm] at hx
    exact (Option.some.inj hx).symm
  · intro hlt
    rw [if_neg (by omega), if_neg (by omega)] at hx
    exact hx

theorem C12_leaf_split_low_witness :
    3 ≤ 5 ∧ 5 % 2 = 1 ∧
      SortedKeys ([⟨1, 10⟩, ⟨3, 30⟩, ⟨5, 50⟩, ⟨7, 70⟩] : List (Element Nat Nat)) ∧
      ([⟨1, 10⟩, ⟨3, 30⟩, ⟨5, 50⟩, ⟨7, 70⟩] : List (Element Nat Nat)).length = 5 - 1 ∧
      2 ∉ ([⟨1, 10⟩, ⟨3, 30⟩, ⟨5, 50⟩, ⟨7, 70⟩] : List (Element Nat Nat)).map Element.key ∧
      Node.LowerBound ([⟨1, 10⟩, ⟨3, 30⟩, ⟨5, 50⟩, ⟨7, 70⟩] : List (Element Nat Nat)) 2 =
        some 1 ∧
      1 ≤ 5 / 2 ∧
      ∃ n1 m s, (Node.mk 5 [⟨1, 10⟩, ⟨3, 30⟩, ⟨5, 50⟩, ⟨7, 70⟩] [] : Node Nat Nat).InsertOrUpdate
          2 20 = some (n1, some ⟨m, s⟩) ∧
        (1 = 5 / 2 → m = ⟨2, 20⟩) ∧
        (1 < 5 / 2 →
          ([⟨1, 10⟩, ⟨3, 30⟩, ⟨5, 50⟩, ⟨7, 70⟩] : List (Element Nat Nat))[5 / 2 - 1]? =
            some m) :=
  ⟨by decide, by decide, by simp [SortedKeys], by decide, by decide, by decide, by decide,
    C12_leaf_split_low 5 (by decide) (by decide) [⟨1, 10⟩, ⟨3, 30⟩, ⟨5, 50⟩, ⟨7, 70⟩]
      (by simp [SortedKeys]) (by decide) 2 20 (by decide) 1 (by decide) (by decide)⟩

/-- C13 (leaf split, position above middle).  For every odd order at least 3
and every full leaf with strictly increasing keys, when an absent key with
`position = LowerBound(key) > middle = order / 2` is inserted, the promoted
median is the former `elements[middle]`, the original leaf keeps exactly its
former `elements[0..middle-1]`, and the sibling holds the former
`elements[middle+1..]` with the new element inserted at index
`position - middle - 1`; the sibling is strictly increasing. -/
theorem C13_leaf_split_high [LinearOrder K] (order : Nat) (h3 : 3 ≤ order)
    (hodd : order % 2 = 1) (es : List (Element K V)) (hs : SortedKeys es)
    (hfull : es.length = order - 1) (key : K) (value : V) (hk : key ∉ es.map Element.key)
    (lb : Nat) (hlb : Node.LowerBound es key = some lb) (hpos : order / 2 < lb) :
    ∃ m R, (Node.mk order es []).InsertOrUpdate key value =
        some (.mk order (es.take (order / 2)) [], some ⟨m, .mk order R []⟩) ∧
      es[order / 2]? = some m ∧
      R = (es.drop (order / 2 + 1)).take (lb - order / 2 - 1) ++
        ⟨key, value⟩ :: (es.drop (order / 2 + 1)).drop (lb - order / 2 - 1) ∧
      SortedKeys R := by
  obtain ⟨lb1, hlb1, hle, hup, hres⟩ :=
    InsertOrUpdate_leaf_full order (by omega) es hs hfull key value hk
  rw [hlb] at hlb1
  cases hlb1
  obtain ⟨L, x, R, hsp, hL⟩ :=
    list_split_at (es.take lb ++ ⟨key, value⟩ :: es.drop lb) (order / 2)
      (by rw [insertAt_length _ _ _ hle]; omega)
  obtain ⟨u1, u2, u3⟩ := list_split_unique hsp
  rw [hL] at u1 u2 u3
  rw [getElem?_insertAt lb (order / 2) _ es hle, if_pos hpos] at u2
  have hLe : L = es.take (order / 2) := by
    rw [u1, List.take_append_of_le_length (by simp; omega), List.take_take]
    congr 1; omega
  have hRe : R = (es.drop (order / 2 + 1)).take (lb - order / 2 - 1) ++
      ⟨key, value⟩ :: (es.drop (order / 2 + 1)).drop (lb - order / 2 - 1) := by
    have h1 : (es.take lb).drop (order / 2 + 1) =
        (es.drop (order / 2 + 1)).take (lb - order / 2 - 1) := by
      rw [List.drop_take]
      congr 1
    have h2 : (es.drop (order / 2 + 1)).drop (lb - order / 2 - 1) = es.drop lb := by
      rw [List.drop_drop]
      congr 1
      omega
    rw [u3, List.drop_append_of_le_length (by simp; omega), h1, h2]
  have hsE : SortedKeys (L ++ x :: R) := by
    rw [← hsp, hup]
    exact hs.upsert key value
  have hsR : SortedKeys R :=
    hsE.sublist (List.Sublist.trans (List.sublist_cons_self x R) (List.sublist_append_right L _))
  refine ⟨x, R, ?_, u2, hRe, hsR⟩
  rw [← hLe]
  exact hres L x R hsp hL

theorem C13_leaf_split_high_witness :
    3 ≤ 5 ∧ 5 % 2 = 1 ∧
      SortedKeys ([⟨1, 10⟩, ⟨3, 30⟩, ⟨5, 50⟩, ⟨7, 70⟩] : List (Element Nat Nat)) ∧
      ([⟨1, 10⟩, ⟨3, 30⟩, ⟨5, 50⟩, ⟨7, 70⟩] : List (Element Nat Nat)).length = 5 - 1 ∧
      8 ∉ ([⟨1, 10⟩, ⟨3, 30⟩, ⟨5, 50⟩, ⟨7, 70⟩] : List (Element Nat Nat)).map Element.key ∧
      Node.LowerBound ([⟨1, 10⟩, ⟨3, 30⟩, ⟨5, 50⟩, ⟨7, 70⟩] : List (Element Nat Nat)) 8 =
        some 4 ∧
      5 / 2 < 4 ∧
      ∃ m R, (Node.mk 5 [⟨1, 10⟩, ⟨3, 30⟩, ⟨5, 50⟩, ⟨7, 70⟩] [] : Node Nat Nat).InsertOrUpdate
          8 80 =
          some (.mk 5 (([⟨1, 10⟩, ⟨3, 30⟩, ⟨5, 50⟩, ⟨7, 70⟩] : List (Element Nat Nat)).take
            (5 / 2)) [], some ⟨m, .mk 5 R []⟩) ∧
        ([⟨1, 10⟩, ⟨3, 30⟩, ⟨5, 50⟩, ⟨7, 70⟩] : List (Element Nat Nat))[5 / 2]? = some m ∧
        R = (([⟨1, 10⟩, ⟨3, 30⟩, ⟨5, 50⟩, ⟨7, 70⟩] : List (Element Nat Nat)).drop
              (5 / 2 + 1)).take (4 - 5 / 2 - 1) ++
            ⟨8, 80⟩ :: (([⟨1, 10⟩, ⟨3, 30⟩, ⟨5, 50⟩, ⟨7, 70⟩] : List (Element Nat Nat)).drop
              (5 / 2 + 1)).drop (4 - 5 / 2 - 1) ∧
        SortedKeys R :=
  ⟨by decide, by decide, by simp [SortedKeys], by decide, by decide, by decide, by decide,
    C13_leaf_split_high 5 (by decide) (by decide) [⟨1, 10⟩, ⟨3, 30⟩, ⟨5, 50⟩, ⟨7, 70⟩]
      (by simp [SortedKeys]) (by decide) 8 80 (by decide) 4 (by decide) (by decide)⟩

/-- C17 (a leaf split conserves the elements in order).  For every odd order
at least 3, every full leaf with strictly increasing keys and every absent
key, after `InsertOrUpdate(key, value)` the elements of the original leaf,
then the promoted median, then the elements of the sibling are exactly the
former elements with the new element inserted at index `LowerBound(key)`.
That list is strictly increasing, is a rearrangement of the new element and
the former elements, and every key left of the median is below the key of the
median, which is below every key of the sibling. -/
theorem C17_leaf_split_conserves [LinearOrder K] (order : Nat) (h3 : 3 ≤ order)
    (hodd : order % 2 = 1) (es : List (Element K V)) (hs : SortedKeys es)
    (hfull : es.length = order - 1) (key : K) (value : V) (hk : key ∉ es.map Element.key) :
    ∃ lb L m R, Node.LowerBound es key = some lb ∧
      (Node.mk order es []).InsertOrUpdate key value =
        some (.mk order L [], some ⟨m, .mk order R []⟩) ∧
      L ++ m :: R = es.take lb ++ ⟨key, value⟩ :: es.drop lb ∧
      SortedKeys (L ++ m :: R) ∧
      (L ++ m :: R).Perm (⟨key, value⟩ :: es) ∧
      (∀ x ∈ L, x.key < m.key) ∧ (∀ x ∈ R, m.key < x.key) := by
  obtain ⟨lb, hlb, hle, hup, hres⟩ :=
    InsertOrUpdate_leaf_full order (by omega) es hs hfull key value hk
  obtain ⟨L, x, R, hsp, hL⟩ :=
    list_split_at (es.take lb ++ ⟨key, value⟩ :: es.drop lb) (order / 2)
      (by rw [insertAt_length _ _ _ hle]; omega)
  have hsE : SortedKeys (L ++ x :: R) := by
    rw [← hsp, hup]
    exact hs.upsert key value
  have hs2 := List.pairwise_append.1 hsE
  refine ⟨lb, L, x, R, hlb, hres L x R hsp hL, hsp.symm, hsE, ?_, ?_, ?_⟩
  · rw [← hsp]
    have h1 : (es.take lb ++ ⟨key, value⟩ :: es.drop lb).Perm
        (⟨key, value⟩ :: (es.take lb ++ es.drop lb)) := List.perm_middle
    rw [List.take_append_drop] at h1
    exact h1
  · intro y hy
    exact hs2.2.2 y hy x (List.mem_cons_self _ _)
  · intro y hy
    exact List.rel_of_pairwise_cons hs2.2.1 hy

theorem C17_leaf_split_conserves_witness :
    3 ≤ 3 ∧ 3 % 2 = 1 ∧ SortedKeys ([⟨3, 30⟩, ⟨5, 50⟩] : List (Element Nat Nat)) ∧
      ([⟨3, 30⟩, ⟨5, 50⟩] : List (Element Nat Nat)).length = 3 - 1 ∧
      4 ∉ ([⟨3, 30⟩, ⟨5, 50⟩] : List (Element Nat Nat)).map Element.key ∧
      ∃ lb L m R, Node.LowerBound ([⟨3, 30⟩, ⟨5, 50⟩] : List (Element Nat Nat)) 4 = some lb ∧
        (Node.mk 3 [⟨3, 30⟩, ⟨5, 50⟩] [] : Node Nat Nat).InsertOrUpdate 4 40 =
          some (.mk 3 L [], some ⟨m, .mk 3 R []⟩) ∧
        L ++ m :: R = ([⟨3, 30⟩, ⟨5, 50⟩] : List (Element Nat Nat)).take lb ++
          ⟨4, 40⟩ :: ([⟨3, 30⟩, ⟨5, 50⟩] : List (Element Nat Nat)).drop lb ∧
        SortedKeys (L ++ m :: R) ∧
        (L ++ m :: R).Perm (⟨4, 40⟩ :: [⟨3, 30⟩, ⟨5, 50⟩]) ∧
        (∀ x ∈ L, x.key < m.key) ∧ (∀ x ∈ R, m.key < x.key) :=
  ⟨by decide, by decide, by simp [SortedKeys], by decide, by decide,
    C17_leaf_split_conserves 3 (by decide) (by decide) [⟨3, 30⟩, ⟨5, 50⟩]
      (by simp [SortedKeys]) (by decide) 4 40 (by decide)⟩

/-! ## Absorbing the overflow of a child -/

theorem LowerBound_le [LinearOrder K] (es : List (Element K V)) (key : K) (lb : Nat)
    (h : Node.LowerBound es key = some lb) : lb ≤ es.length := by
  obtain ⟨i, hi, -, hle⟩ := LowerBoundLoop_isSome es key (es.length + 1) 0 es.length
    (Nat.zero_le _) (le_refl _) (by omega)
  rw [Node.LowerBound, hi] at h
  cases h
  exact hle

/-- An internal node whose search misses and whose child at `lower_bound`
returns an overflow goes on with `AbsorbOverflow` on its children with that
child updated. -/
theorem InsertOrUpdate_child_overflow [LinearOrder K] (o : Nat) (es : List (Element K V))
    (cs : List (Node K V)) (key : K) (value : V) (lb : Nat) (c c1 : Node K V)
    (ov : Overflow K V) (hlb : Node.LowerBound es key = some lb)
    (hmiss : (es[lb]?).map Element.key ≠ some key) (hc : cs[lb]? = some c)
    (hrec : c.InsertOrUpdate key value = some (c1, some ov)) :
    (Node.mk o es cs).InsertOrUpdate key value =
        Node.AbsorbOverflow o es (cs.take lb ++ c1 :: cs.drop (lb + 1)) lb ov ∧
      cs = cs.take lb ++ c :: cs.drop (lb + 1) ∧ (cs.take lb).length = lb := by
  have hle := LowerBound_le es key lb hlb
  have hlc : lb < cs.length := (List.getElem?_eq_some.1 hc).1
  obtain ⟨CA, c0, CB, rfl, hCA⟩ := children_split cs lb hlc
  have hc0 : c0 = c := by
    rw [← hCA, getElem?_append_length_cons] at hc
    exact Option.some.inj hc
  subst hc0
  have htake : (CA ++ c0 :: CB).take lb = CA := by rw [← hCA, take_append_length]
  have hdrop : (CA ++ c0 :: CB).drop (lb + 1) = CB := by
    have : CA ++ c0 :: CB = (CA ++ [c0]) ++ CB := by simp
    rw [this, ← hCA]
    have hl : (CA ++ [c0]).length = CA.length + 1 := by simp
    rw [← hl, drop_append_length]
  rw [htake, hdrop]
  refine ⟨?_, rfl, hCA⟩
  have hget : lb = es.length ∨ ∃ b, es[lb]? = some b ∧ b.key ≠ key := by
    cases hg : es[lb]? with
    | none =>
      have := List.getElem?_eq_none_iff.1 hg
      exact Or.inl (by omega)
    | some b =>
      refine Or.inr ⟨b, rfl, ?_⟩
      intro hb
      apply hmiss
      rw [hg]
      simp [hb]
  have hne : (CA ++ c0 :: CB).isEmpty = false := by cases CA <;> rfl
  have hchild := InsertOrUpdateChild_eq CA c0 CB key value c1 (some ov) hrec
  rw [hCA] at hchild
  rw [InsertOrUpdate_miss o es _ key value lb hlb hget, hne]
  simp only [Bool.false_eq_true, if_false, hchild]

theorem insert_child_eq (cs : List (Node K V)) (lb : Nat) (c1 s : Node K V)
    (hlc : lb < cs.length) :
    (cs.take lb ++ c1 :: cs.drop (lb + 1)).take (lb + 1) ++
        s :: (cs.take lb ++ c1 :: cs.drop (lb + 1)).drop (lb + 1) =
      cs.take lb ++ c1 :: s :: cs.drop (lb + 1) := by
  have h1 : cs.take lb ++ c1 :: cs.drop (lb + 1) = (cs.take lb ++ [c1]) ++ cs.drop (lb + 1) := by
    simp
  have h2 : (cs.take lb ++ [c1]).length = lb + 1 := by
    rw [List.length_append, List.length_take]
    simp
    omega
  rw [h1, ← h2, take_append_length, drop_append_length]
  simp

/-- C14 (an internal node with room absorbs the overflow of its child).  For
every internal node with fewer than `order - 1` elements and one more child
than elements, if `InsertOrUpdate` on `children[position]`, with
`position = LowerBound(key)`, returns an overflow, then the node returns no
overflow, its elements are the former ones with the median of the child
inserted at `position`, its children are the former ones (the child at
`position` as updated by the call) with the new child inserted at
`position + 1`, and it still has one more child than elements. -/
theorem C14_absorb_with_room [LinearOrder K] (order : Nat) (es : List (Element K V))
    (cs : List (Node K V)) (key : K) (value : V) (lb : Nat) (c c1 : Node K V)
    (ov : Overflow K V) (hroom : es.length < order - 1) (hlen : cs.length = es.length + 1)
    (hlb : Node.LowerBound es key = some lb)
    (hmiss : (es[lb]?).map Element.key ≠ some key) (hc : cs[lb]? = some c)
    (hrec : c.InsertOrUpdate key value = some (c1, some ov)) :
    ∃ n1, (Node.mk order es cs).InsertOrUpdate key value = some (n1, none) ∧
      n1.elements = es.take lb ++ ov.new_median :: es.drop lb ∧
      n1.children = cs.take lb ++ c1 :: ov.above_median :: cs.drop (lb + 1) ∧
      n1.children.length = n1.elements.length + 1 := by
  obtain ⟨hstep, -, -⟩ := InsertOrUpdate_child_overflow order es cs key value lb c c1 ov hlb
    hmiss hc hrec
  have hle := LowerBound_le es key lb hlb
  have hlc : lb < cs.length := (List.getElem?_eq_some.1 hc).1
  have hlen1 : (cs.take lb ++ c1 :: cs.drop (lb + 1)).length = cs.length := by
    simp only [List.length_append, List.length_take, List.length_cons, List.length_drop]
    omega
  obtain ⟨m, s⟩ := ov
  rw [AbsorbOverflow_room order es _ lb m s (HasRoom_eq_true hroom) hle (by omega),
    insert_child_eq cs lb c1 s hlc] at hstep
  refine ⟨_, hstep, rfl, rfl, ?_⟩
  simp only [Node.children, Node.elements, List.length_append, List.length_take,
    List.length_cons, List.length_drop]
  omega

theorem C14_absorb_with_room_witness :
    ([⟨10, 100⟩] : List (Element Nat Nat)).length < 5 - 1 ∧
      ([.mk 5 [⟨1, 10⟩, ⟨2, 20⟩, ⟨3, 30⟩, ⟨4, 40⟩] [], .mk 5 [⟨11, 110⟩, ⟨12, 120⟩] []] :
          List (Node Nat Nat)).length =
        ([⟨10, 100⟩] : List (Element Nat Nat)).length + 1 ∧
      ∃ n1, (Node.mk 5 [⟨10, 100⟩]
          [.mk 5 [⟨1, 10⟩, ⟨2, 20⟩, ⟨3, 30⟩, ⟨4, 40⟩] [], .mk 5 [⟨11, 110⟩, ⟨12, 120⟩] []] :
            Node Nat Nat).InsertOrUpdate 5 50 = some (n1, none) ∧
        n1.elements = ([⟨10, 100⟩] : List (Element Nat Nat)).take 0 ++
          ⟨3, 30⟩ :: ([⟨10, 100⟩] : List (Element Nat Nat)).drop 0 ∧
        n1.children =
          ([.mk 5 [⟨1, 10⟩, ⟨2, 20⟩, ⟨3, 30⟩, ⟨4, 40⟩] [], .mk 5 [⟨11, 110⟩, ⟨12, 120⟩] []] :
            List (Node Nat Nat)).take 0 ++
          .mk 5 [⟨1, 10⟩, ⟨2, 20⟩] [] :: .mk 5 [⟨4, 40⟩, ⟨5, 50⟩] [] ::
            ([.mk 5 [⟨1, 10⟩, ⟨2, 20⟩, ⟨3, 30⟩, ⟨4, 40⟩] [],
              .mk 5 [⟨11, 110⟩, ⟨12, 120⟩] []] : List (Node Nat Nat)).drop (0 + 1) ∧
        n1.children.length = n1.elements.length + 1 :=
  ⟨by decide, by decide,
    C14_absorb_with_room 5 [⟨10, 100⟩]
      [.mk 5 [⟨1, 10⟩, ⟨2, 20⟩, ⟨3, 30⟩, ⟨4, 40⟩] [], .mk 5 [⟨11, 110⟩, ⟨12, 120⟩] []] 5 50 0
      (.mk 5 [⟨1, 10⟩, ⟨2, 20⟩, ⟨3, 30⟩, ⟨4, 40⟩] []) (.mk 5 [⟨1, 10⟩, ⟨2, 20⟩] [])
      ⟨⟨3, 30⟩, .mk 5 [⟨4, 40⟩, ⟨5, 50⟩] []⟩ (by decide) (by decide) (by decide) (by decide)
      (by rfl) (by rfl)⟩

/-- A full internal node whose child at `lower_bound` overflows: for every cut
of the elements with the median inserted, at `order / 2`, and of the children
with the sibling inserted, at `order / 2 + 1`, the result of the call. -/
theorem InsertOrUpdate_internal_full [LinearOrder K] (o : Nat) (ho : 1 ≤ o)
    (es : List (Element K V)) (cs : List (Node K V)) (key : K) (value : V) (lb : Nat)
    (c c1 : Node K V) (ov : Overflow K V) (hfull : es.length = o - 1)
    (hlen : cs.length = es.length + 1) (hlb : Node.LowerBound es key = some lb)
    (hmiss : (es[lb]?).map Element.key ≠ some key) (hc : cs[lb]? = some c)
    (hrec : c.InsertOrUpdate key value = some (c1, some ov)) :
    ∀ EL x ER CL CR, es.take lb ++ ov.new_median :: es.drop lb = EL ++ x :: ER →
      EL.length = o / 2 →
      cs.take lb ++ c1 :: ov.above_median :: cs.drop (lb + 1) = CL ++ CR →
      CL.length = o / 2 + 1 →
      (Node.mk o es cs).InsertOrUpdate key value =
        some (.mk o EL CL, some ⟨x, .mk o ER CR⟩) := by
  intro EL x ER CL CR hE hEL hC hCL
  obtain ⟨hstep, -, -⟩ := InsertOrUpdate_child_overflow o es cs key value lb c c1 ov hlb
    hmiss hc hrec
  have hle := LowerBound_le es key lb hlb
  have hlc : lb < cs.length := (List.getElem?_eq_some.1 hc).1
  have hlen1 : (cs.take lb ++ c1 :: cs.drop (lb + 1)).length = cs.length := by
    simp only [List.length_append, List.length_take, List.length_cons, List.length_drop]
    omega
  obtain ⟨m, s⟩ := ov
  rw [hstep]
  exact AbsorbOverflow_split o es _ lb m s EL ER x CL CR (HasRoom_eq_false ho (by omega)) hle
    (by omega) (by omega) (by omega) hEL hE hCL (by rw [insert_child_eq cs lb c1 s hlc]; exact hC)

/-- C15 (an internal split keeps elements and children in lock-step).  For
every odd order at least 3 and every full internal node (`order - 1` elements,
`order` children) whose child at `position = LowerBound(key)` returns an
overflow: the node returns an overflow; it keeps exactly `order / 2` elements
and `order / 2 + 1` children; the sibling is an internal node with exactly
`order - 1 - order / 2` elements and `order - order / 2` children, one more
than its elements; original elements, median, sibling elements are the former
elements with the median of the child inserted at `position`, and likewise the
children with the new child inserted at `position + 1`; and the in-order
sequence of original node, median, sibling is the former in-order sequence of
the node with the median and the new child of the child inserted right after
the subtree of the child that split. -/
theorem C15_internal_split_lockstep [LinearOrder K] (order : Nat) (h3 : 3 ≤ order)
    (hodd : order % 2 = 1) (es : List (Element K V)) (cs : List (Node K V)) (key : K)
    (value : V) (lb : Nat) (c c1 : Node K V) (ov : Overflow K V)
    (hfull : es.length = order - 1) (hlen : cs.length = order)
    (hlb : Node.LowerBound es key = some lb)
    (hmiss : (es[lb]?).map Element.key ≠ some key) (hc : cs[lb]? = some c)
    (hrec : c.InsertOrUpdate key value = some (c1, some ov)) :
    ∃ EL x ER CL CR, (Node.mk order es cs).InsertOrUpdate key value =
        some (.mk order EL CL, some ⟨x, .mk order ER CR⟩) ∧
      EL.length = order / 2 ∧ CL.length = order / 2 + 1 ∧
      ER.length = order - 1 - order / 2 ∧ CR.length = order - order / 2 ∧
      CR.length = ER.length + 1 ∧ (Node.mk order ER CR).IsLeafNode = false ∧
      EL ++ x :: ER = es.take lb ++ ov.new_median :: es.drop lb ∧
      CL ++ CR = cs.take lb ++ c1 :: ov.above_median :: cs.drop (lb + 1) ∧
      (Node.mk order es cs).inorder =
        Node.inorderList (cs.take lb) (es.take lb) ++
          (c.inorder ++ Node.inorderTail (es.drop lb) (cs.drop (lb + 1))) ∧
      (Node.mk order EL CL).inorder ++ x :: (Node.mk order ER CR).inorder =
        Node.inorderList (cs.take lb) (es.take lb) ++
          ((c1.inorder ++ ov.new_median :: ov.above_median.inorder) ++
            Node.inorderTail (es.drop lb) (cs.drop (lb + 1))) := by
  have hle := LowerBound_le es key lb hlb
  have hlc : lb < cs.length := (List.getElem?_eq_some.1 hc).1
  have hElen := insertAt_length lb ov.new_median es hle
  have hClen : (cs.take lb ++ c1 :: ov.above_median :: cs.drop (lb + 1)).length =
      cs.length + 1 := by
    simp only [List.length_append, List.length_take, List.length_cons, List.length_drop]
    omega
  obtain ⟨EL, x, ER, hE, hEL⟩ :=
    list_split_at (es.take lb ++ ov.new_median :: es.drop lb) (order / 2) (by omega)
  have hER : ER.length = order - 1 - order / 2 := by
    have := congrArg List.length hE
    rw [hElen, hfull] at this
    simp only [List.length_append, List.length_cons] at this
    omega
  have hC := (List.take_append_drop (order / 2 + 1)
    (cs.take lb ++ c1 :: ov.above_median :: cs.drop (lb + 1))).symm
  have hCL : ((cs.take lb ++ c1 :: ov.above_median :: cs.drop (lb + 1)).take
      (order / 2 + 1)).length = order / 2 + 1 := by
    rw [List.length_take, hClen]; omega
  have hCR : ((cs.take lb ++ c1 :: ov.above_median :: cs.drop (lb + 1)).drop
      (order / 2 + 1)).length = order - order / 2 := by
    rw [List.length_drop, hClen]; omega
  have hres := InsertOrUpdate_internal_full order (by omega) es cs key value lb c c1 ov hfull
    (by omega) hlb hmiss hc hrec EL x ER _ _ hE hEL hC hCL
  have htl : (cs.take lb).length = (es.take lb).length := by
    rw [List.length_take, List.length_take]; omega
  refine ⟨EL, x, ER, _, _, hres, hEL, hCL, hER, hCR, by omega, ?_, hE.symm, hC.symm, ?_, ?_⟩
  · have hne : (cs.take lb ++ c1 :: ov.above_median :: cs.drop (lb + 1)).drop
        (order / 2 + 1) ≠ [] := by
      intro h0
      rw [h0] at hCR
      simp at hCR
      omega
    cases hd : (cs.take lb ++ c1 :: ov.above_median :: cs.drop (lb + 1)).drop (order / 2 + 1) with
    | nil => exact absurd hd hne
    | cons a l => rfl
  · obtain ⟨-, hcs, -⟩ := InsertOrUpdate_child_overflow order es cs key value lb c c1 ov hlb
      hmiss hc hrec
    rw [inorder_mk]
    conv_lhs => rw [hcs, ← List.take_append_drop lb es]
    exact inorderList_split _ _ c _ _ htl
  · simp only [inorder_mk]
    rw [← inorderList_cut _ EL _ x ER (by omega), ← hC, ← hE]
    exact inorderList_split_insert _ _ c1 ov.above_median ov.new_median _ _ htl

theorem C15_internal_split_lockstep_witness :
    3 ≤ 3 ∧ 3 % 2 = 1 ∧ ([⟨30, 300⟩, ⟨50, 500⟩] : List (Element Nat Nat)).length = 3 - 1 ∧
      ([.mk 3 [⟨10, 100⟩, ⟨20, 200⟩] [], .mk 3 [⟨40, 400⟩] [], .mk 3 [⟨60, 600⟩] []] :
        List (Node Nat Nat)).length = 3 ∧
      ∃ EL x ER CL CR, (Node.mk 3 [⟨30, 300⟩, ⟨50, 500⟩]
          [.mk 3 [⟨10, 100⟩, ⟨20, 200⟩] [], .mk 3 [⟨40, 400⟩] [], .mk 3 [⟨60, 600⟩] []] :
            Node Nat Nat).InsertOrUpdate 5 50 =
          some (.mk 3 EL CL, some ⟨x, .mk 3 ER CR⟩) ∧
        EL.length = 3 / 2 ∧ CL.length = 3 / 2 + 1 ∧
        ER.length = 3 - 1 - 3 / 2 ∧ CR.length = 3 - 3 / 2 ∧
        CR.length = ER.length + 1 ∧ (Node.mk 3 ER CR).IsLeafNode = false ∧
        EL ++ x :: ER = ([⟨30, 300⟩, ⟨50, 500⟩] : List (Element Nat Nat)).take 0 ++
          ⟨10, 100⟩ :: ([⟨30, 300⟩, ⟨50, 500⟩] : List (Element Nat Nat)).drop 0 ∧
        CL ++ CR =
          ([.mk 3 [⟨10, 100⟩, ⟨20, 200⟩] [], .mk 3 [⟨40, 400⟩] [], .mk 3 [⟨60, 600⟩] []] :
            List (Node Nat Nat)).take 0 ++
          .mk 3 [⟨5, 50⟩] [] :: .mk 3 [⟨20, 200⟩] [] ::
            ([.mk 3 [⟨10, 100⟩, ⟨20, 200⟩] [], .mk 3 [⟨40, 400⟩] [], .mk 3 [⟨60, 600⟩] []] :
              List (Node Nat Nat)).drop (0 + 1) ∧
        (Node.mk 3 [⟨30, 300⟩, ⟨50, 500⟩]
          [.mk 3 [⟨10, 100⟩, ⟨20, 200⟩] [], .mk 3 [⟨40, 400⟩] [], .mk 3 [⟨60, 600⟩] []] :
            Node Nat Nat).inorder =
          Node.inorderList
              (([.mk 3 [⟨10, 100⟩, ⟨20, 200⟩] [], .mk 3 [⟨40, 400⟩] [],
                .mk 3 [⟨60, 600⟩] []] : List (Node Nat Nat)).take 0)
              (([⟨30, 300⟩, ⟨50, 500⟩] : List (Element Nat Nat)).take 0) ++
            ((Node.mk 3 [⟨10, 100⟩, ⟨20, 200⟩] [] : Node Nat Nat).inorder ++
              Node.inorderTail (([⟨30, 300⟩, ⟨50, 500⟩] : List (Element Nat Nat)).drop 0)
                (([.mk 3 [⟨10, 100⟩, ⟨20, 200⟩] [], .mk 3 [⟨40, 400⟩] [],
                  .mk 3 [⟨60, 600⟩] []] : List (Node Nat Nat)).drop (0 + 1))) ∧
        (Node.mk 3 EL CL).inorder ++ x :: (Node.mk 3 ER CR).inorder =
          Node.inorderList
              (([.mk 3 [⟨10, 100⟩, ⟨20, 200⟩] [], .mk 3 [⟨40, 400⟩] [],
                .mk 3 [⟨60, 600⟩] []] : List (Node Nat Nat)).take 0)
              (([⟨30, 300⟩, ⟨50, 500⟩] : List (Element Nat Nat)).take 0) ++
            (((Node.mk 3 [⟨5, 50⟩] [] : Node Nat Nat).inorder ++
                ⟨10, 100⟩ :: (Node.mk 3 [⟨20, 200⟩] [] : Node Nat Nat).inorder) ++
              Node.inorderTail (([⟨30, 300⟩, ⟨50, 500⟩] : List (Element Nat Nat)).drop 0)
                (([.mk 3 [⟨10, 100⟩, ⟨20, 200⟩] [], .mk 3 [⟨40, 400⟩] [],
                  .mk 3 [⟨60, 600⟩] []] : List (Node Nat Nat)).drop (0 + 1))) :=
  ⟨by decide, by decide, by decide, by decide,
    C15_internal_split_lockstep 3 (by decide) (by decide) [⟨30, 300⟩, ⟨50, 500⟩]
      [.mk 3 [⟨10, 100⟩, ⟨20, 200⟩] [], .mk 3 [⟨40, 400⟩] [], .mk 3 [⟨60, 600⟩] []] 5 50 0
      (.mk 3 [⟨10, 100⟩, ⟨20, 200⟩] []) (.mk 3 [⟨5, 50⟩] [])
      ⟨⟨10, 100⟩, .mk 3 [⟨20, 200⟩] []⟩ (by decide) (by decide) (by decide) (by decide)
      (by rfl) (by rfl)⟩

/-- C16, the claim as stated fails: the full internal node of order 3 with
elements 30, 50 over the leaves `[10, 20]`, `[40]`, `[60]` (the tree reached by
inserting 60, 50, 40, 30, 20, 10) receives key 5 at position `0 <= middle = 1`;
its first child overflows with median 10, and the node promotes its old element
of key 30, not that median. -/
theorem C16_counterexample :
    3 ≤ 3 ∧ 3 % 2 = 1 ∧
      ((BTree.new 3 : BTree Nat Nat).InsertAll
          [(60, 600), (50, 500), (40, 400), (30, 300), (20, 200), (10, 100)]).map
          (fun t => t.root_) =
        some (.mk 3 [⟨30, 300⟩, ⟨50, 500⟩]
          [.mk 3 [⟨10, 100⟩, ⟨20, 200⟩] [], .mk 3 [⟨40, 400⟩] [], .mk 3 [⟨60, 600⟩] []]) ∧
      ([⟨30, 300⟩, ⟨50, 500⟩] : List (Element Nat Nat)).length = 3 - 1 ∧
      Node.LowerBound ([⟨30, 300⟩, ⟨50, 500⟩] : List (Element Nat Nat)) 5 = some 0 ∧
      0 ≤ 3 / 2 ∧
      (Node.mk 3 [⟨10, 100⟩, ⟨20, 200⟩] [] : Node Nat Nat).InsertOrUpdate 5 50 =
        some (.mk 3 [⟨5, 50⟩] [], some ⟨⟨10, 100⟩, .mk 3 [⟨20, 200⟩] []⟩) ∧
      (Node.mk 3 [⟨30, 300⟩, ⟨50, 500⟩]
          [.mk 3 [⟨10, 100⟩, ⟨20, 200⟩] [], .mk 3 [⟨40, 400⟩] [], .mk 3 [⟨60, 600⟩] []] :
            Node Nat Nat).InsertOrUpdate 5 50 =
        some (.mk 3 [⟨10, 100⟩] [.mk 3 [⟨5, 50⟩] [], .mk 3 [⟨20, 200⟩] []],
          some ⟨⟨30, 300⟩, .mk 3 [⟨50, 500⟩] [.mk 3 [⟨40, 400⟩] [], .mk 3 [⟨60, 600⟩] []]⟩) ∧
      (⟨30, 300⟩ : Element Nat Nat) ≠ ⟨10, 100⟩ :=
  ⟨by decide, by decide, by rfl, by decide, by decide, by decide, by rfl, by rfl, by decide⟩

/-- C16 as amended (internal split, position at most middle).  For every odd
order at least 3 and every full internal node whose child at
`position = LowerBound(key) <= middle = order / 2` returns an overflow, the
median the node promotes is the median of the child if `position = middle` and
the former `elements[middle - 1]` if `position < middle`. -/
theorem C16_internal_split_low [LinearOrder K] (order : Nat) (h3 : 3 ≤ order)
    (hodd : order % 2 = 1) (es : List (Element K V)) (cs : List (Node K V)) (key : K)
    (value : V) (lb : Nat) (c c1 : Node K V) (ov : Overflow K V)
    (hfull : es.length = order - 1) (hlen : cs.length = order)
    (hlb : Node.LowerBound es key = some lb)
    (hmiss : (es[lb]?).map Element.key ≠ some key) (hc : cs[lb]? = some c)
    (hrec : c.InsertOrUpdate key value = some (c1, some ov)) (_hpos : lb ≤ order / 2) :
    ∃ n1 m s, (Node.mk order es cs).InsertOrUpdate key value = some (n1, some ⟨m, s⟩) ∧
      (lb = order / 2 → m = ov.new_median) ∧
      (lb < order / 2 → es[order / 2 - 1]? = some m) := by
  have hle := LowerBound_le es key lb hlb
  have hlc : lb < cs.length := (List.getElem?_eq_some.1 hc).1
  have hElen := insertAt_length lb ov.new_median es hle
  have hClen : (cs.take lb ++ c1 :: ov.above_median :: cs.drop (lb + 1)).length =
      cs.length + 1 := by
    simp only [List.length_append, List.length_take, List.length_cons, List.length_drop]
    omega
  obtain ⟨EL, x, ER, hE, hEL⟩ :=
    list_split_at (es.take lb ++ ov.new_median :: es.drop lb) (order / 2) (by omega)
  have hC := (List.take_append_drop (order / 2 + 1)
    (cs.take lb ++ c1 :: ov.above_median :: cs.drop (lb + 1))).symm
  have hCL : ((cs.take lb ++ c1 :: ov.above_median :: cs.drop (lb + 1)).take
      (order / 2 + 1)).length = order / 2 + 1 := by
    rw [List.length_take, hClen]; omega
  have hres := InsertOrUpdate_internal_full order (by omega) es cs key value lb c c1 ov hfull
    (by omega) hlb hmiss hc hrec EL x ER _ _ hE hEL hC hCL
  have hx := (list_split_unique hE).2.1
  rw [hEL, getElem?_insertAt lb (order / 2) _ es hle] at hx
  refine ⟨_, x, _, hres, ?_, ?_⟩
  · intro heq
    rw [if_neg (by omega), if_pos heq.symm] at hx
    exact (Option.some.inj hx).symm
  · intro hlt
    rw [if_neg (by omega), if_neg (by omega)] at hx
    exact hx

theorem C16_internal_split_low_witness :
    3 ≤ 3 ∧ 3 % 2 = 1 ∧ ([⟨30, 300⟩, ⟨50, 500⟩] : List (Element Nat Nat)).length = 3 - 1 ∧
      ([.mk 3 [⟨10, 100⟩, ⟨20, 200⟩] [], .mk 3 [⟨40, 400⟩] [], .mk 3 [⟨60, 600⟩] []] :
        List (Node Nat Nat)).length = 3 ∧
      0 ≤ 3 / 2 ∧
      ∃ n1 m s, (Node.mk 3 [⟨30, 300⟩, ⟨50, 500⟩]
          [.mk 3 [⟨10, 100⟩, ⟨20, 200⟩] [], .mk 3 [⟨40, 400⟩] [], .mk 3 [⟨60, 600⟩] []] :
            Node Nat Nat).InsertOrUpdate 5 50 = some (n1, some ⟨m, s⟩) ∧
        (0 = 3 / 2 → m = ⟨10, 100⟩) ∧
        (0 < 3 / 2 → ([⟨30, 300⟩, ⟨50, 500⟩] : List (Element Nat Nat))[3 / 2 - 1]? = some m) :=
  ⟨by decide, by decide, by decide, by decide, by decide,
    C16_internal_split_low 3 (by decide) (by decide) [⟨30, 300⟩, ⟨50, 500⟩]
      [.mk 3 [⟨10, 100⟩, ⟨20, 200⟩] [], .mk 3 [⟨40, 400⟩] [], .mk 3 [⟨60, 600⟩] []] 5 50 0
      (.mk 3 [⟨10, 100⟩, ⟨20, 200⟩] []) (.mk 3 [⟨5, 50⟩] [])
      ⟨⟨10, 100⟩, .mk 3 [⟨20, 200⟩] []⟩ (by decide) (by decide) (by decide) (by decide)
      (by rfl) (by rfl) (by decide)⟩

/-! ## Minimum occupancy -/

/-- An internal node whose search misses and whose child at `lower_bound`
returns no overflow only has that child updated. -/
theorem InsertOrUpdate_child_none [LinearOrder K] (o : Nat) (es : List (Element K V))
    (cs : List (Node K V)) (key : K) (value : V) (lb : Nat) (c c1 : Node K V)
    (hlb : Node.LowerBound es key = some lb)
    (hmiss : (es[lb]?).map Element.key ≠ some key) (hc : cs[lb]? = some c)
    (hrec : c.InsertOrUpdate key value = some (c1, none)) :
    (Node.mk o es cs).InsertOrUpdate key value =
      some (.mk o es (cs.take lb ++ c1 :: cs.drop (lb + 1)), none) := by
  have hle := LowerBound_le es key lb hlb
  have hlc : lb < cs.length := (List.getElem?_eq_some.1 hc).1
  obtain ⟨CA, c0, CB, rfl, hCA⟩ := children_split cs lb hlc
  have hc0 : c0 = c := by
    rw [← hCA, getElem?_append_length_cons] at hc
    exact Option.some.inj hc
  subst hc0
  have htake : (CA ++ c0 :: CB).take lb = CA := by rw [← hCA, take_append_length]
  have hdrop : (CA ++ c0 :: CB).drop (lb + 1) = CB := by
    have : CA ++ c0 :: CB = (CA ++ [c0]) ++ CB := by simp
    rw [this, ← hCA]
    have hl : (CA ++ [c0]).length = CA.length + 1 := by simp
    rw [← hl, drop_append_length]
  rw [htake, hdrop]
  have hget : lb = es.length ∨ ∃ b, es[lb]? = some b ∧ b.key ≠ key := by
    cases hg : es[lb]? with
    | none =>
      have := List.getElem?_eq_none_iff.1 hg
      exact Or.inl (by omega)
    | some b =>
      refine Or.inr ⟨b, rfl, ?_⟩
      intro hb
      apply hmiss
      rw [hg]
      simp [hb]
  have hne : (CA ++ c0 :: CB).isEmpty = false := by cases CA <;> rfl
  have hchild := InsertOrUpdateChild_eq CA c0 CB key value c1 none hrec
  rw [hCA] at hchild
  rw [InsertOrUpdate_miss o es _ key value lb hlb hget, hne]
  simp only [Bool.false_eq_true, if_false, hchild]

/-- The search either hits the key at the returned index or misses. -/
theorem LowerBound_hit_or_miss [LinearOrder K] (es : List (Element K V)) (key : K) :
    ∃ lb, Node.LowerBound es key = some lb ∧ lb ≤ es.length ∧
      ((∃ b, es[lb]? = some b ∧ b.key = key) ∨ (es[lb]?).map Element.key ≠ some key) := by
  obtain ⟨i, hi, -, hle⟩ := LowerBoundLoop_isSome es key (es.length + 1) 0 es.length
    (Nat.zero_le _) (le_refl _) (by omega)
  refine ⟨i, hi, hle, ?_⟩
  cases hg : es[i]? with
  | none => exact Or.inr (by simp)
  | some b =>
    by_cases hb : b.key = key
    · exact Or.inl ⟨b, rfl, hb⟩
    · exact Or.inr (by simpa using hb)

theorem InsertOrUpdate_leaf_miss [LinearOrder K] (o : Nat) (es : List (Element K V)) (key : K)
    (value : V) (lb : Nat) (hlb : Node.LowerBound es key = some lb)
    (hmiss : (es[lb]?).map Element.key ≠ some key) :
    (Node.mk o es []).InsertOrUpdate key value = Node.InsertLeaf o es lb key value := by
  have hle := LowerBound_le es key lb hlb
  have hget : lb = es.length ∨ ∃ b, es[lb]? = some b ∧ b.key ≠ key := by
    cases hg : es[lb]? with
    | none =>
      have := List.getElem?_eq_none_iff.1 hg
      exact Or.inl (by omega)
    | some b =>
      refine Or.inr ⟨b, rfl, ?_⟩
      intro hb
      apply hmiss
      rw [hg]
      simp [hb]
  rw [InsertOrUpdate_miss o es [] key value lb hlb hget]
  simp

theorem mem_replace_child {P : Node K V → Prop} (cs : List (Node K V)) (lb : Nat)
    (l : List (Node K V)) (hcs : ∀ c ∈ cs, P c) (hl : ∀ c ∈ l, P c) :
    ∀ x ∈ cs.take lb ++ (l ++ cs.drop (lb + 1)), P x := by
  intro x hx
  rcases List.mem_append.1 hx with hx | hx
  · exact hcs x (List.mem_of_mem_take hx)
  · rcases List.mem_append.1 hx with hx | hx
    · exact hl x hx
    · exact hcs x (List.mem_of_mem_drop hx)

/-- Minimum occupancy is kept by `Node::InsertOrUpdate` on a well-formed
subtree of odd order: without overflow the node does not lose elements, and a
split leaves `o / 2` elements in the node and `o - 1 - o / 2` in the sibling. -/
theorem InsertOrUpdate_minOcc [LinearOrder K] (o h : Nat) (ho : 1 ≤ o) (n : Node K V)
    (key : K) (value : V) (hwf : Node.WF o h n) :
    Node.MinOcc o n → o / 2 ≤ o - 1 - o / 2 →
      ∃ n1 ov, n.InsertOrUpdate key value = some (n1, ov) ∧ Node.MinOcc o n1 ∧
        (ov = none → n.elements.length ≤ n1.elements.length) ∧
        (∀ x, ov = some x → n1.elements.length = o / 2 ∧
          x.above_median.elements.length = o - 1 - o / 2 ∧
          Node.MinOcc o x.above_median) := by
  induction hwf with
  | leaf es hsz =>
    intro _ _
    have hleaf : ∀ l : List (Element K V), Node.MinOcc o (Node.mk o l []) :=
      fun l => Node.MinOcc.mk o l [] (by simp) (by simp)
    obtain ⟨lb, hlb, hle, hhit | hmiss⟩ := LowerBound_hit_or_miss es key
    · obtain ⟨b, hb, hbk⟩ := hhit
      refine ⟨_, none, InsertOrUpdate_hit o es [] key value lb b hlb hb hbk, hleaf _, ?_, ?_⟩
      · intro _; simp [Node.elements]
      · intro x hx; cases hx
    · rw [InsertOrUpdate_leaf_miss o es key value lb hlb hmiss]
      by_cases hroom : es.length < o - 1
      · refine ⟨_, none, InsertLeaf_room o es lb key value (HasRoom_eq_true hroom) hle,
          hleaf _, ?_, ?_⟩
        · intro _
          simp only [Node.elements]
          rw [insertAt_length _ _ _ hle]
          omega
        · intro x hx; cases hx
      · have hfull : es.length = o - 1 := by omega
        obtain ⟨L, x, R, hsp, hL⟩ :=
          list_split_at (es.take lb ++ ⟨key, value⟩ :: es.drop lb) (o / 2)
            (by rw [insertAt_length _ _ _ hle]; omega)
        have hR : R.length = o - 1 - o / 2 := by
          have := congrArg List.length hsp
          rw [insertAt_length _ _ _ hle, hfull] at this
          simp only [List.length_append, List.length_cons] at this
          omega
        refine ⟨_, some ⟨x, .mk o R []⟩, InsertLeaf_split o es lb key value L R x
          (HasRoom_eq_false ho (by omega)) hle (by omega) hL hsp, hleaf _, ?_, ?_⟩
        · intro hn; cases hn
        · intro y hy
          cases hy
          exact ⟨hL, hR, hleaf _⟩
  | node h es cs hsz hlen hch ih =>
    intro hmin hodd
    cases hmin with
    | mk _ _ _ hocc hmc =>
    obtain ⟨lb, hlb, hle, hhit | hmiss⟩ := LowerBound_hit_or_miss es key
    · obtain ⟨b, hb, hbk⟩ := hhit
      refine ⟨_, none, InsertOrUpdate_hit o es cs key value lb b hlb hb hbk,
        Node.MinOcc.mk o _ cs hocc hmc, ?_, ?_⟩
      · intro _; simp [Node.elements]
      · intro x hx; cases hx
    · have hlc : lb < cs.length := by omega
      have hc : cs[lb]? = some cs[lb] := List.getElem?_eq_getElem hlc
      have hcm : cs[lb] ∈ cs := List.getElem_mem hlc
      obtain ⟨c1, ovc, hrec, hm1, hnone, hsome⟩ := ih cs[lb] hcm (hmc _ hcm) hodd
      cases ovc with
      | none =>
        refine ⟨_, none, InsertOrUpdate_child_none o es cs key value lb cs[lb] c1 hlb hmiss hc
          hrec, ?_, ?_, ?_⟩
        · apply Node.MinOcc.mk
          · have := mem_replace_child cs lb [c1] hocc (by
              intro x hx
              rw [List.mem_singleton] at hx
              subst hx
              exact le_trans (hocc _ hcm) (hnone rfl))
            simpa using this
          · have := mem_replace_child cs lb [c1] hmc (by
              intro x hx
              rw [List.mem_singleton] at hx
              subst hx
              exact hm1)
            simpa using this
        · intro _; simp [Node.elements]
        · intro x hx; cases hx
      | some ov =>
        obtain ⟨m, s⟩ := ov
        obtain ⟨hc1, hs1, hms⟩ := hsome ⟨m, s⟩ rfl
        simp only at hs1 hms
        obtain ⟨hstep, -, -⟩ := InsertOrUpdate_child_overflow o es cs key value lb cs[lb] c1
          ⟨m, s⟩ hlb hmiss hc hrec
        have hoccC : ∀ x ∈ cs.take lb ++ c1 :: s :: cs.drop (lb + 1),
            o / 2 ≤ x.elements.length := by
          have := mem_replace_child cs lb [c1, s] hocc (by
            intro x hx
            simp only [List.mem_cons, List.mem_singleton, List.not_mem_nil, or_false] at hx
            rcases hx with rfl | rfl
            · omega
            · omega)
          simpa using this
        have hmcC : ∀ x ∈ cs.take lb ++ c1 :: s :: cs.drop (lb + 1), Node.MinOcc o x := by
          have := mem_replace_child cs lb [c1, s] hmc (by
            intro x hx
            simp only [List.mem_cons, List.mem_singleton, List.not_mem_nil, or_false] at hx
            rcases hx with rfl | rfl
            · exact hm1
            · exact hms)
          simpa using this
        have hlen1 : (cs.take lb ++ c1 :: cs.drop (lb + 1)).length = cs.length := by
          simp only [List.length_append, List.length_take, List.length_cons, List.length_drop]
          omega
        rw [hstep]
        by_cases hroom : es.length < o - 1
        · rw [AbsorbOverflow_room o es _ lb m s (HasRoom_eq_true hroom) hle (by omega),
            insert_child_eq cs lb c1 s hlc]
          refine ⟨_, none, rfl, Node.MinOcc.mk o _ _ hoccC hmcC, ?_, ?_⟩
          · intro _
            simp only [Node.elements]
            rw [insertAt_length _ _ _ hle]
            omega
          · intro x hx; cases hx
        · have hfull : es.length = o - 1 := by omega
          have hElen := insertAt_length lb m es hle
          have hClen : (cs.take lb ++ c1 :: s :: cs.drop (lb + 1)).length = cs.length + 1 := by
            simp only [List.length_append, List.length_take, List.length_cons,
              List.length_drop]
            omega
          obtain ⟨EL, x, ER, hE, hEL⟩ :=
            list_split_at (es.take lb ++ m :: es.drop lb) (o / 2) (by omega)
          have hER : ER.length = o - 1 - o / 2 := by
            have := congrArg List.length hE
            rw [hElen, hfull] at this
            simp only [List.length_append, List.length_cons] at this
            omega
          have hC := (List.take_append_drop (o / 2 + 1)
            (cs.take lb ++ c1 :: s :: cs.drop (lb + 1))).symm
          have hCL : ((cs.take lb ++ c1 :: s :: cs.drop (lb + 1)).take (o / 2 + 1)).length =
              o / 2 + 1 := by
            rw [List.length_take, hClen]; omega
          rw [AbsorbOverflow_split o es _ lb m s EL ER x _ _ (HasRoom_eq_false ho (by omega))
            hle (by omega) (by omega) (by omega) hEL hE hCL
            (by rw [insert_child_eq cs lb c1 s hlc]; exact hC)]
          refine ⟨_, _, rfl, Node.MinOcc.mk o _ _
            (fun y hy => hoccC y (List.mem_of_mem_take hy))
            (fun y hy => hmcC y (List.mem_of_mem_take hy)), ?_, ?_⟩
          · intro hn; cases hn
          · intro y hy
            cases hy
            exact ⟨hEL, hER, Node.MinOcc.mk o _ _
              (fun y hy => hoccC y (List.mem_of_mem_drop hy))
              (fun y hy => hmcC y (List.mem_of_mem_drop hy))⟩

theorem nodes_eq (n : Node K V) : n.nodes = n :: Node.nodesList n.children := by
  cases n
  rfl

theorem MinOcc_nodes (o : Nat) (n : Node K V) (hmin : Node.MinOcc o n) :
    ∀ m ∈ Node.nodesList n.children, o / 2 ≤ m.elements.length := by
  induction hmin with
  | mk order_ es cs hocc _ ih =>
    intro m hm
    simp only [Node.children] at hm
    obtain ⟨c, hc, hmc⟩ := mem_nodesList cs m hm
    rw [nodes_eq] at hmc
    rcases List.mem_cons.1 hmc with rfl | hmc
    · exact hocc _ hc
    · exact ih c hc m hmc

theorem WF_isLeaf (o h : Nat) (n : Node K V) (hwf : Node.WF o h n) :
    n.IsLeafNode = true ↔ h = 0 := by
  cases hwf with
  | leaf es hsz => simp [Node.IsLeafNode, Node.children]
  | node h1 es cs hsz hlen hch =>
    cases cs with
    | nil => simp at hlen
    | cons c cs => simp [Node.IsLeafNode, Node.children]

/-- The root keeps minimum occupancy below it, and at least one element if it
is internal, across `BTree::InsertOrUpdate`. -/
theorem BTree_InsertOrUpdate_minOcc [LinearOrder K] (t : BTree K V) (key : K) (value : V)
    (ho : 3 ≤ t.order_) (hodd : t.order_ % 2 = 1) (hinv : t.Inv)
    (hmin : Node.MinOcc t.order_ t.root_)
    (hroot : t.root_.IsLeafNode = false → 1 ≤ t.root_.elements.length) :
    ∃ t1, t.InsertOrUpdate key value = some t1 ∧ t1.Inv ∧ t1.order_ = t.order_ ∧
      Node.MinOcc t1.order_ t1.root_ ∧
      (t1.root_.IsLeafNode = false → 1 ≤ t1.root_.elements.length) := by
  obtain ⟨t1, ht1, hinv1, ho1, -⟩ := BTree_InsertOrUpdate_post t key value (by omega) hinv
  obtain ⟨⟨h, hwf⟩, hs⟩ := hinv
  obtain ⟨r, hr, hwf1, -⟩ := InsertOrUpdate_post t.order_ h (by omega) t.root_ key value hwf hs
  obtain ⟨n1, ov, hn1, hm1, hnone, hsome⟩ :=
    InsertOrUpdate_minOcc t.order_ h (by omega) t.root_ key value hwf hmin (by omega)
  rw [hn1] at hr
  cases hr
  simp only at hwf1
  refine ⟨t1, ht1, hinv1, ho1, ?_⟩
  cases ov with
  | none =>
    have : t1 = ⟨t.order_, n1⟩ := by
      simp [BTree.InsertOrUpdate, hn1] at ht1
      exact ht1.symm
    subst this
    refine ⟨hm1, ?_⟩
    intro hleaf
    have h0 : h ≠ 0 := by
      intro h0
      have := (WF_isLeaf _ _ _ hwf1).2 h0
      simp only at hleaf
      rw [this] at hleaf
      cases hleaf
    have hl : t.root_.IsLeafNode = false := by
      cases hb : t.root_.IsLeafNode with
      | false => rfl
      | true => exact absurd ((WF_isLeaf _ _ _ hwf).1 hb) h0
    exact le_trans (hroot hl) (hnone rfl)
  | some ov =>
    obtain ⟨m, s⟩ := ov
    have : t1 = ⟨t.order_, .mk t.order_ [m] [n1, s]⟩ := by
      simp [BTree.InsertOrUpdate, hn1] at ht1
      exact ht1.symm
    subst this
    obtain ⟨h1, h2, h3⟩ := hsome ⟨m, s⟩ rfl
    simp only at h2 h3
    refine ⟨Node.MinOcc.mk _ _ _ ?_ ?_, ?_⟩
    · intro c hc
      simp only [List.mem_cons, List.mem_singleton, List.not_mem_nil, or_false] at hc
      rcases hc with rfl | rfl
      · omega
      · omega
    · intro c hc
      simp only [List.mem_cons, List.mem_singleton, List.not_mem_nil, or_false] at hc
      rcases hc with rfl | rfl
      · exact hm1
      · exact h3
    · intro _
      simp [Node.elements]

theorem InsertAll_minOcc [LinearOrder K] (calls : List (K × V)) :
    ∀ t : BTree K V, 3 ≤ t.order_ → t.order_ % 2 = 1 → t.Inv →
      Node.MinOcc t.order_ t.root_ →
      (t.root_.IsLeafNode = false → 1 ≤ t.root_.elements.length) →
      ∃ t1, t.InsertAll calls = some t1 ∧ t1.order_ = t.order_ ∧
        Node.MinOcc t1.order_ t1.root_ ∧
        (t1.root_.IsLeafNode = false → 1 ≤ t1.root_.elements.length) := by
  induction calls with
  | nil => intro t _ _ _ hmin hroot; exact ⟨t, rfl, rfl, hmin, hroot⟩
  | cons kv calls ih =>
    intro t ho hodd hinv hmin hroot
    obtain ⟨key, value⟩ := kv
    obtain ⟨t1, h1, hinv1, ho1, hmin1, hroot1⟩ :=
      BTree_InsertOrUpdate_minOcc t key value ho hodd hinv hmin hroot
    obtain ⟨t2, h2, ho2, hmin2, hroot2⟩ :=
      ih t1 (by omega) (by rw [ho1]; exact hodd) hinv1 hmin1 hroot1
    exact ⟨t2, by simp [BTree.InsertAll, h1, h2], by omega, hmin2, hroot2⟩

/-- C18 (minimum occupancy).  For every odd order at least 3 and every
sequence of calls on the empty tree, every node other than the root (the nodes
of the subtrees of the root) holds at least `order / 2 = (order - 1) / 2`
elements, so none of them is empty, and a root that is not a leaf holds at
least one element. -/
theorem C18_minimum_occupancy [LinearOrder K] (order : Nat) (h3 : 3 ≤ order)
    (hodd : order % 2 = 1) (calls : List (K × V)) :
    ∃ t, (BTree.new order : BTree K V).InsertAll calls = some t ∧
      (∀ n ∈ Node.nodesList t.root_.children, order / 2 ≤ n.elements.length) ∧
      order / 2 = (order - 1) / 2 ∧
      (∀ n ∈ Node.nodesList t.root_.children, n.elements ≠ []) ∧
      (t.root_.IsLeafNode = false → 1 ≤ t.root_.elements.length) := by
  obtain ⟨t, h1, ho, hmin, hroot⟩ := InsertAll_minOcc calls (BTree.new order : BTree K V) h3
    hodd (Inv_new order) (Node.MinOcc.mk _ _ _ (by simp) (by simp))
    (by intro h; simp [BTree.new, Node.IsLeafNode, Node.children] at h)
  have ho1 : t.order_ = order := ho
  rw [ho1] at hmin
  have hall := MinOcc_nodes order t.root_ hmin
  refine ⟨t, h1, hall, by omega, ?_, hroot⟩
  intro n hn h0
  have := hall n hn
  rw [h0] at this
  simp at this
  omega

theorem C18_minimum_occupancy_witness :
    3 ≤ 3 ∧ 3 % 2 = 1 ∧
      ∃ t, (BTree.new 3 : BTree Nat Nat).InsertAll
          [(60, 600), (50, 500), (40, 400), (30, 300), (20, 200), (10, 100), (5, 50)] =
          some t ∧
        (∀ n ∈ Node.nodesList t.root_.children, 3 / 2 ≤ n.elements.length) ∧
        3 / 2 = (3 - 1) / 2 ∧
        (∀ n ∈ Node.nodesList t.root_.children, n.elements ≠ []) ∧
        (t.root_.IsLeafNode = false → 1 ≤ t.root_.elements.length) :=
  ⟨by decide, by decide,
    C18_minimum_occupancy 3 (by decide) (by decide)
      [(60, 600), (50, 500), (40, 400), (30, 300), (20, 200), (10, 100), (5, 50)]⟩

/-! ## Independence of the values -/

/-- Induction over a tree: a property of a node follows from the property of
its children. -/
theorem Node.induction {P : Node K V → Prop}
    (h : ∀ o es cs, (∀ c ∈ cs, P c) → P (.mk o es cs)) : ∀ n, P n := by
  intro n
  exact @Node.rec K V P (fun cs => ∀ c ∈ cs, P c) (fun o es cs ih => h o es cs ih)
    (fun c hc => absurd hc (List.not_mem_nil c))
    (fun c cs hc hcs x hx => by
      rcases List.mem_cons.1 hx with rfl | hx
      · exact hc
      · exact hcs x hx) n

theorem mapElementsList_eq_map (f : Element K V → Element K W) (cs : List (Node K V)) :
    Node.mapElementsList f cs = cs.map (Node.mapElements f) := by
  induction cs with
  | nil => rfl
  | cons c cs ih => simp [Node.mapElementsList, ih]

theorem mapElements_mk (f : Element K V → Element K W) (o : Nat) (es : List (Element K V))
    (cs : List (Node K V)) :
    (Node.mk o es cs).mapElements f = .mk o (es.map f) (cs.map (Node.mapElements f)) := by
  rw [Node.mapElements, mapElementsList_eq_map]

theorem InsertAndShiftLoop_map {T U : Type} (f : T → U) (n : Nat) :
    ∀ (i : Nat) (v : T) (vec : List T),
      InsertAndShiftLoop n i (f v) (vec.map f) =
        (InsertAndShiftLoop n i v vec).map (Prod.map f (List.map f)) := by
  induction n with
  | zero => intro i v vec; simp [InsertAndShiftLoop]
  | succ n ih =>
    intro i v vec
    simp only [InsertAndShiftLoop, List.getElem?_map]
    cases hg : vec[i]? with
    | none => simp
    | some x =>
      simp only [Option.map_some']
      rw [← ih (i + 1) x (vec.set i v), List.map_set]

theorem InsertAndShift_map {T U : Type} (f : T → U) (a m : Nat) (v : T) (vec : List T) :
    InsertAndShift a m (f v) (vec.map f) =
      (InsertAndShift a m v vec).map (Prod.map f (List.map f)) := by
  simp only [InsertAndShift]
  exact InsertAndShiftLoop_map f _ _ _ _

theorem TransferLoop_map {T U : Type} (f : T → U) (n : Nat) :
    ∀ (i : Nat) (vfrom vto : List T),
      TransferLoop n i (vfrom.map f) (vto.map f) =
        (TransferLoop n i vfrom vto).map (List.map f) := by
  induction n with
  | zero => intro i vfrom vto; simp [TransferLoop]
  | succ n ih =>
    intro i vfrom vto
    simp only [TransferLoop, List.getElem?_map]
    cases hg : vfrom[i]? with
    | none => simp
    | some x =>
      simp only [Option.map_some']
      rw [← ih (i + 1) vfrom (vto ++ [x])]
      simp

theorem Transfer_map {T U : Type} (f : T → U) (a m : Nat) (vfrom vto : List T) :
    Transfer a m (vfrom.map f) (vto.map f) = (Transfer a m vfrom vto).map (List.map f) := by
  simp only [Transfer]
  exact TransferLoop_map f _ _ _ _

theorem resize_map {T U : Type} (f : T → U) (vec : List T) (n : Nat) :
    resize (vec.map f) n = (resize vec n).map (List.map f) := by
  simp only [resize, List.length_map]
  split_ifs <;> simp [List.map_take]

theorem Transfer_map_nil {T U : Type} (f : T → U) (a m : Nat) (vfrom : List T) :
    Transfer a m (vfrom.map f) [] = (Transfer a m vfrom []).map (List.map f) :=
  Transfer_map f a m vfrom []

theorem Transfer_map_snoc {T U : Type} (f : T → U) (a m : Nat) (vfrom vto : List T) (x : T) :
    Transfer a m (vfrom.map f) (vto.map f ++ [f x]) =
      (Transfer a m vfrom (vto ++ [x])).map (List.map f) := by
  rw [← Transfer_map]
  simp

theorem Transfer_map_singleton {T U : Type} (f : T → U) (a m : Nat) (vfrom : List T) (x : T) :
    Transfer a m (vfrom.map f) [f x] = (Transfer a m vfrom [x]).map (List.map f) :=
  Transfer_map f a m vfrom [x]

/-- The leaf case commutes with a map of the elements that sends the new
element to the new element. -/
theorem InsertLeaf_map (f : Element K V → Element K W) (o : Nat) (es : List (Element K V))
    (lb : Nat) (key : K) (v : V) (w : W) (hf : f ⟨key, v⟩ = ⟨key, w⟩) :
    Node.InsertLeaf o (es.map f) lb key w =
      (Node.InsertLeaf o es lb key v).map (Node.mapResult f) := by
  simp only [Node.InsertLeaf, List.length_map, ← hf]
  split_ifs with h1 h2
  · rw [InsertAndShift_map]
    cases InsertAndShift lb es.length ⟨key, v⟩ es with
    | none => rfl
    | some r => simp [Node.mapResult, mapElements_mk]
  · rw [InsertAndShift_map]
    cases InsertAndShift lb (o / 2) ⟨key, v⟩ es with
    | none => rfl
    | some r =>
      obtain ⟨x, es1⟩ := r
      simp only [Option.map_some', Prod.map_apply, Option.bind_eq_bind, Option.some_bind,
        List.length_map]
      rw [Transfer_map_nil]
      cases Transfer (o / 2) es1.length es1 [] with
      | none => rfl
      | some ne =>
        simp only [Option.map_some', Option.some_bind]
        rw [resize_map]
        cases resize es1 (o / 2) with
        | none => rfl
        | some es2 => simp [Node.mapResult, mapElements_mk, Overflow.mapElements]
  · simp only [List.getElem?_map]
    cases es[o / 2]? with
    | none => rfl
    | some x =>
      simp only [Option.map_some', Option.bind_eq_bind, Option.some_bind]
      rw [Transfer_map_nil]
      cases Transfer (o / 2 + 1) lb es [] with
      | none => rfl
      | some ne =>
        simp only [Option.map_some', Option.some_bind]
        rw [Transfer_map_snoc]
        cases Transfer lb es.length es (ne ++ [⟨key, v⟩]) with
        | none => rfl
        | some ne2 =>
          simp only [Option.map_some', Option.some_bind]
          rw [resize_map]
          cases resize es (o / 2) with
          | none => rfl
          | some es2 => simp [Node.mapResult, mapElements_mk, Overflow.mapElements]

/-- The absorption of an overflow commutes with a map of the elements. -/
theorem AbsorbOverflow_map (f : Element K V → Element K W) (o : Nat)
    (es : List (Element K V)) (cs : List (Node K V)) (lb : Nat) (ov : Overflow K V) :
    Node.AbsorbOverflow o (es.map f) (cs.map (Node.mapElements f)) lb
        (Overflow.mapElements f ov) =
      (Node.AbsorbOverflow o es cs lb ov).map (Node.mapResult f) := by
  obtain ⟨m, s⟩ := ov
  simp only [Node.AbsorbOverflow, List.length_map, Overflow.mapElements]
  split_ifs with h1 h2
  · rw [InsertAndShift_map]
    cases InsertAndShift lb es.length m es with
    | none => rfl
    | some r =>
      obtain ⟨x, es1⟩ := r
      simp only [Option.map_some', Prod.map_apply, Option.bind_eq_bind, Option.some_bind]
      rw [InsertAndShift_map]
      cases InsertAndShift (lb + 1) cs.length s cs with
      | none => rfl
      | some r2 => simp [Node.mapResult, mapElements_mk]
  · rw [InsertAndShift_map]
    cases InsertAndShift lb (o / 2) m es with
    | none => rfl
    | some r =>
      obtain ⟨x, es1⟩ := r
      simp only [Option.map_some', Prod.map_apply, Option.bind_eq_bind, Option.some_bind,
        List.length_map]
      rw [Transfer_map_nil]
      cases Transfer (o / 2) es1.length es1 [] with
      | none => rfl
      | some ne =>
        simp only [Option.map_some', Option.some_bind]
        rw [InsertAndShift_map]
        cases InsertAndShift (lb + 1) (o / 2 + 1) s cs with
        | none => rfl
        | some r2 =>
          obtain ⟨y, cs1⟩ := r2
          simp only [Option.map_some', Prod.map_apply, Option.some_bind, List.length_map]
          rw [Transfer_map_singleton]
          cases Transfer (o / 2 + 1) cs1.length cs1 [y] with
          | none => rfl
          | some nc =>
            simp only [Option.map_some', Option.some_bind]
            rw [resize_map]
            cases resize es1 (o / 2) with
            | none => rfl
            | some es2 =>
              simp only [Option.map_some', Option.some_bind]
              rw [resize_map]
              cases resize cs1 (o / 2 + 1) with
              | none => rfl
              | some cs2 => simp [Node.mapResult, mapElements_mk, Overflow.mapElements]
  · simp only [List.getElem?_map]
    cases es[o / 2]? with
    | none => rfl
    | some x =>
      simp only [Option.map_some', Option.bind_eq_bind, Option.some_bind]
      rw [Transfer_map_nil]
      cases Transfer (o / 2 + 1) lb es [] with
      | none => rfl
      | some ne =>
        simp only [Option.map_some', Option.some_bind]
        rw [Transfer_map_snoc]
        cases Transfer lb es.length es (ne ++ [m]) with
        | none => rfl
        | some ne2 =>
          simp only [Option.map_some', Option.some_bind]
          rw [Transfer_map_nil]
          cases Transfer (o / 2 + 1) (lb + 1) cs [] with
          | none => rfl
          | some nc =>
            simp only [Option.map_some', Option.some_bind]
            rw [Transfer_map_snoc]
            cases Transfer (lb + 1) cs.length cs (nc ++ [s]) with
            | none => rfl
            | some nc2 =>
              simp only [Option.map_some', Option.some_bind]
              rw [resize_map]
              cases resize es (o / 2) with
              | none => rfl
              | some es2 =>
                simp only [Option.map_some', Option.some_bind]
                rw [resize_map]
                cases resize cs (o / 2 + 1) with
                | none => rfl
                | some cs2 => simp [Node.mapResult, mapElements_mk, Overflow.mapElements]

theorem LowerBoundLoop_map [LinearOrder K] (f : Element K V → Element K W)
    (hkey : ∀ e, (f e).key = e.key) (es : List (Element K V)) (key : K) (fuel : Nat) :
    ∀ first last : Nat,
      Node.LowerBoundLoop (es.map f) key fuel first last =
        Node.LowerBoundLoop es key fuel first last := by
  induction fuel with
  | zero => intro first last; rfl
  | succ fuel ih =>
    intro first last
    simp only [Node.LowerBoundLoop, List.getElem?_map]
    split_ifs with hd
    · cases es[first + (last - first) / 2]? with
      | none => rfl
      | some e => simp only [Option.map_some', hkey, ih]
    · rfl

theorem LowerBound_map [LinearOrder K] (f : Element K V → Element K W)
    (hkey : ∀ e, (f e).key = e.key) (es : List (Element K V)) (key : K) :
    Node.LowerBound (es.map f) key = Node.LowerBound es key := by
  simp only [Node.LowerBound, List.length_map]
  exact LowerBoundLoop_map f hkey es key _ _ _

theorem InsertOrUpdateChild_map [LinearOrder K] (f : Element K V → Element K W) (key : K)
    (v : V) (w : W) (cs : List (Node K V))
    (ih : ∀ c ∈ cs, (c.mapElements f).InsertOrUpdate key w =
      (c.InsertOrUpdate key v).map (Node.mapResult f)) :
    ∀ i, Node.InsertOrUpdateChild (cs.map (Node.mapElements f)) i key w =
      (Node.InsertOrUpdateChild cs i key v).map
        (fun r => (r.1.map (Node.mapElements f), r.2.map (Overflow.mapElements f))) := by
  induction cs with
  | nil => intro i; simp [Node.InsertOrUpdateChild]
  | cons c cs ihc =>
    intro i
    cases i with
    | zero =>
      simp only [List.map_cons, Node.InsertOrUpdateChild, ih c (List.mem_cons_self _ _)]
      cases c.InsertOrUpdate key v with
      | none => rfl
      | some r => simp [Node.mapResult]
    | succ i =>
      simp only [List.map_cons, Node.InsertOrUpdateChild,
        ihc (fun x hx => ih x (List.mem_cons_of_mem _ hx)) i]
      cases Node.InsertOrUpdateChild cs i key v with
      | none => rfl
      | some r => simp

theorem map_modify_at {T U : Type} (f : T → U) (g : T → T) (g1 : U → U) (l : List T) (n : Nat)
    (h : ∀ x, l[n]? = some x → f (g x) = g1 (f x)) :
    (l.modify g n).map f = (l.map f).modify g1 n := by
  induction l generalizing n with
  | nil => simp
  | cons a l ih =>
    cases n with
    | zero =>
      simp only [List.modify_zero_cons, List.map_cons]
      rw [h a (by simp)]
    | succ n =>
      simp only [List.modify_succ_cons, List.map_cons]
      rw [ih n (fun x hx => h x (by simpa using hx))]

/-- The function `Node::InsertOrUpdate` commutes with a map of the elements
that keeps keys, sends the new element to the new element and an overwritten
element to the overwritten element. -/
theorem InsertOrUpdate_map [LinearOrder K] (f : Element K V → Element K W) (key : K) (v : V)
    (w : W) (hkey : ∀ e, (f e).key = e.key) (hnew : f ⟨key, v⟩ = ⟨key, w⟩)
    (hset : ∀ e, e.key = key → f (e.set_value v) = (f e).set_value w) :
    ∀ n : Node K V, (n.mapElements f).InsertOrUpdate key w =
      (n.InsertOrUpdate key v).map (Node.mapResult f) := by
  apply Node.induction
  intro o es cs ih
  rw [mapElements_mk, Node.InsertOrUpdate, Node.InsertOrUpdate, LowerBound_map f hkey]
  cases hlb : Node.LowerBound es key with
  | none => rfl
  | some lb =>
    simp only [List.length_map, List.getElem?_map, Option.map_map]
    have hcomp : Element.key ∘ f = Element.key := funext hkey
    rw [hcomp]
    have hemp : (cs.map (Node.mapElements f)).isEmpty = cs.isEmpty := by cases cs <;> rfl
    rw [hemp]
    split_ifs with h1 h2
    · simp only [Option.map_some', Node.mapResult, Option.map_none', mapElements_mk]
      congr 3
      symm
      apply map_modify_at
      intro x hx
      apply hset
      have := h1.2
      rw [hx] at this
      simpa using this
    · exact InsertLeaf_map f o es lb key v w hnew
    · rw [InsertOrUpdateChild_map f key v w cs ih lb]
      cases Node.InsertOrUpdateChild cs lb key v with
      | none => rfl
      | some r =>
        obtain ⟨cs1, ovc⟩ := r
        cases ovc with
        | none => simp [Node.mapResult, mapElements_mk]
        | some ov =>
          simp only [Option.map_some']
          exact AbsorbOverflow_map f o es cs1 lb ov

theorem BTree_InsertOrUpdate_map [LinearOrder K] (f : Element K V → Element K W) (key : K)
    (v : V) (w : W) (hkey : ∀ e, (f e).key = e.key) (hnew : f ⟨key, v⟩ = ⟨key, w⟩)
    (hset : ∀ e, e.key = key → f (e.set_value v) = (f e).set_value w) (t : BTree K V) :
    (t.mapElements f).InsertOrUpdate key w =
      (t.InsertOrUpdate key v).map (BTree.mapElements f) := by
  simp only [BTree.InsertOrUpdate, BTree.mapElements,
    InsertOrUpdate_map f key v w hkey hnew hset t.root_]
  cases t.root_.InsertOrUpdate key v with
  | none => rfl
  | some r =>
    obtain ⟨r1, ov⟩ := r
    cases ov with
    | none => simp [Node.mapResult, BTree.mapElements]
    | some ov => simp [Node.mapResult, Overflow.mapElements, mapElements_mk, BTree.mapElements]

theorem setValue_eq_mapElements [DecidableEq K] (key : K) (value : V) :
    ∀ n : Node K V, n.setValue key value =
      n.mapElements (fun e => if e.key = key then e.set_value value else e) := by
  apply Node.induction
  intro o es cs ih
  rw [mapElements_mk, Node.setValue]
  congr 1
  clear es
  induction cs with
  | nil => rfl
  | cons c cs ihc =>
    simp only [Node.setValueList, List.map_cons]
    rw [ih c (List.mem_cons_self _ _), ihc (fun x hx => ih x (List.mem_cons_of_mem _ hx))]

/-- A map that fixes every element of a subtree fixes the subtree. -/
theorem mapElements_eq_self (f : Element K V → Element K V) :
    ∀ n : Node K V, (∀ e ∈ n.inorder, f e = e) → n.mapElements f = n := by
  apply Node.induction
  intro o es cs ih hfix
  rw [inorder_mk] at hfix
  rw [mapElements_mk]
  have h1 : es.map f = es := by
    conv_rhs => rw [← List.map_id es]
    apply List.map_congr_left
    intro e he
    exact hfix e ((elements_sublist_inorderList cs es).subset he)
  have h2 : cs.map (Node.mapElements f) = cs := by
    conv_rhs => rw [← List.map_id cs]
    apply List.map_congr_left
    intro c hc
    exact ih c hc (fun e he => hfix e ((child_sublist_inorderList cs es c hc).subset he))
  rw [h1, h2]

theorem SortedKeys.eq_of_key_eq [LinearOrder K] {l : List (Element K V)} (hs : SortedKeys l)
    {a b : Element K V} (ha : a ∈ l) (hb : b ∈ l) (hk : a.key = b.key) : a = b := by
  induction l with
  | nil => simp at ha
  | cons x l ih =>
    have hs1 := List.pairwise_cons.1 hs
    rcases List.mem_cons.1 ha with ha1 | ha1
    · rcases List.mem_cons.1 hb with hb1 | hb1
      · rw [ha1, hb1]
      · rw [ha1] at hk
        exact absurd hk (ne_of_lt (hs1.1 b hb1))
    · rcases List.mem_cons.1 hb with hb1 | hb1
      · rw [hb1] at hk
        exact absurd hk (ne_of_gt (hs1.1 a ha1))
      · exact ih hs1.2 ha1 hb1

theorem mem_upsert_self [LinearOrder K] (key : K) (value : V) (l : List (Element K V)) :
    (⟨key, value⟩ : Element K V) ∈ upsert key value l := by
  induction l with
  | nil => simp [upsert]
  | cons a l ih =>
    simp only [upsert]
    split_ifs
    · exact List.mem_cons_of_mem _ ih
    · exact List.mem_cons_self _ _
    · exact List.mem_cons_self _ _

/-- Writing `v1` and then `v2` under a key gives the tree of writing `v2`
alone. -/
theorem BTree_last_write_wins [LinearOrder K] (t : BTree K V) (ho : 2 ≤ t.order_)
    (hinv : t.Inv) (k : K) (v1 v2 : V) :
    ∃ ta tb, t.InsertOrUpdate k v1 = some ta ∧ ta.InsertOrUpdate k v2 = some tb ∧
      t.InsertOrUpdate k v2 = some tb := by
  obtain ⟨ta, hta, hinva, hoa, hina⟩ := BTree_InsertOrUpdate_post t k v1 ho hinv
  obtain ⟨tc, htc, hinvc, hoc, hinc⟩ := BTree_InsertOrUpdate_post t k v2 ho hinv
  -- the second write on `ta` overwrites in place
  obtain ⟨⟨ha, hwfa⟩, hsa⟩ := hinva
  have hka : k ∈ ta.root_.inorder.map Element.key := by
    rw [hina]
    exact (keys_upsert k v1 _ k).2 (Or.inl rfl)
  have hst := InsertOrUpdate_stored ta.order_ ha ta.root_ k v2 hwfa hsa hka
  have htb : ta.InsertOrUpdate k v2 = some ⟨ta.order_, ta.root_.setValue k v2⟩ := by
    simp [BTree.InsertOrUpdate, hst]
  -- both writes commute with setting the value of `k` to `v2`
  have hkey : ∀ e : Element K V, (if e.key = k then e.set_value v2 else e).key = e.key := by
    intro e; split_ifs <;> rfl
  have hG1 := BTree_InsertOrUpdate_map
    (fun e : Element K V => if e.key = k then e.set_value v2 else e) k v1 v2 hkey
    (by simp [Element.set_value])
    (by intro e he; simp [Element.set_value, he]) t
  have hG2 := BTree_InsertOrUpdate_map
    (fun e : Element K V => if e.key = k then e.set_value v2 else e) k v2 v2 hkey
    (by simp [Element.set_value])
    (by intro e he; simp [Element.set_value, he]) t
  rw [hta] at hG1
  rw [htc] at hG2
  rw [hG1] at hG2
  simp only [Option.map_some', Option.some.injEq, BTree.mapElements, BTree.mk.injEq] at hG2
  -- `tc` already holds `v2` under `k`
  have hfix : tc.root_.mapElements (fun e => if e.key = k then e.set_value v2 else e) =
      tc.root_ := by
    apply mapElements_eq_self
    intro e he
    split_ifs with hek
    · have hmem : (⟨k, v2⟩ : Element K V) ∈ tc.root_.inorder := by
        rw [hinc]; exact mem_upsert_self k v2 _
      have := hinvc.2.eq_of_key_eq he hmem hek
      rw [this]
      rfl
    · rfl
  refine ⟨ta, _, hta, htb, ?_⟩
  rw [htc, setValue_eq_mapElements, hG2.2, hfix]
  congr 1
  cases tc
  simp only [BTree.mk.injEq, and_true]
  simp only at hoc
  omega

/-! ## The shape of the tree -/

theorem InsertAll_map [LinearOrder K] (calls : List (K × V)) :
    ∀ t : BTree K V,
      (t.mapElements (fun e => (⟨e.key, ()⟩ : Element K Unit))).InsertAll
          (unitCalls (calls.map Prod.fst)) =
        (t.InsertAll calls).map (BTree.mapElements (fun e => ⟨e.key, ()⟩)) := by
  induction calls with
  | nil => intro t; rfl
  | cons kv calls ih =>
    intro t
    obtain ⟨key, value⟩ := kv
    simp only [List.map_cons, unitCalls, BTree.InsertAll]
    rw [BTree_InsertOrUpdate_map (fun e => (⟨e.key, ()⟩ : Element K Unit)) key value ()
      (fun _ => rfl) rfl (fun _ _ => rfl) t]
    cases t.InsertOrUpdate key value with
    | none => rfl
    | some t1 => exact ih t1

/-- On a tree without information in the values, writing a stored key changes
nothing. -/
theorem InsertOrUpdate_unit_stored [LinearOrder K] (t : BTree K Unit) (hinv : t.Inv) (k : K)
    (hk : k ∈ t.root_.inorder.map Element.key) : t.InsertOrUpdate k () = some t := by
  obtain ⟨⟨h, hwf⟩, hs⟩ := hinv
  have hst := InsertOrUpdate_stored t.order_ h t.root_ k () hwf hs hk
  have hfix : t.root_.setValue k () = t.root_ := by
    rw [setValue_eq_mapElements]
    apply mapElements_eq_self
    intro e _
    split_ifs <;> rfl
  simp [BTree.InsertOrUpdate, hst, hfix]

theorem InsertAll_unit_filter [LinearOrder K] (k : K) (calls : List (K × Unit)) :
    ∀ t : BTree K Unit, 2 ≤ t.order_ → t.Inv → k ∈ t.root_.inorder.map Element.key →
      t.InsertAll calls = t.InsertAll (calls.filter (fun kv => kv.1 ≠ k)) := by
  induction calls with
  | nil => intro t _ _ _; rfl
  | cons kv calls ih =>
    intro t ho hinv hk
    obtain ⟨k1, u⟩ := kv
    by_cases h1 : k1 = k
    · subst h1
      have hf : List.filter (fun kv : K × Unit => decide (kv.1 ≠ k1)) ((k1, u) :: calls) =
          List.filter (fun kv : K × Unit => decide (kv.1 ≠ k1)) calls := by
        simp
      rw [hf, ← ih t ho hinv hk]
      simp only [BTree.InsertAll, InsertOrUpdate_unit_stored t hinv k1 hk]
    · have hf : List.filter (fun kv : K × Unit => decide (kv.1 ≠ k)) ((k1, u) :: calls) =
          (k1, u) :: List.filter (fun kv : K × Unit => decide (kv.1 ≠ k)) calls := by
        simp [h1]
      rw [hf]
      obtain ⟨t1, ht1, hinv1, ho1, hin1⟩ := BTree_InsertOrUpdate_post t k1 u ho hinv
      simp only [BTree.InsertAll, ht1]
      apply ih t1 (by omega) hinv1
      rw [hin1]
      exact (keys_upsert k1 u _ k).2 (Or.inr hk)

theorem unitCalls_filter [DecidableEq K] (k : K) (ks : List K) :
    (unitCalls ks).filter (fun kv => kv.1 ≠ k) = unitCalls (ks.filter (fun x => x ≠ k)) := by
  simp only [unitCalls, List.filter_map]
  rfl

/-- On trees without information in the values, a sequence of keys and the
sequence of its distinct keys in first-occurrence order build the same tree. -/
theorem InsertAll_unit_firstKeys [LinearOrder K] (ks : List K) :
    ∀ t : BTree K Unit, 2 ≤ t.order_ → t.Inv →
      t.InsertAll (unitCalls ks) = t.InsertAll (unitCalls (firstKeys ks)) := by
  induction ks with
  | nil => intro t _ _; rfl
  | cons k ks ih =>
    intro t ho hinv
    obtain ⟨t1, ht1, hinv1, ho1, hin1⟩ := BTree_InsertOrUpdate_post t k () ho hinv
    have hk1 : k ∈ t1.root_.inorder.map Element.key := by
      rw [hin1]
      exact (keys_upsert k () _ k).2 (Or.inl rfl)
    simp only [firstKeys, unitCalls, List.map_cons, BTree.InsertAll, ht1]
    have h1 := ih t1 (by omega) hinv1
    have h2 := InsertAll_unit_filter k (unitCalls (firstKeys ks)) t1 (by omega) hinv1 hk1
    rw [unitCalls_filter] at h2
    simp only [unitCalls] at h1 h2
    rw [h1, h2]

/-- The shape of the tree built by a sequence of calls is the tree built, on
values without information, by the distinct keys in first-insertion order. -/
theorem shape_InsertAll [LinearOrder K] (o : Nat) (ho : 2 ≤ o) (calls : List (K × V)) :
    ((BTree.new o : BTree K V).InsertAll calls).map (fun t => t.root_.shape) =
      ((BTree.new o : BTree K Unit).InsertAll
        (unitCalls (firstKeys (calls.map Prod.fst)))).map (fun t => t.root_) := by
  have h1 := InsertAll_map calls (BTree.new o : BTree K V)
  have hnew : (BTree.new o : BTree K V).mapElements
      (fun e => (⟨e.key, ()⟩ : Element K Unit)) = BTree.new o := by
    simp [BTree.new, BTree.mapElements, mapElements_mk]
  rw [hnew, InsertAll_unit_firstKeys _ _ ho (Inv_new o)] at h1
  rw [h1]
  cases (BTree.new o : BTree K V).InsertAll calls with
  | none => rfl
  | some t => rfl

/-- C20 (last write wins structurally).  For every tree `t` reached with an
odd order at least 3, every key `k` and values `v1`, `v2`:
`InsertOrUpdate(k, v1)` followed by `InsertOrUpdate(k, v2)` returns exactly the
tree that `InsertOrUpdate(k, v2)` alone returns; `InsertOrUpdate(k, v1)` twice
returns the tree of doing it once; and two sequences of calls with the same
distinct keys in the same first-insertion order build trees of the same shape
(same nodes, same keys in every node), whatever the values. -/
theorem C20_last_write_wins [LinearOrder K] (order : Nat) (h3 : 3 ≤ order)
    (_hodd : order % 2 = 1) (calls calls2 : List (K × V)) (k : K) (v1 v2 : V) :
    (∃ t ta tb, (BTree.new order : BTree K V).InsertAll calls = some t ∧
      t.InsertOrUpdate k v1 = some ta ∧ ta.InsertOrUpdate k v2 = some tb ∧
      t.InsertOrUpdate k v2 = some tb ∧ ta.InsertOrUpdate k v1 = some ta) ∧
    (firstKeys (calls.map Prod.fst) = firstKeys (calls2.map Prod.fst) →
      ∃ t t2, (BTree.new order : BTree K V).InsertAll calls = some t ∧
        (BTree.new order : BTree K V).InsertAll calls2 = some t2 ∧
        t.root_.shape = t2.root_.shape) := by
  obtain ⟨t, h1, hinv, ho, -⟩ := reachable_post (V := V) order (by omega) calls
  have ho2 : 2 ≤ t.order_ := by omega
  constructor
  · obtain ⟨ta, tb, hta, htb, htc⟩ := BTree_last_write_wins t ho2 hinv k v1 v2
    obtain ⟨ta1, tb1, hta1, htb1, htc1⟩ := BTree_last_write_wins t ho2 hinv k v1 v1
    rw [hta] at hta1 htc1
    cases hta1
    cases htc1
    exact ⟨t, ta, tb, h1, hta, htb, htc, htb1⟩
  · intro hkeys
    obtain ⟨t2, h2, -, -, -⟩ := reachable_post (V := V) order (by omega) calls2
    refine ⟨t, t2, h1, h2, ?_⟩
    have e1 := shape_InsertAll (V := V) order (by omega) calls
    have e2 := shape_InsertAll (V := V) order (by omega) calls2
    rw [h1, hkeys] at e1
    rw [h2, ← e1] at e2
    exact (Option.some.inj e2).symm

theorem C20_last_write_wins_witness :
    3 ≤ 3 ∧ 3 % 2 = 1 ∧
      firstKeys (([(5, 50), (3, 30), (5, 51)] : List (Nat × Nat)).map Prod.fst) =
        firstKeys (([(5, 1), (3, 2)] : List (Nat × Nat)).map Prod.fst) ∧
      (∃ t ta tb, (BTree.new 3 : BTree Nat Nat).InsertAll [(5, 50), (3, 30), (5, 51)] = some t ∧
        t.InsertOrUpdate 8 80 = some ta ∧ ta.InsertOrUpdate 8 81 = some tb ∧
        t.InsertOrUpdate 8 81 = some tb ∧ ta.InsertOrUpdate 8 80 = some ta) ∧
      (firstKeys (([(5, 50), (3, 30), (5, 51)] : List (Nat × Nat)).map Prod.fst) =
          firstKeys (([(5, 1), (3, 2)] : List (Nat × Nat)).map Prod.fst) →
        ∃ t t2, (BTree.new 3 : BTree Nat Nat).InsertAll [(5, 50), (3, 30), (5, 51)] = some t ∧
          (BTree.new 3 : BTree Nat Nat).InsertAll [(5, 1), (3, 2)] = some t2 ∧
          t.root_.shape = t2.root_.shape) :=
  ⟨by decide, by decide, by decide,
    C20_last_write_wins 3 (by decide) (by decide) [(5, 50), (3, 30), (5, 51)] [(5, 1), (3, 2)]
      8 80 81⟩

/-! ## The pointer-level model agrees with the value-level model -/

theorem readSlot_map {T : Type} (vec : List T) (i : Nat) :
    readSlot (vec.map some) i = vec[i]? := by
  simp only [readSlot, List.getElem?_map]
  cases vec[i]? <;> rfl

theorem readSlot_eq {T : Type} (W : List (Option T)) (i : Nat) (x : T)
    (h : W[i]? = some (some x)) : readSlot W i = some x := by
  simp only [readSlot, h]

theorem InsertAndShiftLoopP_map {T : Type} (n : Nat) :
    ∀ (i : Nat) (v : T) (vec : List T),
      InsertAndShiftLoopP n i v (vec.map some) =
        (InsertAndShiftLoop n i v vec).map (fun r => (r.1, r.2.map some)) := by
  induction n with
  | zero => intro i v vec; simp [InsertAndShiftLoopP, InsertAndShiftLoop]
  | succ n ih =>
    intro i v vec
    simp only [InsertAndShiftLoopP, InsertAndShiftLoop, readSlot_map]
    cases vec[i]? with
    | none => rfl
    | some x =>
      simp only
      rw [← ih (i + 1) x (vec.set i v), List.map_set]

theorem InsertAndShiftP_map {T : Type} (a m : Nat) (v : T) (vec : List T) :
    InsertAndShiftP a m v (vec.map some) =
      (InsertAndShift a m v vec).map (fun r => (r.1, r.2.map some)) :=
  InsertAndShiftLoopP_map _ _ _ _

theorem InsertAndShiftLoop_length {T : Type} (n : Nat) :
    ∀ (i : Nat) (v : T) (vec : List T) (r : T × List T),
      InsertAndShiftLoop n i v vec = some r → r.2.length = vec.length := by
  induction n with
  | zero =>
    intro i v vec r h
    simp only [InsertAndShiftLoop, Option.some.injEq] at h
    rw [← h]
  | succ n ih =>
    intro i v vec r h
    simp only [InsertAndShiftLoop] at h
    cases hg : vec[i]? with
    | none => rw [hg] at h; cases h
    | some x =>
      rw [hg] at h
      simp only at h
      rw [ih (i + 1) x (vec.set i v) r h, List.length_set]

theorem InsertAndShift_length {T : Type} (a m : Nat) (v : T) (vec : List T) (r : T × List T)
    (h : InsertAndShift a m v vec = some r) : r.2.length = vec.length :=
  InsertAndShiftLoop_length _ _ _ _ r h

theorem TransferLoopP_spec {T : Type} (vec : List T) (n : Nat) :
    ∀ (i : Nat) (W : List (Option T)) (vto : List T), i + n ≤ vec.length →
      (∀ j, i ≤ j → j < i + n → W[j]? = (vec[j]?).map some) →
      ∃ W1, TransferLoopP n i W vto = some (W1, vto ++ (vec.drop i).take n) ∧
        W1.length = W.length ∧ ∀ j, j < i ∨ i + n ≤ j → W1[j]? = W[j]? := by
  induction n with
  | zero =>
    intro i W vto _ _
    exact ⟨W, by simp [TransferLoopP], rfl, fun _ _ => rfl⟩
  | succ n ih =>
    intro i W vto hlen hW
    have hi : i < vec.length := by omega
    have hWi : W[i]? = some (some vec[i]) := by
      rw [hW i (le_refl _) (by omega), List.getElem?_eq_getElem hi]
      rfl
    obtain ⟨W1, h1, h2, h3⟩ := ih (i + 1) (W.set i none) (vto ++ [vec[i]]) (by omega) (by
      intro j hj1 hj2
      rw [List.getElem?_set_ne (by omega)]
      exact hW j (by omega) (by omega))
    refine ⟨W1, ?_, ?_, ?_⟩
    · simp only [TransferLoopP, readSlot_eq W i _ hWi, h1]
      rw [List.drop_eq_getElem_cons hi, List.take_succ_cons, List.append_assoc]
      rfl
    · rw [h2, List.length_set]
    · intro j hj
      rw [h3 j (by omega), List.getElem?_set_ne (by omega)]

/-- With `max <= size` and the slots `[min, max)` of `from` holding the
entries of `vec`, the pointer-level `Transfer` appends them to `to`, keeps the
size of `from` and leaves its other slots as they are. -/
theorem TransferP_spec {T : Type} (vec : List T) (a b : Nat) (W : List (Option T))
    (vto : List T) (hb : b ≤ vec.length)
    (hW : ∀ j, a ≤ j → j < b → W[j]? = (vec[j]?).map some) :
    ∃ W1, TransferP a b W vto = some (W1, vto ++ (vec.take b).drop a) ∧
      W1.length = W.length ∧ ∀ j, j < a ∨ b ≤ j → W1[j]? = W[j]? := by
  by_cases hab : a ≤ b
  · obtain ⟨W1, h1, h2, h3⟩ := TransferLoopP_spec vec (b - a) a W vto (by omega)
      (fun j hj1 hj2 => hW j hj1 (by omega))
    refine ⟨W1, ?_, h2, fun j hj => h3 j (by omega)⟩
    rw [TransferP, h1, List.drop_take]
  · have h0 : b - a = 0 := by omega
    have h1 : (vec.take b).drop a = [] := by
      apply List.drop_eq_nil_of_le
      simp; omega
    exact ⟨W, by simp [TransferP, h0, h1, TransferLoopP], rfl, fun _ _ => rfl⟩

theorem noNull_map_some {T : Type} (l : List T) : noNull (l.map some) = some l := by
  induction l with
  | nil => rfl
  | cons a l ih => simp [noNull, ih]

/-- A vector whose first `m` slots hold the first `m` entries of `vec` has no
null slot after `resize(m)`. -/
theorem noNull_resizeP {T : Type} (vec : List T) (W : List (Option T)) (m : Nat)
    (hm : m ≤ vec.length) (hlen : W.length = vec.length)
    (hW : ∀ j, j < m → W[j]? = (vec[j]?).map some) :
    noNull (resizeP W m) = some (vec.take m) := by
  have h1 : W.take m = (vec.take m).map some := by
    apply List.ext_getElem?
    intro j
    by_cases hj : j < m
    · rw [List.getElem?_take_of_lt hj, hW j hj, List.getElem?_map,
        List.getElem?_take_of_lt hj]
    · rw [List.getElem?_eq_none (by simp; omega), List.getElem?_eq_none (by simp; omega)]
  have h2 : m - W.length = 0 := by omega
  rw [resizeP, h1, h2, List.replicate_zero, List.append_nil, noNull_map_some]

theorem moveSlot_map {T : Type} (vec : List T) (i : Nat) (x : T) (h : vec[i]? = some x) :
    moveSlot (vec.map some) i = some (x, (vec.map some).set i none) := by
  simp only [moveSlot, readSlot_map, h]

/-- The tail of a low split on slots: `Transfer` of `[m, size)` and
`resize(m)`, as in the value-level model. -/
theorem split_low_P {T : Type} (vec1 : List T) (m : Nat) (pre : List T)
    (hm : m ≤ vec1.length) :
    (∃ W1, TransferP m (vec1.map some).length (vec1.map some) pre =
        some (W1, pre ++ vec1.drop m) ∧
      noNull (resizeP W1 m) = some (vec1.take m)) ∧
    Transfer m vec1.length vec1 pre = some (pre ++ vec1.drop m) ∧
    resize vec1 m = some (vec1.take m) := by
  refine ⟨?_, ?_, resize_eq _ _ hm⟩
  · obtain ⟨W1, h1, h2, h3⟩ := TransferP_spec vec1 m vec1.length (vec1.map some) pre
      (le_refl _) (fun j _ _ => List.getElem?_map _ _ _)
    rw [List.take_length] at h1
    refine ⟨W1, by rw [List.length_map]; exact h1, ?_⟩
    apply noNull_resizeP vec1 W1 m hm (by rw [h2, List.length_map])
    intro j hj
    rw [h3 j (Or.inl hj), List.getElem?_map]
  · rw [Transfer_eq _ _ _ _ (le_refl _), List.take_length]

/-- The high branch of a split on slots: `Transfer` of `[m, a)`, the new
entry, `Transfer` of `[a, size)` and `resize(m0)`, as in the value-level
model; the slots from `m` on and below `m0` hold the entries of `vec`. -/
theorem split_high_P {T : Type} (vec : List T) (W0 : List (Option T)) (a m m0 : Nat) (v : T)
    (hma : m ≤ a) (ha : a ≤ vec.length) (hm0 : m0 ≤ m) (hlen : W0.length = vec.length)
    (hW : ∀ j, j < m0 ∨ m ≤ j → W0[j]? = (vec[j]?).map some) :
    (∃ W1 W2, TransferP m a W0 [] = some (W1, (vec.take a).drop m) ∧
      TransferP a W1.length W1 ((vec.take a).drop m ++ [v]) =
        some (W2, (vec.take a).drop m ++ [v] ++ vec.drop a) ∧
      noNull (resizeP W2 m0) = some (vec.take m0)) ∧
    Transfer m a vec [] = some ((vec.take a).drop m) ∧
    Transfer a vec.length vec ((vec.take a).drop m ++ [v]) =
      some ((vec.take a).drop m ++ [v] ++ vec.drop a) ∧
    resize vec m0 = some (vec.take m0) := by
  refine ⟨?_, ?_, ?_, resize_eq _ _ (by omega)⟩
  · obtain ⟨W1, h1, h2, h3⟩ := TransferP_spec vec m a W0 [] ha
      (fun j hj _ => hW j (Or.inr hj))
    obtain ⟨W2, k1, k2, k3⟩ := TransferP_spec vec a vec.length W1
      ((vec.take a).drop m ++ [v]) (le_refl _) (fun j hj _ => by
        rw [h3 j (Or.inr hj)]
        exact hW j (Or.inr (by omega)))
    rw [List.take_length] at k1
    refine ⟨W1, W2, by simpa using h1, by rw [h2, hlen]; exact k1, ?_⟩
    apply noNull_resizeP vec W2 m0 (by omega) (by rw [k2, h2, hlen])
    intro j hj
    rw [k3 j (Or.inl (by omega)), h3 j (Or.inl (by omega))]
    exact hW j (Or.inl hj)
  · rw [Transfer_eq _ _ _ _ ha]; rfl
  · rw [Transfer_eq _ _ _ _ (le_refl _), List.take_length]

/-- The leaf case on nullable slots never reads a null or out-of-range slot
and leaves no null slot: it returns what the value-level leaf case returns. -/
theorem InsertLeafP_eq (o : Nat) (es : List (Element K V)) (lb : Nat) (key : K) (value : V)
    (hlb : lb ≤ es.length) (hmid : HasRoom o es.length = false → o / 2 ≤ es.length) :
    Node.InsertLeafP o es lb key value = Node.InsertLeaf o es lb key value := by
  simp only [Node.InsertLeafP, Node.InsertLeaf, List.length_map]
  split_ifs with h1 h2
  · rw [InsertAndShiftP_map]
    cases InsertAndShift lb es.length ⟨key, value⟩ es with
    | none => rfl
    | some r =>
      obtain ⟨x, es1⟩ := r
      have : es1.map some ++ [some x] = (es1 ++ [x]).map some := by simp
      simp only [Option.map_some', Option.bind_eq_bind, Option.some_bind, this,
        noNull_map_some, Option.pure_def]
  · have hroom : HasRoom o es.length = false := by simpa using h1
    rw [InsertAndShiftP_map]
    cases h : InsertAndShift lb (o / 2) ⟨key, value⟩ es with
    | none => rfl
    | some r =>
      obtain ⟨x, es1⟩ := r
      have hl : es1.length = es.length := InsertAndShift_length _ _ _ _ _ h
      obtain ⟨⟨W1, p1, p2⟩, v1, v2⟩ := split_low_P es1 (o / 2) [] (by rw [hl]; exact hmid hroom)
      simp only [List.nil_append, List.length_map] at p1 v1
      simp [p1, p2, v1, v2]
  · have hroom : HasRoom o es.length = false := by simpa using h1
    have hlt : o / 2 < lb := Nat.lt_of_not_le h2
    have hget : es[o / 2]? = some es[o / 2] := List.getElem?_eq_getElem (by omega)
    obtain ⟨⟨W1, W2, p1, p2, p3⟩, v1, v2, v3⟩ := split_high_P es ((es.map some).set (o / 2) none)
      lb (o / 2 + 1) (o / 2) ⟨key, value⟩ hlt hlb (by omega) (by simp) (by
        intro j hj
        rw [List.getElem?_set_ne (by omega), List.getElem?_map])
    have hW1 : W1.length = es.length := by
      obtain ⟨W, q1, q2, -⟩ := TransferP_spec es (o / 2 + 1) lb
        ((es.map some).set (o / 2) none) [] hlb (by
          intro j hj _
          rw [List.getElem?_set_ne (by omega), List.getElem?_map])
      rw [p1] at q1
      cases q1
      simpa using q2
    rw [hW1] at p2
    simp [moveSlot_map es (o / 2) _ hget, hget, p1, p2, p3, v1, v2, v3, hW1]

theorem TransferP_length {T : Type} (vec : List T) (a b : Nat) (W W1 : List (Option T))
    (vto l : List T) (hb : b ≤ vec.length)
    (hW : ∀ j, a ≤ j → j < b → W[j]? = (vec[j]?).map some)
    (h : TransferP a b W vto = some (W1, l)) : W1.length = W.length := by
  obtain ⟨W2, q1, q2, -⟩ := TransferP_spec vec a b W vto hb hW
  rw [h] at q1
  cases q1
  exact q2

/-- The absorption of an overflow on nullable slots never reads a null or
out-of-range slot and leaves no null slot: it returns what the value-level
absorption returns. -/
theorem AbsorbOverflowP_eq (o : Nat) (es : List (Element K V)) (cs : List (Node K V))
    (lb : Nat) (ov : Overflow K V) (hlb : lb ≤ es.length) (hlc : lb + 1 ≤ cs.length)
    (hmid : HasRoom o es.length = false → o / 2 ≤ es.length ∧ o / 2 + 1 ≤ cs.length) :
    Node.AbsorbOverflowP o es cs lb ov = Node.AbsorbOverflow o es cs lb ov := by
  obtain ⟨m, s⟩ := ov
  simp only [Node.AbsorbOverflowP, Node.AbsorbOverflow, List.length_map]
  split_ifs with h1 h2
  · rw [InsertAndShiftP_map, InsertAndShiftP_map]
    cases InsertAndShift lb es.length m es with
    | none => rfl
    | some r =>
      obtain ⟨x, es1⟩ := r
      have he : es1.map some ++ [some x] = (es1 ++ [x]).map some := by simp
      simp only [Option.map_some', Option.bind_eq_bind, Option.some_bind, he,
        noNull_map_some, Option.pure_def]
      cases InsertAndShift (lb + 1) cs.length s cs with
      | none => rfl
      | some r2 =>
        obtain ⟨y, cs1⟩ := r2
        have hc : cs1.map some ++ [some y] = (cs1 ++ [y]).map some := by simp
        simp only [Option.map_some', Option.some_bind, hc, noNull_map_some]
  · have hroom : HasRoom o es.length = false := by simpa using h1
    obtain ⟨hm1, hm2⟩ := hmid hroom
    rw [InsertAndShiftP_map, InsertAndShiftP_map]
    cases h : InsertAndShift lb (o / 2) m es with
    | none => rfl
    | some r =>
      obtain ⟨x, es1⟩ := r
      have hl : es1.length = es.length := InsertAndShift_length _ _ _ _ _ h
      obtain ⟨⟨W1, p1, p2⟩, v1, v2⟩ := split_low_P es1 (o / 2) [] (by omega)
      simp only [List.nil_append, List.length_map] at p1 v1
      simp only [Option.map_some', Option.bind_eq_bind, Option.some_bind, List.length_map, p1,
        v1]
      cases h2 : InsertAndShift (lb + 1) (o / 2 + 1) s cs with
      | none => rfl
      | some r2 =>
        obtain ⟨y, cs1⟩ := r2
        have hl2 : cs1.length = cs.length := InsertAndShift_length _ _ _ _ _ h2
        obtain ⟨⟨W2, q1, q2⟩, w1, w2⟩ := split_low_P cs1 (o / 2 + 1) [y] (by omega)
        simp only [List.length_map] at q1
        simp [q1, q2, w1, w2, p2, v2]
  · have hroom : HasRoom o es.length = false := by simpa using h1
    obtain ⟨hm1, hm2⟩ := hmid hroom
    have hlt : o / 2 < lb := Nat.lt_of_not_le h2
    have hget : es[o / 2]? = some es[o / 2] := List.getElem?_eq_getElem (by omega)
    have hWe : ∀ j, j < o / 2 ∨ o / 2 + 1 ≤ j →
        ((es.map some).set (o / 2) none)[j]? = (es[j]?).map some := by
      intro j hj
      rw [List.getElem?_set_ne (by omega), List.getElem?_map]
    obtain ⟨⟨W1, W2, p1, p2, p3⟩, v1, v2, v3⟩ := split_high_P es ((es.map some).set (o / 2) none)
      lb (o / 2 + 1) (o / 2) m hlt hlb (by omega) (by simp) hWe
    have hW1 : W1.length = es.length := by
      have := TransferP_length es (o / 2 + 1) lb _ W1 [] _ hlb
        (fun j hj _ => hWe j (Or.inr hj)) p1
      simpa using this
    rw [hW1] at p2
    obtain ⟨⟨X1, X2, q1, q2, q3⟩, w1, w2, w3⟩ := split_high_P cs (cs.map some)
      (lb + 1) (o / 2 + 1) (o / 2 + 1) s (by omega) hlc (le_refl _) (by simp)
      (fun j _ => List.getElem?_map _ _ _)
    have hX1 : X1.length = cs.length := by
      have := TransferP_length cs (o / 2 + 1) (lb + 1) _ X1 [] _ hlc
        (fun j _ _ => List.getElem?_map _ _ _) q1
      simpa using this
    rw [hX1] at q2
    simp [moveSlot_map es (o / 2) _ hget, hget, p1, p2, p3, v1, v2, v3, hW1, q1, q2, q3, w1,
      w2, w3, hX1]

theorem HasRoom_false {o n : Nat} (h : HasRoom o n = false) : 1 ≤ o ∧ o - 1 ≤ n := by
  simp only [HasRoom, decide_eq_false_iff_not, not_or, not_lt] at h
  omega

theorem miss_cases [LinearOrder K] (es : List (Element K V)) (key : K) (lb : Nat)
    (hle : lb ≤ es.length) (hmiss : (es[lb]?).map Element.key ≠ some key) :
    lb = es.length ∨ ∃ b, es[lb]? = some b ∧ b.key ≠ key := by
  cases hg : es[lb]? with
  | none =>
    have := List.getElem?_eq_none_iff.1 hg
    exact Or.inl (by omega)
  | some b =>
    refine Or.inr ⟨b, rfl, ?_⟩
    intro hb
    apply hmiss
    rw [hg]
    simp [hb]

theorem InsertOrUpdateChild_length [LinearOrder K] (key : K) (value : V)
    (cs : List (Node K V)) :
    ∀ (i : Nat) (r : List (Node K V) × Option (Overflow K V)),
      Node.InsertOrUpdateChild cs i key value = some r → r.1.length = cs.length := by
  induction cs with
  | nil => intro i r h; simp [Node.InsertOrUpdateChild] at h
  | cons c cs ih =>
    intro i r h
    cases i with
    | zero =>
      simp only [Node.InsertOrUpdateChild] at h
      cases hc : c.InsertOrUpdate key value with
      | none => rw [hc] at h; cases h
      | some rc =>
        rw [hc] at h
        simp only [Option.some.injEq] at h
        rw [← h]
        rfl
    | succ i =>
      simp only [Node.InsertOrUpdateChild] at h
      cases hc : Node.InsertOrUpdateChild cs i key value with
      | none => rw [hc] at h; cases h
      | some rc =>
        rw [hc] at h
        simp only [Option.some.injEq] at h
        rw [← h]
        simp only [List.length_cons, Nat.add_right_cancel_iff]
        exact ih i rc hc

theorem InsertOrUpdateChildP_eq [LinearOrder K] (key : K) (value : V) (cs : List (Node K V))
    (ih : ∀ c ∈ cs, c.InsertOrUpdateP key value = c.InsertOrUpdate key value) :
    ∀ i, Node.InsertOrUpdateChildP cs i key value = Node.InsertOrUpdateChild cs i key value := by
  induction cs with
  | nil => intro i; rfl
  | cons c cs ihc =>
    intro i
    cases i with
    | zero =>
      simp only [Node.InsertOrUpdateChildP, Node.InsertOrUpdateChild,
        ih c (List.mem_cons_self _ _)]
    | succ i =>
      simp only [Node.InsertOrUpdateChildP, Node.InsertOrUpdateChild,
        ihc (fun x hx => ih x (List.mem_cons_of_mem _ hx)) i]

/-- On a subtree satisfying the structural invariants the pointer-level
`InsertOrUpdate` returns what the value-level one returns: no slot is read
out of range or after being moved, and no null slot is left in a node. -/
theorem InsertOrUpdateP_eq [LinearOrder K] (o : Nat) (n : Node K V) (key : K) (value : V)
    (hn : Node.Structural o n) : n.InsertOrUpdateP key value = n.InsertOrUpdate key value := by
  induction hn with
  | mk es cs hs hsz hcs hch ih =>
    rw [Node.InsertOrUpdateP, Node.InsertOrUpdate]
    cases hlb : Node.LowerBound es key with
    | none => rfl
    | some lb =>
      have hle := LowerBound_le es key lb hlb
      simp only
      split_ifs with h1 h2
      · rfl
      · exact InsertLeafP_eq o es lb key value hle (fun hr => by
          have := HasRoom_false hr
          omega)
      · have hne : cs ≠ [] := by
          intro h0
          rw [h0] at h2
          exact h2 rfl
        have hlen : cs.length = es.length + 1 := by
          rcases hcs with h0 | h0
          · exact absurd h0 hne
          · exact h0
        rw [InsertOrUpdateChildP_eq key value cs ih lb]
        cases hc : Node.InsertOrUpdateChild cs lb key value with
        | none => rfl
        | some r =>
          obtain ⟨cs1, ovc⟩ := r
          have hl1 : cs1.length = cs.length := InsertOrUpdateChild_length key value cs lb _ hc
          cases ovc with
          | none => rfl
          | some ov =>
            exact AbsorbOverflowP_eq o es cs1 lb ov hle (by omega) (fun hr => by
              have := HasRoom_false hr
              omega)

/-- On a subtree satisfying the structural invariants `InsertOrUpdate` returns
a result: every index it uses is in range. -/
theorem InsertOrUpdate_total [LinearOrder K] (o : Nat) (ho : 1 ≤ o) (n : Node K V) (key : K)
    (value : V) (hn : Node.Structural o n) : ∃ r, n.InsertOrUpdate key value = some r := by
  induction hn with
  | mk es cs hs hsz hcs hch ih =>
    obtain ⟨lb, hlb, hle, hhit | hmiss⟩ := LowerBound_hit_or_miss es key
    · obtain ⟨b, hb, hbk⟩ := hhit
      exact ⟨_, InsertOrUpdate_hit o es cs key value lb b hlb hb hbk⟩
    · rcases hcs with rfl | hlen
      · rw [InsertOrUpdate_leaf_miss o es key value lb hlb hmiss]
        by_cases hroom : es.length < o - 1
        · exact ⟨_, InsertLeaf_room o es lb key value (HasRoom_eq_true hroom) hle⟩
        · obtain ⟨L, x, R, hsp, hL⟩ :=
            list_split_at (es.take lb ++ ⟨key, value⟩ :: es.drop lb) (o / 2)
              (by rw [insertAt_length _ _ _ hle]; omega)
          exact ⟨_, InsertLeaf_split o es lb key value L R x (HasRoom_eq_false ho (by omega))
            hle (by omega) hL hsp⟩
      · have hlc : lb < cs.length := by omega
        have hc : cs[lb]? = some cs[lb] := List.getElem?_eq_getElem hlc
        obtain ⟨⟨c1, ovc⟩, hrec⟩ := ih cs[lb] (List.getElem_mem hlc)
        cases ovc with
        | none =>
          exact ⟨_, InsertOrUpdate_child_none o es cs key value lb cs[lb] c1 hlb hmiss hc hrec⟩
        | some ov =>
          by_cases hroom : es.length < o - 1
          · obtain ⟨hstep, -, -⟩ := InsertOrUpdate_child_overflow o es cs key value lb cs[lb] c1
              ov hlb hmiss hc hrec
            have hlen1 : (cs.take lb ++ c1 :: cs.drop (lb + 1)).length = cs.length := by
              simp only [List.length_append, List.length_take, List.length_cons,
                List.length_drop]
              omega
            obtain ⟨m, s⟩ := ov
            rw [AbsorbOverflow_room o es _ lb m s (HasRoom_eq_true hroom) hle (by omega)]
              at hstep
            exact ⟨_, hstep⟩
          · have hElen := insertAt_length lb ov.new_median es hle
            obtain ⟨EL, x, ER, hE, hEL⟩ :=
              list_split_at (es.take lb ++ ov.new_median :: es.drop lb) (o / 2) (by omega)
            have hClen : (cs.take lb ++ c1 :: ov.above_median :: cs.drop (lb + 1)).length =
                cs.length + 1 := by
              simp only [List.length_append, List.length_take, List.length_cons,
                List.length_drop]
              omega
            have hC := (List.take_append_drop (o / 2 + 1)
              (cs.take lb ++ c1 :: ov.above_median :: cs.drop (lb + 1))).symm
            exact ⟨_, InsertOrUpdate_internal_full o ho es cs key value lb cs[lb] c1 ov
              (by omega) hlen hlb hmiss hc hrec EL x ER _ _ hE hEL hC
              (by rw [List.length_take, hClen]; omega)⟩

/-- On a subtree satisfying the structural invariants `GetKey` returns a
result: every index it uses is in range. -/
theorem GetKey_total [LinearOrder K] (o : Nat) (n : Node K V) (key : K)
    (hn : Node.Structural o n) : ∃ r, n.GetKey key = some r := by
  induction hn with
  | mk es cs hs hsz hcs hch ih =>
    obtain ⟨lb, hlb, hle, hhit | hmiss⟩ := LowerBound_hit_or_miss es key
    · obtain ⟨b, hb, hbk⟩ := hhit
      exact ⟨_, GetKey_hit o es cs key lb b hlb hb hbk⟩
    · rw [GetKey_miss o es cs key lb hlb (miss_cases es key lb hle hmiss)]
      rcases hcs with rfl | hlen
      · exact ⟨_, rfl⟩
      · have hlc : lb < cs.length := by omega
        obtain ⟨CA, c, CB, rfl, hCA⟩ := children_split cs lb hlc
        have hne : (CA ++ c :: CB).isEmpty = false := by cases CA <;> rfl
        rw [hne, ← hCA, GetKeyChild_eq]
        simp only [Bool.false_eq_true, if_false]
        exact ih c (by simp)

/-- C19 (no out-of-range access, no null left or read).  For every odd order
at least 3 and every node whose subtree satisfies the structural invariants
(elements strictly increasing, at most `order - 1` of them, no children or one
more child than elements; the entries of a node are values, never null):
`LowerBound`, `GetKey` and `InsertOrUpdate` return a result, so every index
they use is within the bounds of its vector; and `InsertOrUpdate` with its
moves run on nullable slots returns the same result, so it reads no slot out
of range or after it was moved from, and it leaves no null slot in a node. -/
theorem C19_no_out_of_range [LinearOrder K] (order : Nat) (h3 : 3 ≤ order)
    (_hodd : order % 2 = 1) (n : Node K V) (hn : Node.Structural order n) (key : K)
    (value : V) :
    (∃ i, Node.LowerBound n.elements key = some i ∧ i ≤ n.elements.length) ∧
      (∃ r, n.GetKey key = some r) ∧
      (∃ r, n.InsertOrUpdate key value = some r ∧ n.InsertOrUpdateP key value = some r) := by
  refine ⟨?_, GetKey_total order n key hn, ?_⟩
  · obtain ⟨lb, hlb, hle, -⟩ := LowerBound_hit_or_miss n.elements key
    exact ⟨lb, hlb, hle⟩
  · obtain ⟨r, hr⟩ := InsertOrUpdate_total order (by omega) n key value hn
    exact ⟨r, hr, by rw [InsertOrUpdateP_eq order n key value hn, hr]⟩

theorem C19_no_out_of_range_witness :
    3 ≤ 3 ∧ 3 % 2 = 1 ∧
      Node.Structural 3 (Node.mk 3 [⟨30, 300⟩, ⟨50, 500⟩]
        [.mk 3 [⟨10, 100⟩, ⟨20, 200⟩] [], .mk 3 [⟨40, 400⟩] [], .mk 3 [⟨60, 600⟩] []] :
          Node Nat Nat) ∧
      ((∃ i, Node.LowerBound (Node.mk 3 [⟨30, 300⟩, ⟨50, 500⟩]
          [.mk 3 [⟨10, 100⟩, ⟨20, 200⟩] [], .mk 3 [⟨40, 400⟩] [], .mk 3 [⟨60, 600⟩] []] :
            Node Nat Nat).elements 5 = some i ∧
          i ≤ (Node.mk 3 [⟨30, 300⟩, ⟨50, 500⟩]
            [.mk 3 [⟨10, 100⟩, ⟨20, 200⟩] [], .mk 3 [⟨40, 400⟩] [], .mk 3 [⟨60, 600⟩] []] :
              Node Nat Nat).elements.length) ∧
        (∃ r, (Node.mk 3 [⟨30, 300⟩, ⟨50, 500⟩]
          [.mk 3 [⟨10, 100⟩, ⟨20, 200⟩] [], .mk 3 [⟨40, 400⟩] [], .mk 3 [⟨60, 600⟩] []] :
            Node Nat Nat).GetKey 5 = some r) ∧
        (∃ r, (Node.mk 3 [⟨30, 300⟩, ⟨50, 500⟩]
          [.mk 3 [⟨10, 100⟩, ⟨20, 200⟩] [], .mk 3 [⟨40, 400⟩] [], .mk 3 [⟨60, 600⟩] []] :
            Node Nat Nat).InsertOrUpdate 5 50 = some r ∧
          (Node.mk 3 [⟨30, 300⟩, ⟨50, 500⟩]
            [.mk 3 [⟨10, 100⟩, ⟨20, 200⟩] [], .mk 3 [⟨40, 400⟩] [], .mk 3 [⟨60, 600⟩] []] :
              Node Nat Nat).InsertOrUpdateP 5 50 = some r)) :=
  (fun hn => ⟨by decide, by decide, hn,
    C19_no_out_of_range 3 (by decide) (by decide) _ hn 5 50⟩)
    (Node.Structural.mk _ _ (by simp [SortedKeys]) (by decide) (Or.inr (by decide))
      (by
        intro c hc
        simp only [List.mem_cons, List.mem_singleton, List.not_mem_nil, or_false] at hc
        rcases hc with rfl | rfl | rfl
        · exact Node.Structural.mk _ _ (by simp [SortedKeys]) (by decide) (Or.inl rfl)
            (by simp)
        · exact Node.Structural.mk _ _ (by simp [SortedKeys]) (by decide) (Or.inl rfl)
            (by simp)
        · exact Node.Structural.mk _ _ (by simp [SortedKeys]) (by decide) (Or.inl rfl)
            (by simp)))

/-- The pointer-level model does fault: a slot cannot be moved from twice. -/
theorem moveSlot_twice_faults :
    (moveSlot ([some 1, some 2] : List (Option Nat)) 0).bind (fun r => moveSlot r.2 0) = none := by
  rfl

/-- The pointer-level model does fault: a vector grown by `resize` holds a
null slot. -/
theorem noNull_resizeP_grow_faults :
    noNull (resizeP ([some 1] : List (Option Nat)) 2) = none := by
  rfl

end BT
